import Mathlib

/-!
Verification of the Keras Functional graph engine and model-persistence layer
(`keras/models/functional.py`, `keras/saving/saving_lib.py`).

Shallow embedding conventions:
* Tensor shapes are `List (Option Nat)` (`none` is Python's `None` dimension).
* Python exceptions become `Except` errors; the error constructors record the
  Python exception class where control flow depends on it (e.g. the
  reconstruction loop catches `IndexError` but not `ValueError`).
* Python `dict`s keyed by objects with unique names become association lists.
-/

namespace Keras

/-- A single tensor dimension: `some n` for a known size, `none` for `None`. -/
abbrev Dim := Option Nat

/-- A tensor shape, e.g. `[none, some 4]` for `(None, 4)`. -/
abbrev Shape := List Dim

/-! ### String primitives

Character-list implementations of the Python string operations the sources
use (`endswith`, `startswith`, `replace`, `upper`, `int()` parsing), so that
every definition in this file evaluates by kernel reduction. -/

/-- Python `s.endswith(suffix)`. -/
def strEndsWith (s suffix : String) : Bool :=
  List.isSuffixOf suffix.toList s.toList

/-- Python `s.startswith(pre)`. -/
def strStartsWith (s p : String) : Bool :=
  List.isPrefixOf p.toList s.toList

/-- All occurrences of `pat` replaced by `new`, left to right (Python
`str.replace`); the fuel is the input length, which suffices since each step
consumes at least one character. -/
def replaceFuel (pat new : List Char) : Nat → List Char → List Char
  | _, [] => []
  | 0, cs => cs
  | fuel + 1, c :: rest =>
    if !pat.isEmpty && List.isPrefixOf pat (c :: rest) then
      new ++ replaceFuel pat new fuel ((c :: rest).drop pat.length)
    else c :: replaceFuel pat new fuel rest

/-- Python `s.replace(pat, new)`. -/
def strReplace (s pat new : String) : String :=
  String.mk (replaceFuel pat.toList new.toList s.toList.length s.toList)

/-- ASCII uppercase of one character. -/
def charUpper (c : Char) : Char :=
  if 'a' ≤ c && c ≤ 'z' then Char.ofNat (c.toNat - 32) else c

/-- Python `s.upper()` (ASCII). -/
def strUpper (s : String) : String := String.mk (s.toList.map charUpper)

/-- ASCII digit test. -/
def isAsciiDigit (c : Char) : Bool := '0' ≤ c && c ≤ '9'

/-- Python `int(s)` on a plain digit string, `none` where `int()` raises
`ValueError`. -/
def strToNat (s : String) : Option Nat :=
  if !s.toList.isEmpty && s.toList.all isAsciiDigit then
    some (s.toList.foldl (fun n c => n * 10 + (c.toNat - 48)) 0)
  else none

/-! ## `Functional._adjust_input_rank` (functional.py lines 275-302)

The code compares each flat input's rank against the declared input's rank and
squeezes / expands a single trailing unit dimension; any other mismatch raises
`ValueError`.  A concrete runtime input has all dimensions known, so its shape
is a `List Nat`; the declared reference shape may contain `None` dims. -/

/-- Outcome of adjusting one flat input: which operation was applied and the
resulting shape. -/
inductive Adjusted where
  | unchanged (s : List Nat)
  | squeezed (s : List Nat)
  | expanded (s : List Nat)
deriving DecidableEq, Repr

/-- `Functional._adjust_input_rank`, per-input body.  Mirrors the source:
rank equal passes through; rank one greater squeezes the trailing axis iff it
is 1; rank one smaller expands iff the declared trailing dim is 1; every other
case raises `ValueError`. -/
def adjustOneInput (xShape : List Nat) (refShape : Shape) : Except String Adjusted :=
  let xRank := xShape.length
  let refRank := refShape.length
  if xRank = refRank then
    .ok (.unchanged xShape)
  else if xRank = refRank + 1 ∧ xShape.getLast? = some 1 then
    .ok (.squeezed xShape.dropLast)
  else if xRank + 1 = refRank ∧ refShape.getLast? = some (some 1) then
    .ok (.expanded (xShape ++ [1]))
  else
    .error "Invalid input shape for input"

/-- `Functional._adjust_input_rank` over the zipped list of flat inputs and
reference shapes (the source iterates `zip(flat_inputs, flat_ref_shapes)`). -/
def adjustInputRank (flatInputs : List (List Nat)) (refShapes : List Shape) :
    Except String (List Adjusted) :=
  (flatInputs.zip refShapes).mapM (fun p => adjustOneInput p.1 p.2)

/-! ## `_check_output_activation_softmax` (functional.py lines 813-871)

Layers are abstracted to the attributes the check reads: whether the layer is
a `Dense`/`BaseConv`, whether it has an `activation` attribute, what kind of
activation it is, and the layer's output shape. -/

/-- The activation cases distinguished by `_check_output_activation_softmax`:
a `Softmax` layer instance carrying an `axis` attribute, a `Softmax` instance
whose `axis` access raises `AttributeError`, a plain function whose signature
contains `axis=-1` or `axis=None` (e.g. `keras.activations.softmax`, which the
string "softmax" resolves to), or anything else. -/
inductive Activation where
  | softmaxLayer (axis : Int)
  | softmaxLayerNoAxis
  | softmaxFn
  | otherFn
deriving DecidableEq, Repr

/-- The attributes of an output layer read by the softmax check. -/
structure CheckedLayer where
  isDenseOrConv : Bool
  hasActivation : Bool
  activation : Activation
  outputShape : Shape
deriving DecidableEq, Repr

/-- Errors surfaced by the softmax check: the `ValueError` for a single-unit
softmax output, or the `IndexError` Python raises when the softmax axis is out
of range for the layer's output shape. -/
inductive CheckErr where
  | softmaxSingleUnit (layerName : String)
  | indexError
deriving DecidableEq, Repr

/-- Python sequence indexing with negative-index support: `l[i]` for `i : Int`,
returning `none` where Python raises `IndexError`. -/
def pyIndex (l : Shape) (i : Int) : Option Dim :=
  if 0 ≤ i then
    if h : i.toNat < l.length then some (l.get ⟨i.toNat, h⟩) else none
  else
    let j : Int := i + l.length
    if 0 ≤ j then
      if h : j.toNat < l.length then some (l.get ⟨j.toNat, h⟩) else none
    else none

/-- One iteration of the loop body of `_check_output_activation_softmax` for a
layer that survived the `Dense`/`BaseConv` filter. -/
def checkOneOutputLayer (layerName : String) (layer : CheckedLayer) :
    Except CheckErr Unit :=
  if layer.hasActivation then
    match layer.activation with
    | .softmaxLayer axis =>
        match pyIndex layer.outputShape axis with
        | none => .error .indexError
        | some d =>
            if d = some 1 then .error (.softmaxSingleUnit layerName) else .ok ()
    | .softmaxLayerNoAxis => .ok ()    -- `AttributeError` → `continue`
    | .softmaxFn =>
        match pyIndex layer.outputShape (-1) with
        | none => .error .indexError
        | some d =>
            if d = some 1 then .error (.softmaxSingleUnit layerName) else .ok ()
    | .otherFn => .ok ()               -- cannot check → `continue`
  else .ok ()

/-- `_check_output_activation_softmax`: filter to `Dense`/`BaseConv` layers,
then run the per-layer check over the mapping's items. -/
def checkOutputActivationSoftmax (outputLayers : List (String × CheckedLayer)) :
    Except CheckErr Unit :=
  (outputLayers.filter (fun p => p.2.isDenseOrConv)).forM
    (fun p => checkOneOutputLayer p.1 p.2)

/-- The tail of `Functional.__init__` (lines 157-180): `validate_softmax` is
popped from kwargs with default `True`, and the check runs only when it is set. -/
def functionalInitSoftmaxCheck (validateOutputActivation : Bool)
    (outputLayers : List (String × CheckedLayer)) : Except CheckErr Unit :=
  if validateOutputActivation then checkOutputActivationSoftmax outputLayers
  else .ok ()

/-- A `Dense(units, activation="softmax")` output layer as seen by the check:
a `Dense` instance whose `activation` resolved to `keras.activations.softmax`
(signature contains `axis=-1`) and whose output shape is `(None, units)`.
Modelled from the spec: the `Dense` class itself is not under `src/`; the spec
describes the scenario "a model whose final Dense layer has `units=1,
activation=\"softmax\"`". -/
def denseSoftmax (units : Nat) : CheckedLayer :=
  { isDenseOrConv := true
    hasActivation := true
    activation := .softmaxFn
    outputShape := [none, some units] }

/-! ## `Functional.__init__` inputs/outputs validation (functional.py 102-155)

The constructor accepts a single tensor, a list/tuple, or a dict; it checks
every leaf is a `KerasTensor` and, for the `inputs` dict only, warns when a
dict key differs from the tensor's declared name. -/

/-- A Python value as the validation sees it: a `KerasTensor` carrying its
declared name, or any other object. -/
inductive PyValue where
  | kerasTensor (name : String)
  | other (desc : String)
deriving DecidableEq, Repr

/-- The structure of the `inputs`/`outputs` argument: a dict, a list/tuple, or
a single value.  A single non-`KerasTensor` value is the "unrecognized type"
case; a nested container appears as a `.other` leaf (the code only inspects
one level). -/
inductive TensorArg where
  | single (v : PyValue)
  | listOf (vs : List PyValue)
  | dictOf (kvs : List (String × PyValue))
deriving DecidableEq, Repr

/-- Sequence a fallible function over a list, stopping at the first error
(the shape of every Python `for` loop over fallible steps in this file). -/
def exceptMapList {α β ε : Type} (f : α → Except ε β) : List α → Except ε (List β)
  | [] => .ok []
  | a :: as =>
    match f a with
    | .error e => .error e
    | .ok b =>
      match exceptMapList f as with
      | .error e => .error e
      | .ok bs => .ok (b :: bs)

/-- Sequence a partial function over a list. -/
def optionMapList {α β : Type} (f : α → Option β) : List α → Option (List β)
  | [] => some []
  | a :: as =>
    match f a with
    | none => none
    | some b =>
      match optionMapList f as with
      | none => none
      | some bs => some (b :: bs)

/-- Whether a value passes `isinstance(v, backend.KerasTensor)`. -/
def PyValue.isKerasTensor : PyValue → Bool
  | .kerasTensor _ => true
  | .other _ => false

/-- Dict-branch loop of the `inputs` validation: each value must be a
`KerasTensor` (`ValueError` otherwise) and a key differing from the tensor's
name appends a warning. -/
def validateInputsDict (kvs : List (String × PyValue)) :
    Except String (List String) :=
  match kvs with
  | [] => .ok []
  | (k, v) :: rest =>
    match v with
    | .other _ => .error "When providing inputs as a dict, all values in the dict must be KerasTensors"
    | .kerasTensor name =>
      match validateInputsDict rest with
      | .error e => .error e
      | .ok ws => .ok (if k ≠ name then k :: ws else ws)

/-- List/tuple-branch loop: every element must be a `KerasTensor`. -/
def validateTensorList (vs : List PyValue) : Except String Unit :=
  if vs.all PyValue.isKerasTensor then .ok ()
  else .error "all values in the list/tuple must be KerasTensors"

/-- Validation of the `inputs` argument; returns the list of warned keys. -/
def validateInputsArg : TensorArg → Except String (List String)
  | .dictOf kvs => validateInputsDict kvs
  | .listOf vs =>
      match validateTensorList vs with
      | .error e => .error e
      | .ok _ => .ok []
  | .single v =>
      if v.isKerasTensor then .ok []
      else .error "Unrecognized type for inputs"

/-- Validation of the `outputs` argument.  The source's `outputs` dict branch
checks only that values are `KerasTensors`; unlike the `inputs` branch it has
no key-name comparison, so it can never warn. -/
def validateOutputsArg : TensorArg → Except String Unit
  | .dictOf kvs =>
      if (kvs.map Prod.snd).all PyValue.isKerasTensor then .ok ()
      else .error "When providing outputs as a dict, all values in the dict must be KerasTensors"
  | .listOf vs => validateTensorList vs
  | .single v =>
      if v.isKerasTensor then .ok ()
      else .error "Unrecognized type for outputs"

/-- The validation part of `Functional.__init__`: `inputs` is validated first
(its errors surface first), then `outputs`; the result carries the warnings
produced (all from the `inputs` dict branch). -/
def functionalInitValidate (inputs outputs : TensorArg) :
    Except String (List String) :=
  match validateInputsArg inputs with
  | .error e => .error e
  | .ok ws =>
    match validateOutputsArg outputs with
    | .error e => .error e
    | .ok _ => .ok ws

/-- All leaves of a `TensorArg` are `KerasTensor`s. -/
def TensorArg.allKerasTensors : TensorArg → Bool
  | .single v => v.isKerasTensor
  | .listOf vs => vs.all PyValue.isKerasTensor
  | .dictOf kvs => (kvs.map Prod.snd).all PyValue.isKerasTensor

/-- The dict keys that differ from their tensor's declared name (the keys the
`inputs` branch warns about). -/
def TensorArg.mismatchKeys : TensorArg → List String
  | .dictOf kvs =>
      kvs.filterMap (fun kv =>
        match kv.2 with
        | .kerasTensor n => if kv.1 ≠ n then some kv.1 else none
        | .other _ => none)
  | _ => []

/-! ## Trackable state walker (saving_lib.py lines 298-493)

Objects live in a heap indexed by their Python `id()`.  A trackable is
abstracted to the attributes the walker reads: its class membership flags (for
`_walk_trackable`'s classification and `_is_keras_trackable`), its
save/load capabilities (`hasattr` checks), whether its `load_own_variables` /
`load_assets` call raises, and its walked attributes.  The attribute list
stands for `sorted(dir(trackable))` minus the skip-list, which is pure
reflection and is abstracted as given data; the path bookkeeping
(`inner_path`, snake-case container names) is orthogonal to the visited-set
claims and is omitted. -/

/-- An attribute value as the walker's branches see it: an object reference
(recursed into when `_is_keras_trackable`), a list/dict/tuple/set whose
elements are heap references, or anything else (skipped). -/
inductive ChildRef where
  | obj (i : Nat)
  | cont (els : List Nat)
  | plain
deriving DecidableEq, Repr

/-- A trackable object in the heap. -/
structure TObj where
  isSequential : Bool
  isFunctional : Bool
  isLayer : Bool
  isOptimizer : Bool
  isMetric : Bool
  isLoss : Bool
  hasSaveVars : Bool
  hasSaveAssets : Bool
  hasLoadVars : Bool
  hasLoadAssets : Bool
  loadVarsFails : Bool
  loadAssetsFails : Bool
  attrs : List (String × ChildRef)
deriving DecidableEq, Repr

/-- `_is_keras_trackable`: instance of `Layer`, `Optimizer`, `Metric` or
`Loss`. -/
def TObj.isKerasTrackable (t : TObj) : Bool :=
  t.isLayer || t.isOptimizer || t.isMetric || t.isLoss

/-- `obj_type` values assigned by `_walk_trackable`. -/
inductive ObjType where
  | sequentialT | functionalT | layerT | optimizerT | metricT | lossT
deriving DecidableEq, Repr

/-- Errors the walker can raise: the trailing invalid-`obj_type` branch of
`_walk_trackable`, or an exception from a trackable's own-state load. -/
inductive WalkErr where
  | invalidObjType
  | varsFailure (i : Nat)
  | assetsFailure (i : Nat)
deriving DecidableEq, Repr

/-- The classification chain of `_walk_trackable` (its final branch raises;
the source spells it `raise ValueError(f"Invalid obj_type: {obj_type}")`,
itself referencing `obj_type` before assignment). -/
def classifyTrackable (t : TObj) : Except WalkErr ObjType :=
  if t.isSequential then .ok .sequentialT
  else if t.isFunctional then .ok .functionalT
  else if t.isLayer then .ok .layerT
  else if t.isOptimizer then .ok .optimizerT
  else if t.isMetric then .ok .metricT
  else if t.isLoss then .ok .lossT
  else .error .invalidObjType

/-- `_walk_trackable`: classify (possibly raising), then yield the walked
attributes. -/
def walkTrackable (t : TObj) : Except WalkErr (List (String × ChildRef)) :=
  (classifyTrackable t).map (fun _ => t.attrs)

/-- Events recorded by a save pass. -/
inductive SaveEvent where
  | savedVars (i : Nat)
  | savedAssets (i : Nat)
deriving DecidableEq, Repr

/-- Events recorded by a load pass: a successful own-state load, or the
warning emitted under `skip_mismatch` when the load raised. -/
inductive LoadEvent where
  | loadedVars (i : Nat)
  | warnedVars (i : Nat)
  | loadedAssets (i : Nat)
  | warnedAssets (i : Nat)
deriving DecidableEq, Repr

/-- Heap ids whose own variables were saved. -/
def savedVarsIds (es : List SaveEvent) : List Nat :=
  es.filterMap fun e => match e with | .savedVars i => some i | _ => none

/-- Heap ids whose assets were saved. -/
def savedAssetsIds (es : List SaveEvent) : List Nat :=
  es.filterMap fun e => match e with | .savedAssets i => some i | _ => none

/-- Heap id of a save event. -/
def SaveEvent.id : SaveEvent → Nat
  | .savedVars i => i
  | .savedAssets i => i

/-- Heap ids whose own variables were load-attempted (loaded or warned). -/
def loadVarsIds (es : List LoadEvent) : List Nat :=
  es.filterMap fun e =>
    match e with
    | .loadedVars i => some i
    | .warnedVars i => some i
    | _ => none

/-- Heap ids whose assets were load-attempted (loaded or warned). -/
def loadAssetsIds (es : List LoadEvent) : List Nat :=
  es.filterMap fun e =>
    match e with
    | .loadedAssets i => some i
    | .warnedAssets i => some i
    | _ => none

/-- Heap id of a load event. -/
def LoadEvent.id : LoadEvent → Nat
  | .loadedVars i => i
  | .warnedVars i => i
  | .loadedAssets i => i
  | .warnedAssets i => i

/-- Whether a load event is a `skip_mismatch` warning. -/
def LoadEvent.isWarning : LoadEvent → Bool
  | .warnedVars _ => true
  | .warnedAssets _ => true
  | _ => false

/-- The own-state events of one `_save_state` visit: save own variables (when
the object exposes the capability and a weights store is present), then save
assets. -/
def ownSaveEvents (t : TObj) (wStore aStore : Bool) (i : Nat) : List SaveEvent :=
  (if t.hasSaveVars && wStore then [SaveEvent.savedVars i] else []) ++
  (if t.hasSaveAssets && aStore then [SaveEvent.savedAssets i] else [])

/-! `_save_state` / `_save_container_state` (lines 329-368, 439-463), with a
structural fuel bound standing in for Python's unbounded recursion (fuel
exhaustion returns the state unchanged; the visited-set claims hold for every
fuel).  Order follows the source: visited check, save own variables, save
assets, mark visited, then walk children (the `_walk_trackable` classification
runs when the child iteration starts). -/
mutual

def saveState (heap : Nat → TObj) (wStore aStore : Bool) :
    Nat → Nat → List Nat → Except WalkErr (List Nat × List SaveEvent)
  | 0, _, visited => .ok (visited, [])
  | fuel + 1, i, visited =>
    if visited.contains i then .ok (visited, [])
    else
      match walkTrackable (heap i) with
      | .error e => .error e
      | .ok attrs =>
        match saveChildren heap wStore aStore fuel attrs (i :: visited) with
        | .error e => .error e
        | .ok (v2, es2) =>
            .ok (v2, ownSaveEvents (heap i) wStore aStore i ++ es2)

def saveChildren (heap : Nat → TObj) (wStore aStore : Bool) :
    Nat → List (String × ChildRef) → List Nat →
    Except WalkErr (List Nat × List SaveEvent)
  | 0, _, visited => .ok (visited, [])
  | _ + 1, [], visited => .ok (visited, [])
  | fuel + 1, (_, c) :: rest, visited =>
    let step : Except WalkErr (List Nat × List SaveEvent) :=
      match c with
      | .obj j =>
          if (heap j).isKerasTrackable then saveState heap wStore aStore fuel j visited
          else .ok (visited, [])
      | .cont els => saveElems heap wStore aStore fuel els visited
      | .plain => .ok (visited, [])
    match step with
    | .error e => .error e
    | .ok (v1, es1) =>
      match saveChildren heap wStore aStore fuel rest v1 with
      | .error e => .error e
      | .ok (v2, es2) => .ok (v2, es1 ++ es2)

def saveElems (heap : Nat → TObj) (wStore aStore : Bool) :
    Nat → List Nat → List Nat → Except WalkErr (List Nat × List SaveEvent)
  | 0, _, visited => .ok (visited, [])
  | _ + 1, [], visited => .ok (visited, [])
  | fuel + 1, j :: rest, visited =>
    let step : Except WalkErr (List Nat × List SaveEvent) :=
      if (heap j).isKerasTrackable then saveState heap wStore aStore fuel j visited
      else .ok (visited, [])
    match step with
    | .error e => .error e
    | .ok (v1, es1) =>
      match saveElems heap wStore aStore fuel rest v1 with
      | .error e => .error e
      | .ok (v2, es2) => .ok (v2, es1 ++ es2)

end

/-- The revisit guard of `_load_state`:
`if visited_trackables and id(trackable) in visited_trackables` — Python
truthiness of the set conjoined with membership. -/
def loadRevisitGuard (visited : List Nat) (i : Nat) : Bool :=
  !visited.isEmpty && visited.contains i

/-- The `load_own_variables` step of one `_load_state` visit: under
`skip_mismatch` a raising load is caught and recorded as a warning; otherwise
it propagates as the failure. -/
def loadVarsStep (t : TObj) (wStore skip : Bool) (i : Nat) :
    Except WalkErr (List LoadEvent) :=
  if t.hasLoadVars && wStore then
    if t.loadVarsFails then
      if skip then .ok [.warnedVars i] else .error (.varsFailure i)
    else .ok [.loadedVars i]
  else .ok []

/-- The `load_assets` step of one `_load_state` visit. -/
def loadAssetsStep (t : TObj) (aStore skip : Bool) (i : Nat) :
    Except WalkErr (List LoadEvent) :=
  if t.hasLoadAssets && aStore then
    if t.loadAssetsFails then
      if skip then .ok [.warnedAssets i] else .error (.assetsFailure i)
    else .ok [.loadedAssets i]
  else .ok []

/-! `_load_state` / `_load_container_state` (lines 371-437, 466-493), fuel as
in `saveState`.  Under `skip_mismatch` a raising `load_own_variables` /
`load_assets` is caught and recorded as a warning; otherwise it propagates. -/
mutual

def loadState (heap : Nat → TObj) (wStore aStore skip : Bool) :
    Nat → Nat → List Nat → Except WalkErr (List Nat × List LoadEvent)
  | 0, _, visited => .ok (visited, [])
  | fuel + 1, i, visited =>
    if loadRevisitGuard visited i then .ok (visited, [])
    else
      match loadVarsStep (heap i) wStore skip i with
      | .error e => .error e
      | .ok es0 =>
        match loadAssetsStep (heap i) aStore skip i with
        | .error e => .error e
        | .ok es1 =>
          match walkTrackable (heap i) with
          | .error e => .error e
          | .ok attrs =>
            match loadChildren heap wStore aStore skip fuel attrs (i :: visited) with
            | .error e => .error e
            | .ok (v2, es2) => .ok (v2, es0 ++ es1 ++ es2)

def loadChildren (heap : Nat → TObj) (wStore aStore skip : Bool) :
    Nat → List (String × ChildRef) → List Nat →
    Except WalkErr (List Nat × List LoadEvent)
  | 0, _, visited => .ok (visited, [])
  | _ + 1, [], visited => .ok (visited, [])
  | fuel + 1, (_, c) :: rest, visited =>
    let step : Except WalkErr (List Nat × List LoadEvent) :=
      match c with
      | .obj j =>
          if (heap j).isKerasTrackable then
            loadState heap wStore aStore skip fuel j visited
          else .ok (visited, [])
      | .cont els => loadElems heap wStore aStore skip fuel els visited
      | .plain => .ok (visited, [])
    match step with
    | .error e => .error e
    | .ok (v1, es1) =>
      match loadChildren heap wStore aStore skip fuel rest v1 with
      | .error e => .error e
      | .ok (v2, es2) => .ok (v2, es1 ++ es2)

def loadElems (heap : Nat → TObj) (wStore aStore skip : Bool) :
    Nat → List Nat → List Nat → Except WalkErr (List Nat × List LoadEvent)
  | 0, _, visited => .ok (visited, [])
  | _ + 1, [], visited => .ok (visited, [])
  | fuel + 1, j :: rest, visited =>
    let step : Except WalkErr (List Nat × List LoadEvent) :=
      if (heap j).isKerasTrackable then
        loadState heap wStore aStore skip fuel j visited
      else .ok (visited, [])
    match step with
    | .error e => .error e
    | .ok (v1, es1) =>
      match loadElems heap wStore aStore skip fuel rest v1 with
      | .error e => .error e
      | .ok (v2, es2) => .ok (v2, es1 ++ es2)

end

/-- Invariant of one save walk returning `(v2, es)` from visited set `v0`:
the visited set grows, every event's object was unvisited before and is
visited after, and no object's variables or assets are saved twice. -/
def SaveInv (v0 v2 : List Nat) (es : List SaveEvent) : Prop :=
  (∀ x, x ∈ v0 → x ∈ v2) ∧
  (∀ e ∈ es, SaveEvent.id e ∉ v0 ∧ SaveEvent.id e ∈ v2) ∧
  (savedVarsIds es).Nodup ∧ (savedAssetsIds es).Nodup

/-- The load-walk analogue of `SaveInv`. -/
def LoadInv (v0 v2 : List Nat) (es : List LoadEvent) : Prop :=
  (∀ x, x ∈ v0 → x ∈ v2) ∧
  (∀ e ∈ es, LoadEvent.id e ∉ v0 ∧ LoadEvent.id e ∈ v2) ∧
  (loadVarsIds es).Nodup ∧ (loadAssetsIds es).Nodup

/-- A concrete heap for the walker claims: object 0 references objects 1 and
2 through two attributes, object 1 also references object 2 (sharing), and
object 2 references object 0 (a reference cycle); object 3 fails its
own-variables load. -/
def demoHeap : Nat → TObj
  | 0 => { isSequential := false, isFunctional := true, isLayer := true
           isOptimizer := false, isMetric := false, isLoss := false
           hasSaveVars := true, hasSaveAssets := true
           hasLoadVars := true, hasLoadAssets := false
           loadVarsFails := false, loadAssetsFails := false
           attrs := [("d1", .obj 1), ("d2", .obj 2), ("zs", .cont [1, 2])] }
  | 1 => { isSequential := false, isFunctional := false, isLayer := true
           isOptimizer := false, isMetric := false, isLoss := false
           hasSaveVars := true, hasSaveAssets := false
           hasLoadVars := true, hasLoadAssets := false
           loadVarsFails := false, loadAssetsFails := false
           attrs := [("shared", .obj 2), ("x", .plain)] }
  | 2 => { isSequential := false, isFunctional := false, isLayer := true
           isOptimizer := false, isMetric := false, isLoss := false
           hasSaveVars := true, hasSaveAssets := false
           hasLoadVars := true, hasLoadAssets := false
           loadVarsFails := false, loadAssetsFails := false
           attrs := [("owner", .obj 0)] }
  | 3 => { isSequential := false, isFunctional := false, isLayer := true
           isOptimizer := false, isMetric := false, isLoss := false
           hasSaveVars := true, hasSaveAssets := false
           hasLoadVars := true, hasLoadAssets := false
           loadVarsFails := true, loadAssetsFails := false
           attrs := [("child", .obj 1)] }
  | _ => { isSequential := false, isFunctional := false, isLayer := false
           isOptimizer := false, isMetric := false, isLoss := false
           hasSaveVars := false, hasSaveAssets := false
           hasLoadVars := false, hasLoadAssets := false
           loadVarsFails := false, loadAssetsFails := false
           attrs := [] }

/-! ## Sharded H5 weights store (saving_lib.py lines 599-722)

A shard file is modelled as a named list of groups; each group couples a
logical path with the variables written under its `vars` subgroup (variable
name and byte size — `current_shard_size` sums dataset `nbytes`).  The disk is
an association list of filenames to contents (assignment overwrites, as
`h5py.File(path, "w")` truncates an existing file).  The archive-embedded
variant shares the same logic and is not modelled separately. -/

/-- The variables written under one `vars` group: name and `nbytes`. -/
abbrev Vars := List (String × Nat)

/-- One physical HDF5 shard file. -/
structure H5File where
  name : String
  groups : List (String × Vars)
deriving DecidableEq, Repr

/-- Total dataset bytes in a file, as summed by `ShardedH5IOStore.make`'s
`visit(_get_size)`. -/
def H5File.size (f : H5File) : Nat :=
  (f.groups.map (fun g => (g.2.map Prod.snd).sum)).sum

/-- The HDF5 absolute name of the `vars` group for a logical path:
`make("")` creates `/vars`, `make(p)` creates `/p/vars`.  This is the
`group.name` keyed into `var_shard_map`. -/
def groupName (p : String) : String :=
  if p = "" then "/vars" else "/" ++ p ++ "/vars"

/-- The shard map persisted as the sibling JSON index. -/
abbrev ShardMap := List (String × String)

/-- Python dict assignment on an association list: overwrite in place at an
existing key, else append. -/
def assocUpdate {β : Type} (m : List (String × β)) (k : String) (v : β) :
    List (String × β) :=
  match m with
  | [] => [(k, v)]
  | e :: rest => if e.1 = k then (k, v) :: rest else e :: assocUpdate rest k v

/-- `convert_str_bytes_to_int`: parse `"10GB"`-style sizes (suffix checked
case-insensitively); a non-numeric prefix is Python's `int()` `ValueError`. -/
def convertStrBytesToInt (size : String) : Except String Nat :=
  if strEndsWith (strUpper size) "GB" then
    match strToNat (String.mk (size.toList.dropLast.dropLast)) with
    | some n => .ok (n * 10 ^ 9)
    | none => .error "invalid literal for int()"
  else if strEndsWith (strUpper size) "MB" then
    match strToNat (String.mk (size.toList.dropLast.dropLast)) with
    | some n => .ok (n * 10 ^ 6)
    | none => .error "invalid literal for int()"
  else if strEndsWith (strUpper size) "KB" then
    match strToNat (String.mk (size.toList.dropLast.dropLast)) with
    | some n => .ok (n * 10 ^ 3)
    | none => .error "invalid literal for int()"
  else .error "Invalid format for `size`"

/-- Whether the pattern `_\d\.weights\.h5` matches at the head of `cs`. -/
def shardPatHere (cs : List Char) : Bool :=
  match cs with
  | '_' :: d :: rest => isAsciiDigit d && List.isPrefixOf ".weights.h5".toList rest
  | _ => false

/-- Index of the first match of `_\d\.weights\.h5`, if any. -/
def shardPatIdx : List Char → Option Nat
  | [] => none
  | c :: rest =>
    if shardPatHere (c :: rest) then some 0
    else (shardPatIdx rest).map (· + 1)

/-- `pattern.split(path)[0]`: the text before the first `_\d\.weights\.h5`
match, or the whole string when there is none. -/
def preDuplicate (path : String) : String :=
  match shardPatIdx path.toList with
  | none => path
  | some i => String.mk (path.toList.take i)

/-- `resolve_duplicate_filename`. -/
def resolveDuplicateFilename (path : String) (pathList : List String) : String :=
  let pre := preDuplicate path
  if !strEndsWith pre ".weights.h5" then
    let matchList := pathList.filter (fun x => strStartsWith x pre)
    if matchList.length > 1 then
      pre ++ "_" ++ toString matchList.length ++ ".weights.h5"
    else strReplace path ".weights.h5" "_1.weights.h5"
  else strReplace path ".weights.h5" "_1.weights.h5"

/-- `root_path.replace(".weights.h5", ".weights.json")`: the sibling shard-map
filename, fixed at `__init__` from the original root path. -/
def shardMapFileName (root : String) : String :=
  strReplace root ".weights.h5" ".weights.json"

/-- The disk: HDF5 files and JSON files by name. -/
structure FS where
  h5s : List (String × H5File)
  jsons : List (String × ShardMap)
deriving DecidableEq, Repr

/-- `ShardedH5IOStore` opened with `mode="w"` (no archive). -/
structure WStore where
  origRoot : String
  rootPath : String
  maxSize : Nat
  shardList : List String
  closed : List H5File
  cur : H5File
  varShardMap : ShardMap
deriving DecidableEq, Repr

/-- `ShardedH5IOStore.__init__` with `mode="w"`: parse `max_size`; if a stale
shard-map JSON already exists on disk it is loaded, else the map starts empty;
the first shard file is created at `root_path`. -/
def openWrite (fs : FS) (root : String) (maxSizeStr : String) :
    Except String WStore :=
  match convertStrBytesToInt maxSizeStr with
  | .error e => .error e
  | .ok mx =>
    let m := (fs.jsons.lookup (shardMapFileName root)).getD []
    .ok { origRoot := root, rootPath := root, maxSize := mx, shardList := []
          closed := [], cur := ⟨root, []⟩, varShardMap := m }

/-- The shard-rotation step inside `make`: append the current filename to
`shard_list`, close the file, and `_create_new_file(self.root_path)` — which
resolves a duplicate filename (the just-appended root is always in the list)
and mutates `self.root_path`. -/
def rotateShard (st : WStore) : WStore :=
  let sl := st.shardList ++ [st.cur.name]
  let newName :=
    if sl.contains st.rootPath then resolveDuplicateFilename st.rootPath sl
    else st.rootPath
  { st with shardList := sl, closed := st.closed ++ [st.cur]
            rootPath := newName, cur := ⟨newName, []⟩ }

/-- `ShardedH5IOStore.make(path)` followed by the caller writing `vars` into
the returned group: the current shard's size is re-measured first and the
shard rotated when it exceeds `max_size`; then the `path/vars` group is
created in the (possibly new) current file and
`var_shard_map[group.name] = root_path` recorded. -/
def storeMake (st : WStore) (p : String) (vars : Vars) : WStore :=
  let st := if st.cur.size > st.maxSize then rotateShard st else st
  { st with cur := ⟨st.cur.name, st.cur.groups ++ [(p, vars)]⟩
            varShardMap := assocUpdate st.varShardMap (groupName p) st.rootPath }

/-- Run a sequence of `make`-and-write calls. -/
def runWrites (st : WStore) (writes : List (String × Vars)) : WStore :=
  writes.foldl (fun s w => storeMake s w.1 w.2) st

/-- `ShardedH5IOStore.close()` in write mode, viewed as the resulting disk
state: every shard file persists under its name and the shard map is written
to the sibling JSON file. -/
def closeWrite (fs : FS) (st : WStore) : FS :=
  { h5s := (st.closed ++ [st.cur]).foldl (fun acc f => assocUpdate acc f.name f) fs.h5s
    jsons := assocUpdate fs.jsons (shardMapFileName st.origRoot) st.varShardMap }

/-- I/O errors of the read path. -/
inductive IOErr where
  | fileNotFound
  | keyError (k : String)
deriving DecidableEq, Repr

/-- `ShardedH5IOStore` opened with `mode="r"`. -/
structure RStore where
  fs : FS
  varShardMap : ShardMap
  cur : H5File
deriving DecidableEq, Repr

/-- `ShardedH5IOStore.__init__` with `mode="r"`: a missing shard-map JSON is a
`FileNotFoundError` raised before the weights file is opened; otherwise the
map is loaded and the root shard opened. -/
def openRead (fs : FS) (root : String) : Except IOErr RStore :=
  match fs.jsons.lookup (shardMapFileName root) with
  | none => .error .fileNotFound
  | some m =>
    match fs.h5s.lookup root with
    | none => .error (.keyError root)
    | some f => .ok { fs := fs, varShardMap := m, cur := f }

/-- `ShardedH5IOStore.get(path)` in read mode.  An empty path reads the root
`vars` group of the current file only (`KeyError` when absent — there is no
shard-map fallback for it).  Otherwise: current file first; on a miss, the
shard map is consulted under the raw path and under `"/" + path + "/vars"`,
and the mapped shard is reopened (`h5py`'s `File.name` is the root group name
`"/"`, so the `self.h5_file.name != filename` reopen guard is always true)
and becomes the current file. -/
def storeGet (rs : RStore) (p : String) : Except IOErr (RStore × Option Vars) :=
  if p = "" then
    match rs.cur.groups.lookup "" with
    | some v => .ok (rs, some v)
    | none => .error (.keyError "vars")
  else
    match rs.cur.groups.lookup p with
    | some v => .ok (rs, some v)
    | none =>
      match (rs.varShardMap.lookup p).orElse
          (fun _ => rs.varShardMap.lookup ("/" ++ p ++ "/vars")) with
      | none => .ok (rs, none)
      | some fname =>
        match rs.fs.h5s.lookup fname with
        | none => .error (.keyError fname)
        | some f =>
          match f.groups.lookup p with
          | none => .error (.keyError p)
          | some v => .ok ({ rs with cur := f }, some v)

/-- Total byte size of one group's variables. -/
def varsSize (v : Vars) : Nat := (v.map Prod.snd).sum

/-- Total byte size of a write sequence. -/
def writesSize (ws : List (String × Vars)) : Nat :=
  (ws.map (fun w => varsSize w.2)).sum

/-- All shard files of a write store, closed ones first, in creation order. -/
def finalShardFiles (st : WStore) : List H5File := st.closed ++ [st.cur]

/-- The sequence of physical shard filenames produced from
`"model.weights.h5"`: each rotation appends
`resolve_duplicate_filename(current root, all names so far)`. -/
def shardNameSeq : Nat → List String
  | 0 => ["model.weights.h5"]
  | r + 1 =>
    let ns := shardNameSeq r
    ns ++ [resolveDuplicateFilename (ns.getLastD "model.weights.h5") ns]

/-- The current root path after `r` rotations. -/
def shardNameLast (r : Nat) : String :=
  (shardNameSeq r).getLastD "model.weights.h5"

/-- A read store consistent with a finished write session: same disk, the
persisted shard map, and some shard of the session as its current file. -/
def ReadConsistent (fs : FS) (m : ShardMap) (files : List H5File)
    (rs : RStore) : Prop :=
  rs.fs = fs ∧ rs.varShardMap = m ∧ rs.cur ∈ files

/-- Invariant of a write session that has performed the writes `ws` (in
order, `r` shard rotations so far) starting from a fresh store rooted at
`"model.weights.h5"`: the shard files carry the canonical rotation names, the
written groups partition `ws`, and the shard map sends each written path's
`vars` group to the shard holding it. -/
def WriteSessionInv (mx : Nat) (ws : List (String × Vars)) (st : WStore)
    (r : Nat) : Prop :=
  st.origRoot = "model.weights.h5" ∧
  st.maxSize = mx ∧
  st.rootPath = shardNameLast r ∧
  st.cur.name = shardNameLast r ∧
  st.shardList = (shardNameSeq r).dropLast ∧
  (finalShardFiles st).map (fun f => f.name) = shardNameSeq r ∧
  (finalShardFiles st).flatMap (fun f => f.groups) = ws ∧
  (∀ e ∈ st.varShardMap, ∃ q, (q ∈ ws.map Prod.fst ∧ q ≠ "") ∧ e.1 = groupName q) ∧
  (∀ p v, (p, v) ∈ ws → ∃ f, f ∈ finalShardFiles st ∧
      st.varShardMap.lookup (groupName p) = some f.name ∧
      f.groups.lookup p = some v)

/-! ## Persistence entry-point argument validation (saving_lib.py 38-208)

`save_model` / `load_model` control flow up to the point where the claims'
errors are raised; the archive contents are abstracted to filename lists. -/

/-- Errors raised by the entry points. -/
inductive PersistErr where
  | invalidExtension
  | importErrorH5py
  | shardingNotImplemented
  | unknownWeightsFormat
  | missingWeightsFile
deriving DecidableEq, Repr

/-- `save_model`, up to the selection of the weights store: returns the list
of archive entries written before the outcome, and the error if one is
raised.  The extension check precedes everything; the unknown-`weights_format`
`ValueError` is raised only after `metadata.json` and `config.json` have been
written into the archive. -/
def saveModelEntry (filepath : String) (weightsFormat : String)
    (sharded : Bool) (h5pyAvailable : Bool) :
    List String × Option PersistErr :=
  if !strEndsWith filepath ".keras" then ([], some .invalidExtension)
  else if weightsFormat = "h5" && !h5pyAvailable then ([], some .importErrorH5py)
  else if weightsFormat ≠ "h5" && sharded then ([], some .shardingNotImplemented)
  else
    let written := ["metadata.json", "config.json"]
    if weightsFormat = "h5" then (written ++ ["model.weights.h5"], none)
    else if weightsFormat = "npz" then (written ++ ["model.weights.npz"], none)
    else (written, some .unknownWeightsFormat)

/-- Which weights store `load_model` selects from the archive contents. -/
inductive WeightsStoreKind where
  | shardedH5 | plainH5 | npz
deriving DecidableEq, Repr

/-- `load_model`, up to the selection of the weights store: the extension
check precedes opening the archive; after the config has been read and the
model deserialized, an archive containing neither `model.weights.h5` nor
`model.weights.npz` raises a `ValueError`. -/
def loadModelEntry (filepath : String) (archiveFiles : List String) :
    Except PersistErr WeightsStoreKind :=
  if !strEndsWith filepath ".keras" then .error .invalidExtension
  else if archiveFiles.contains "model.weights.h5" then
    if archiveFiles.contains "model.weights.json" then .ok .shardedH5
    else .ok .plainH5
  else if archiveFiles.contains "model.weights.npz" then .ok .npz
  else .error .missingWeightsFile

/-! ## Functional model config round-trip (functional.py lines 364-686)

The graph data model.  `keras/ops/function.py` and `keras/ops/node.py` are not
under `src/`, so the record kept per node follows the spec (§3, §4.1): a node
records one call of an operation — its call arguments, each a literal or a
tensor reference `(operation name, node index, output index)` — and its output
tensors' shapes; an operation's semantics is abstracted to its name, its kind,
and a deterministic shape-transfer function applied to the shapes of the
tensor arguments.  `make_node_key` identifies a node by (operation, node
index), rendered here as `(name, index)` since a model's operations have
distinct names. -/

/-- A tensor reference `(layer name, node index, tensor index)` — the
serialized form of a `KerasTensor`'s `_keras_history`. -/
structure TensorRef where
  layerName : String
  nodeIndex : Nat
  tensorIndex : Nat
deriving DecidableEq, Repr

/-- One flattened call argument: a tensor reference or an opaque literal. -/
inductive CallArg where
  | ref (r : TensorRef)
  | lit (n : Nat)
deriving DecidableEq, Repr

/-- The operation kinds `get_config` / reconstruction distinguish: an
`InputLayer` (deserializing it re-creates its single source node), a nested
`Functional` sub-model (starts with a pre-existing node linking its inputs to
its outputs, so `get_config` starts its kept-node count at 1), and a plain
layer. -/
inductive LayerKind where
  | inputLayer | plain | functionalSub
deriving DecidableEq, Repr

/-- An operation: name, kind, and shape-transfer semantics.  Modelled from the
spec: a layer is an opaque callable returning correctly-shaped symbolic
outputs for symbolic inputs (§6), and serializing then deserializing it
reproduces an operation with the same behaviour (§4.3 codec contract). -/
structure Operation where
  name : String
  kind : LayerKind
  callShapes : List Shape → List Shape

/-- A recorded node: flattened call arguments and output shapes. -/
structure NodeRec where
  args : List CallArg
  outputs : List Shape

/-- An operation together with its full `_inbound_nodes` list (which may
contain nodes belonging to other graphs that share the layer). -/
structure LayerRec where
  op : Operation
  inbound : List NodeRec

/-- A built `Functional` model as `get_config` reads it: `self.operations` in
order, the kept node keys (`self._nodes`), and the `_keras_history` triples of
the flattened input and output tensors. -/
structure FModel where
  layers : List LayerRec
  kept : List (String × Nat)
  inputRefs : List TensorRef
  outputRefs : List TensorRef

/-- The tensor references among a node's arguments (its `input_tensors`). -/
def refsOf (args : List CallArg) : List TensorRef :=
  args.filterMap fun a => match a with | .ref r => some r | .lit _ => none

/-- Find a model layer by operation name. -/
def FModel.findLayer (m : FModel) (name : String) : Option LayerRec :=
  m.layers.find? (fun L => L.op.name = name)

/-- The node at `(name, i)` in the original model. -/
def FModel.nodeAt (m : FModel) (name : String) (i : Nat) : Option NodeRec :=
  (m.findLayer name).bind (fun L => L.inbound.get? i)

/-- The output shape an original-model tensor reference denotes. -/
def FModel.refShape (m : FModel) (r : TensorRef) : Option Shape :=
  (m.nodeAt r.layerName r.nodeIndex).bind (fun nd => nd.outputs.get? r.tensorIndex)

/-- The kept-node counter start in `get_config`'s reindexing loop: 1 for a
`Functional` subclass, 0 otherwise. -/
def keptBase : LayerKind → Nat
  | .functionalSub => 1
  | _ => 0

/-- How many inbound nodes a freshly deserialized layer has before any node
replay: the `InputLayer`'s creation node, the nested `Functional`'s
construction node, none for a plain layer. -/
def autoNodeCount : LayerKind → Nat
  | .plain => 0
  | _ => 1

/-- The kept inbound-node indices of a layer, in index order. -/
def keptIndices (m : FModel) (L : LayerRec) : List Nat :=
  (List.range L.inbound.length).filter (fun i => m.kept.contains (L.op.name, i))

/-- `node_reindexing_map`: per operation, kept nodes are renumbered from
`keptBase` in index order. -/
def reindexPairs (m : FModel) : List ((String × Nat) × Nat) :=
  m.layers.flatMap (fun L =>
    ((keptIndices m L).enum).map
      (fun pi => ((L.op.name, pi.2), keptBase L.op.kind + pi.1)))

/-- Look up a node key in the reindexing map. -/
def nodeReindex (m : FModel) (name : String) (i : Nat) : Option Nat :=
  (reindexPairs m).lookup (name, i)

/-- Serialized node data.  `get_config` emits the modern `{"args", "kwargs"}`
form, in which each `KerasTensor` argument carries its original
`_keras_history` (`serialize_node` receives the reindexing map but does not
apply it to the arguments).  The legacy form is a list of
`[layer_name, node_index, tensor_index]` triples (the optional 4-element
variant's kwargs payload is irrelevant to the claims and omitted). -/
inductive NodeData where
  | modern (args : List CallArg)
  | legacy (refs : List TensorRef)
deriving DecidableEq, Repr

/-- One serialized layer: the operation (the codec round-trips it, §4.3) and
its filtered inbound node data. -/
structure LayerCfg where
  op : Operation
  inboundNodes : List NodeData

/-- The output of `Functional.get_config`. -/
structure Config where
  layers : List LayerCfg
  inputLayers : List TensorRef
  outputLayers : List TensorRef

/-- `serialize_node`: a node with no input tensors serializes to nothing;
otherwise its arguments are serialized as-is (original node indices). -/
def serializeNode (nd : NodeRec) : Option NodeData :=
  if (refsOf nd.args).isEmpty then none else some (.modern nd.args)

/-- The `inbound_nodes` entry of one layer's config: kept nodes in index
order, dropping those `serialize_node` skips. -/
def layerCfgOf (m : FModel) (L : LayerRec) : LayerCfg :=
  { op := L.op
    inboundNodes :=
      (keptIndices m L).filterMap
        (fun i => (L.inbound.get? i).bind serializeNode) }

/-- `get_tensor_config`: assert the node is kept, then emit
`[operation.name, new_node_index, tensor_index]` through the reindexing map
(`none` models the failing `assert`). -/
def tensorConfigOf (m : FModel) (r : TensorRef) : Option TensorRef :=
  (nodeReindex m r.layerName r.nodeIndex).map
    (fun j => { r with nodeIndex := j })

/-- `Functional.get_config`. -/
def getConfig (m : FModel) : Option Config :=
  match optionMapList (tensorConfigOf m) m.inputRefs with
  | none => none
  | some inL =>
    match optionMapList (tensorConfigOf m) m.outputRefs with
    | none => none
    | some outL =>
      some { layers := m.layers.map (layerCfgOf m)
             inputLayers := inL
             outputLayers := outL }

/-- Errors during `functional_from_config`, tagged with the Python exception
class where the reconstruction loop distinguishes them: the loop's
`except IndexError` defers a node, every other exception propagates. -/
inductive RecErr where
  | unknownLayer (name : String)
  | nodeIndexValueError
  | nodeIndexIndexError
  | tensorIndexError
  | legacyKeyError (name : String)
  | getTensorAssert
  | outOfFuel
deriving DecidableEq, Repr

/-- Which errors are Python `IndexError`s (caught by the deferral handler). -/
def RecErr.isIndexError : RecErr → Bool
  | .nodeIndexIndexError => true
  | .tensorIndexError => true
  | _ => false

/-- A node re-created during reconstruction. -/
structure RNode where
  args : List CallArg
  outputs : List Shape

/-- A layer re-created during reconstruction, with its growing
`_inbound_nodes`. -/
structure RLayer where
  op : Operation
  nodes : List RNode

/-- Lookup in `created_layers` (a dict keyed by layer name). -/
def findCreated (created : List RLayer) (name : String) : Option RLayer :=
  created.find? (fun L => L.op.name = name)

/-- `convert_revived_tensor` on a revived `KerasTensor` (modern format): an
unknown layer raises `ValueError`; a node index past the layer's current
inbound nodes raises `ValueError` in this source (upstream Keras raises
`IndexError` here, which is what the deferral handler catches); the final
`output_tensors[tensor_index]` list access raises `IndexError`. -/
def resolveRefModern (created : List RLayer) (r : TensorRef) :
    Except RecErr Shape :=
  match findCreated created r.layerName with
  | none => .error (.unknownLayer r.layerName)
  | some L =>
    match L.nodes.get? r.nodeIndex with
    | none => .error .nodeIndexValueError
    | some nd =>
      match nd.outputs.get? r.tensorIndex with
      | none => .error .tensorIndexError
      | some s => .ok s

/-- Legacy-format reference resolution: `created_layers[name]` raises
`KeyError`; a missing inbound node raises `IndexError` (deferrable); the
`output_tensors[tensor_index]` access raises `IndexError`. -/
def resolveRefLegacy (created : List RLayer) (r : TensorRef) :
    Except RecErr Shape :=
  match findCreated created r.layerName with
  | none => .error (.legacyKeyError r.layerName)
  | some L =>
    match L.nodes.get? r.nodeIndex with
    | none => .error .nodeIndexIndexError
    | some nd =>
      match nd.outputs.get? r.tensorIndex with
      | none => .error .tensorIndexError
      | some s => .ok s

/-- `deserialize_node`: returns the call arguments and the shapes of the
resolved tensor inputs. -/
def deserializeNode (created : List RLayer) : NodeData →
    Except RecErr (List CallArg × List Shape)
  | .modern args =>
      match exceptMapList (resolveRefModern created) (refsOf args) with
      | .error e => .error e
      | .ok shapes => .ok (args, shapes)
  | .legacy refs =>
      match exceptMapList (resolveRefLegacy created) refs with
      | .error e => .error e
      | .ok shapes => .ok (refs.map .ref, shapes)

/-- Calling the layer on the resolved inputs: a new node is appended to its
inbound list, its outputs computed by the operation. -/
def callLayer (created : List RLayer) (name : String) (args : List CallArg)
    (shapes : List Shape) : List RLayer :=
  created.map (fun L =>
    if L.op.name = name then
      { L with nodes := L.nodes ++ [⟨args, L.op.callShapes shapes⟩] }
    else L)

/-- `process_node`. -/
def processNode (created : List RLayer) (layerName : String) (nd : NodeData) :
    Except RecErr (List RLayer) :=
  match deserializeNode created nd with
  | .error e => .error e
  | .ok (args, shapes) => .ok (callLayer created layerName args shapes)

/-- The per-layer queue of unprocessed node data. -/
abbrev Pending := List (String × List NodeData)

/-- The inner `while node_index < len(node_data_list)` loop: process the
layer's queued nodes in order; an `IndexError` stops processing and keeps the
remaining nodes queued; any other exception propagates. -/
def processLayerQueue (created : List RLayer) (layerName : String) :
    List NodeData → Except RecErr (List RLayer × List NodeData)
  | [] => .ok (created, [])
  | d :: ds =>
    match processNode created layerName d with
    | .error e =>
        if e.isIndexError then .ok (created, d :: ds) else .error e
    | .ok created1 =>
      match processLayerQueue created1 layerName ds with
      | .error e => .error e
      | .ok (c2, rem) => .ok (c2, rem)

/-- Remove a layer's entry from the queue (`del unprocessed_nodes[layer]`). -/
def pendingErase (p : Pending) (k : String) : Pending :=
  p.filter (fun e => e.1 ≠ k)

/-- Replace a layer's queued nodes in place
(`unprocessed_nodes[layer] = node_data_list[node_index:]`). -/
def pendingSet (p : Pending) (k : String) (ds : List NodeData) : Pending :=
  p.map (fun e => if e.1 = k then (k, ds) else e)

/-- One iteration of the outer `while unprocessed_nodes:` loop: walk
`config["layers"]` in declared order and process each layer's pending
queue. -/
def processPass (cfgLayers : List LayerCfg) :
    List RLayer × Pending → Except RecErr (List RLayer × Pending)
  | st =>
    match cfgLayers with
    | [] => .ok st
    | lc :: rest =>
      match st.2.lookup lc.op.name with
      | none => processPass rest st
      | some ds =>
        match processLayerQueue st.1 lc.op.name ds with
        | .error e => .error e
        | .ok (c1, rem) =>
          processPass rest (c1,
            if rem.isEmpty then pendingErase st.2 lc.op.name
            else pendingSet st.2 lc.op.name rem)

/-- The outer loop with an explicit pass bound; `outOfFuel` marks a loop that
is still running after `fuel` passes (the Python loop has no bound and no
cycle detection). -/
def runLoop (cfgLayers : List LayerCfg) : Nat → List RLayer × Pending →
    Except RecErr (List RLayer × Pending)
  | 0, st => if st.2.isEmpty then .ok st else .error .outOfFuel
  | fuel + 1, st =>
    if st.2.isEmpty then .ok st
    else
      match processPass cfgLayers st with
      | .error e => .error e
      | .ok st1 => runLoop cfgLayers fuel st1

/-- The freshly deserialized layers (`process_layer` before any node replay):
each layer with its automatically created nodes.  An `InputLayer` re-creates
its source node (whose outputs are its configured shape, `callShapes []`); a
nested `Functional` starts with its construction node. -/
def initCreated (cfgLayers : List LayerCfg) : List RLayer :=
  cfgLayers.map (fun lc =>
    { op := lc.op
      nodes :=
        match lc.op.kind with
        | .plain => []
        | _ => [⟨[], lc.op.callShapes []⟩] })

/-- The initial queue: each layer's inbound node data, enqueued in config
order (layers with no node data never get an entry). -/
def initPending (cfgLayers : List LayerCfg) : Pending :=
  cfgLayers.filterMap (fun lc =>
    if lc.inboundNodes.isEmpty then none
    else some (lc.op.name, lc.inboundNodes))

/-- `get_tensor`: `assert layer_name in created_layers`, then
`layer._inbound_nodes[node_index].output_tensors[tensor_index]` (both list
accesses raise `IndexError`, uncaught at this point). -/
def getTensor (created : List RLayer) (r : TensorRef) : Except RecErr Shape :=
  match findCreated created r.layerName with
  | none => .error .getTensorAssert
  | some L =>
    match L.nodes.get? r.nodeIndex with
    | none => .error .nodeIndexIndexError
    | some nd =>
      match nd.outputs.get? r.tensorIndex with
      | none => .error .tensorIndexError
      | some s => .ok s

/-- The reconstructed model, as the final `cls(inputs=..., outputs=...)` call
exposes it.  Modelled from the spec (§4.1): the constructor's fresh graph
build recovers exactly the re-created nodes reachable between the resolved
inputs and outputs, so the observables compared here are read off the
re-created layers. -/
structure RModel where
  layers : List RLayer
  inputShapes : List Shape
  outputShapes : List Shape

/-- `functional_from_config` with an explicit bound on loop passes. -/
def reconstructWith (cfg : Config) (fuel : Nat) : Except RecErr RModel :=
  match runLoop cfg.layers fuel (initCreated cfg.layers, initPending cfg.layers) with
  | .error e => .error e
  | .ok st =>
    match exceptMapList (getTensor st.1) cfg.inputLayers with
    | .error e => .error e
    | .ok ins =>
      match exceptMapList (getTensor st.1) cfg.outputLayers with
      | .error e => .error e
      | .ok outs => .ok { layers := st.1, inputShapes := ins, outputShapes := outs }

/-- Total queued node count. -/
def pendingCount (p : Pending) : Nat := (p.map (fun e => e.2.length)).sum

/-- `functional_from_config`: the pass bound one more than the number of
queued nodes suffices for every run the Python loop completes, since a pass
that defers every node repeats identically forever. -/
def functionalFromConfig (cfg : Config) : Except RecErr RModel :=
  reconstructWith cfg (pendingCount (initPending cfg.layers) + 1)

/-- Whether reconstruction returned a model. -/
def reconOk (x : Except RecErr RModel) : Bool :=
  match x with | .ok _ => true | .error _ => false

/-! ### Well-formedness of a constructor-built model

`Function.__init__` / `_build_map` are not under `src/`.  Modelled from the
spec (§3, §4.1): the constructor guarantees distinct operation names, that the
kept node set is closed under tensor-producer references (reverse reachability
from the outputs down to input nodes), that input tensors come from
`InputLayer` source nodes (`is_input`), that every output reference is kept,
and that recorded output shapes agree with each operation's shape function
applied to its argument shapes. -/

/-- Kept-entry sanity: the key names an existing layer and node. -/
def wfKeptEntries (m : FModel) : Bool :=
  m.kept.all (fun ki =>
    match m.nodeAt ki.1 ki.2 with
    | some _ => true
    | none => false)

/-- A reference is kept and in range. -/
def wfRef (m : FModel) (r : TensorRef) : Bool :=
  m.kept.contains (r.layerName, r.nodeIndex) &&
    match m.refShape r with | some _ => true | none => false

/-- Per-layer structural invariants over kept nodes: reference closure;
output shapes agree with the operation's shape function on the argument
shapes; an `InputLayer` has exactly its creation node (argument-free, kept);
kept nodes of other kinds have at least one tensor input (they are reachable
from the inputs); every operation of the model has a kept node. -/
def wfLayer (m : FModel) (L : LayerRec) : Bool :=
  (!(keptIndices m L).isEmpty) &&
  (match L.op.kind with
   | .inputLayer =>
       decide (L.inbound.length = 1) && m.kept.contains (L.op.name, 0) &&
       (match L.inbound.get? 0 with
        | some nd => nd.args.isEmpty
        | none => false)
   | _ => true) &&
  (keptIndices m L).all (fun i =>
    match L.inbound.get? i with
    | none => false
    | some nd =>
      (L.op.kind = .inputLayer || !(refsOf nd.args).isEmpty) &&
      (refsOf nd.args).all (wfRef m) &&
      (match optionMapList m.refShape (refsOf nd.args) with
       | some ss => decide (nd.outputs = L.op.callShapes ss)
       | none => false))

/-- What the standard functional constructor guarantees (spec §3, §4.1). -/
def wfBase (m : FModel) : Bool :=
  (m.layers.map (fun L => L.op.name)).Nodup &&
  wfKeptEntries m &&
  m.layers.all (wfLayer m) &&
  m.inputRefs.all (fun r =>
    wfRef m r &&
      (match m.findLayer r.layerName with
       | some L => decide (L.op.kind = .inputLayer)
       | none => false)) &&
  m.outputRefs.all (wfRef m)

/-- Contiguity: each layer's kept node indices are exactly
`keptBase, keptBase+1, ...` — the layer has no inbound nodes belonging to
other graphs before or between this model's nodes, so `get_config`'s
renumbering is the identity on them and replay re-creates each node at its
original index. -/
def wfContiguous (m : FModel) : Bool :=
  m.layers.all (fun L =>
    decide (keptIndices m L =
      List.range' (keptBase L.op.kind) (keptIndices m L).length))

/-- Position of a layer in the model's operation order. -/
def layerPos (m : FModel) (name : String) : Option Nat :=
  m.layers.findIdx? (fun L => L.op.name = name)

/-- In-order resolvability: every reference of a kept node points to a layer
earlier in the declared order, to an earlier node of the same layer, or to an
`InputLayer` (whose single node exists as soon as the layer is deserialized).
Under this condition the reconstruction loop needs no deferral; a model
violating it (e.g. a layer shared at two topological depths, `A(B(A(B(x))))`)
makes the modern-format replay raise the `ValueError` of
`convert_revived_tensor` instead of deferring. -/
def wfInOrder (m : FModel) : Bool :=
  (m.layers.enum).all (fun jL =>
    jL.2.op.kind = .inputLayer ||
    (keptIndices m jL.2).all (fun i =>
      match jL.2.inbound.get? i with
      | none => false
      | some nd =>
        (refsOf nd.args).all (fun r =>
          match layerPos m r.layerName, m.findLayer r.layerName with
          | some j0, some L0 =>
            decide (j0 < jL.1) ||
            (decide (j0 = jL.1) && decide (r.nodeIndex < i)) ||
            decide (L0.op.kind = .inputLayer)
          | _, _ => false)))

/-- The amended round-trip precondition. -/
def wfRoundtrip (m : FModel) : Bool :=
  wfBase m && wfContiguous m && wfInOrder m

/-- The output shapes of the original model. -/
def FModel.outputShapes (m : FModel) : Option (List Shape) :=
  optionMapList m.refShape m.outputRefs

/-- Queue well-formedness maintained by the outer reconstruction loop: one
entry per layer name and no empty per-layer queue (`initPending` never
enqueues an empty list, and a drained queue entry is deleted). -/
def PendingWF (p : Pending) : Prop :=
  (p.map Prod.fst).Nodup ∧ ∀ e ∈ p, e.2.isEmpty = false

/-- A cyclic legacy-format config: two plain layers whose single serialized
inbound nodes reference each other's not-yet-replayed node 0.  Each pass
defers both nodes (`IndexError` from the missing inbound node), so the queue
never
drains and no error is ever raised. -/
def cycLayers : List LayerCfg :=
  [ { op := { name := "A", kind := .plain, callShapes := fun ss => ss }
      inboundNodes := [.legacy [⟨"B", 0, 0⟩]] },
    { op := { name := "B", kind := .plain, callShapes := fun ss => ss }
      inboundNodes := [.legacy [⟨"A", 0, 0⟩]] } ]

/-- The cyclic legacy config as a full `Config`. -/
def cycCfg : Config :=
  { layers := cycLayers, inputLayers := [], outputLayers := [] }

/-! ### Round-trip scaffolding (C1)

The reconstruction state reached during the single replay pass of an
in-order model, described layer by layer. -/

/-- The `RNode` image of an original recorded node. -/
def rnodeOf (nd : NodeRec) : RNode := ⟨nd.args, nd.outputs⟩

/-- The automatically created nodes of a freshly deserialized layer. -/
def autoNodes (op : Operation) : List RNode :=
  match op.kind with
  | .plain => []
  | _ => [⟨[], op.callShapes []⟩]

/-- The replayed-node images of original nodes `b, …, b+k-1`. -/
def nodeChunk (L : LayerRec) (b k : Nat) : List RNode :=
  (List.range' b k).filterMap (fun i => (L.inbound.get? i).map rnodeOf)

/-- The serialized inbound-node list of original nodes `b, …, b+k-1` of a
layer none of whose nodes `serialize_node` drops. -/
def modernChunk (L : LayerRec) (b k : Nat) : List NodeData :=
  (List.range' b k).filterMap
    (fun i => (L.inbound.get? i).map (fun nd => NodeData.modern nd.args))

/-- A reconstructed layer after `k` of its kept nodes have been replayed. -/
def rlayerAt (L : LayerRec) (k : Nat) : RLayer :=
  { op := L.op
    nodes := autoNodes L.op ++ nodeChunk L (keptBase L.op.kind) k }

/-- How many nodes of the layer named `n` have been replayed once the layers
in `names` have had their queues drained: all of its kept nodes for a
non-input layer already passed, none otherwise (an `InputLayer` serializes no
node data, so its queue never exists). -/
def replayCount (m : FModel) (names : List String) (n : String) : Nat :=
  match m.findLayer n with
  | none => 0
  | some L =>
    if L.op.kind = .inputLayer then 0
    else if names.contains n then (keptIndices m L).length else 0

/-- The created-layers list with each layer at its replay count `κ`. -/
def createdK (m : FModel) (κ : String → Nat) : List RLayer :=
  m.layers.map (fun L => rlayerAt L (κ L.op.name))

/-- A two-layer in-order model `D(x)`: input `x` of shape `(2)`, a plain
layer `D` mapping to shape `(3)`. -/
def mSimple : FModel :=
  { layers :=
      [ { op := { name := "x", kind := .inputLayer
                  callShapes := fun _ => [[some 2]] }
          inbound := [⟨[], [[some 2]]⟩] },
        { op := { name := "D", kind := .plain
                  callShapes := fun _ => [[some 3]] }
          inbound := [⟨[.ref ⟨"x", 0, 0⟩], [[some 3]]⟩] } ]
    kept := [("x", 0), ("D", 0)]
    inputRefs := [⟨"x", 0, 0⟩]
    outputRefs := [⟨"D", 0, 0⟩] }

/-- The shared-layer model `A(B(A(B(x))))`: a constructor-valid model (its
`wfBase` holds) whose layers `A` and `B` each carry two kept nodes at
different topological depths.  Replaying `B`'s second node needs `A`'s node
1, which does not exist yet when `B`'s queue is processed. -/
def mAB : FModel :=
  { layers :=
      [ { op := { name := "x", kind := .inputLayer
                  callShapes := fun _ => [[some 4]] }
          inbound := [⟨[], [[some 4]]⟩] },
        { op := { name := "B", kind := .plain, callShapes := fun ss => ss }
          inbound :=
            [ ⟨[.ref ⟨"x", 0, 0⟩], [[some 4]]⟩,
              ⟨[.ref ⟨"A", 0, 0⟩], [[some 4]]⟩ ] },
        { op := { name := "A", kind := .plain, callShapes := fun ss => ss }
          inbound :=
            [ ⟨[.ref ⟨"B", 0, 0⟩], [[some 4]]⟩,
              ⟨[.ref ⟨"B", 1, 0⟩], [[some 4]]⟩ ] } ]
    kept := [("x", 0), ("B", 0), ("B", 1), ("A", 0), ("A", 1)]
    inputRefs := [⟨"x", 0, 0⟩]
    outputRefs := [⟨"A", 1, 0⟩] }

/-! # Theorems -/

/-! ## Input rank adjustment (C6) -/

/-- C6: for each flat input passed to `Functional.call`, `_adjust_input_rank`
passes a rank-matching input through unchanged; squeezes the last axis when
the rank is one greater and the last dimension is 1; expands the last axis
when the rank is one smaller and the declared shape's last dimension is 1;
and raises `ValueError` on every other rank mismatch. -/
theorem adjust_input_rank_cases (x : List Nat) (r : Shape) :
    (x.length = r.length → adjustOneInput x r = .ok (.unchanged x)) ∧
    (x.length = r.length + 1 → x.getLast? = some 1 →
      adjustOneInput x r = .ok (.squeezed x.dropLast)) ∧
    (x.length + 1 = r.length → r.getLast? = some (some 1) →
      adjustOneInput x r = .ok (.expanded (x ++ [1]))) ∧
    (x.length ≠ r.length →
      ¬(x.length = r.length + 1 ∧ x.getLast? = some 1) →
      ¬(x.length + 1 = r.length ∧ r.getLast? = some (some 1)) →
      adjustOneInput x r = .error "Invalid input shape for input") := by
  refine ⟨?_, ?_, ?_, ?_⟩
  · intro h
    simp [adjustOneInput, h]
  · intro h1 h2
    have hne : ¬ (x.length = r.length) := by omega
    simp [adjustOneInput, hne, h1, h2]
  · intro h1 h2
    have hne : ¬ (x.length = r.length) := by omega
    have hne2 : ¬ (x.length = r.length + 1) := by omega
    simp [adjustOneInput, hne, hne2, h1, h2]
  · intro h1 h2 h3
    simp only [adjustOneInput]
    rw [if_neg h1, if_neg h2, if_neg h3]

/-- Witness for C6 at concrete inputs: each case of the adjustment. -/
theorem adjust_input_rank_cases_witness :
    adjustOneInput [2, 3] [none, some 3] = .ok (.unchanged [2, 3]) ∧
    adjustOneInput [2, 3, 1] [none, some 3] = .ok (.squeezed [2, 3]) ∧
    adjustOneInput [2] [none, some 1] = .ok (.expanded [2, 1]) ∧
    adjustOneInput [2, 3, 4] [none, some 3] =
      .error "Invalid input shape for input" := by
  refine ⟨?_, ?_, ?_, ?_⟩
  · exact (adjust_input_rank_cases [2, 3] [none, some 3]).1 (by decide)
  · exact (adjust_input_rank_cases [2, 3, 1] [none, some 3]).2.1 (by decide) (by decide)
  · exact (adjust_input_rank_cases [2] [none, some 1]).2.2.1 (by decide) (by decide)
  · exact (adjust_input_rank_cases [2, 3, 4] [none, some 3]).2.2.2 (by decide)
      (by decide) (by decide)

/-! ## Softmax-on-singleton-output check (C5) -/

/-- C5: constructing a `Functional` model whose final output layer is a
`Dense` with `units=1` and a softmax activation raises `ValueError` at
construction; the same with `units=2` does not; and
`validate_output_activation=False` disables the check entirely. -/
theorem softmax_singleton_unit_check :
    (∀ name, functionalInitSoftmaxCheck true [(name, denseSoftmax 1)] =
      .error (.softmaxSingleUnit name)) ∧
    (∀ name, functionalInitSoftmaxCheck true [(name, denseSoftmax 2)] = .ok ()) ∧
    (∀ outputLayers, functionalInitSoftmaxCheck false outputLayers = .ok ()) := by
  refine ⟨fun name => rfl, fun name => rfl, fun outputLayers => rfl⟩

/-! ## `Functional.__init__` inputs/outputs validation (C8) -/

/-- The `inputs` dict loop: with all values `KerasTensor`s it succeeds and
returns exactly the mismatched keys as warnings; with a non-tensor value it
raises. -/
theorem validateInputsDict_spec (kvs : List (String × PyValue)) :
    ((kvs.map Prod.snd).all PyValue.isKerasTensor = true →
      validateInputsDict kvs = .ok (TensorArg.mismatchKeys (.dictOf kvs))) ∧
    ((kvs.map Prod.snd).all PyValue.isKerasTensor = false →
      ∃ e, validateInputsDict kvs = .error e) := by
  induction kvs with
  | nil => exact ⟨fun _ => rfl, fun h => by simp at h⟩
  | cons kv rest ih =>
    obtain ⟨k, v⟩ := kv
    constructor
    · intro h
      simp only [List.map_cons, List.all_cons, Bool.and_eq_true] at h
      match v, h with
      | .kerasTensor n, ⟨_, hrest⟩ =>
        simp only [validateInputsDict, ih.1 hrest, TensorArg.mismatchKeys,
          List.filterMap_cons]
        by_cases hk : k = n
        · simp [hk, TensorArg.mismatchKeys]
        · simp [hk, TensorArg.mismatchKeys]
    · intro h
      simp only [List.map_cons, List.all_cons, Bool.and_eq_true] at h
      match v with
      | .other d => exact ⟨_, rfl⟩
      | .kerasTensor n =>
        simp only [PyValue.isKerasTensor, true_and] at h
        obtain ⟨e, he⟩ := ih.2 h
        refine ⟨e, ?_⟩
        simp [validateInputsDict, he]

/-- C8 (amended): the `__init__` validation raises iff some leaf of `inputs`
or `outputs` is not a `KerasTensor` (a single non-tensor value being the
"unrecognized type" error); when it succeeds, the warnings are exactly the
mismatched keys of an `inputs` dict — mismatched `outputs` dict keys produce
neither a warning nor an error. -/
theorem functional_init_validation (inputs outputs : TensorArg) :
    (inputs.allKerasTensors = true → outputs.allKerasTensors = true →
      functionalInitValidate inputs outputs = .ok inputs.mismatchKeys) ∧
    ((inputs.allKerasTensors = false ∨ outputs.allKerasTensors = false) →
      ∃ e, functionalInitValidate inputs outputs = .error e) := by
  constructor
  · intro hin hout
    have hv1 : validateInputsArg inputs = .ok inputs.mismatchKeys := by
      match inputs with
      | .dictOf kvs => exact (validateInputsDict_spec kvs).1 hin
      | .listOf vs =>
        simp only [TensorArg.allKerasTensors] at hin
        simp [validateInputsArg, validateTensorList, hin, TensorArg.mismatchKeys]
      | .single v =>
        simp only [TensorArg.allKerasTensors] at hin
        simp [validateInputsArg, hin, TensorArg.mismatchKeys]
    have hv2 : validateOutputsArg outputs = .ok () := by
      match outputs with
      | .dictOf kvs =>
        simp only [TensorArg.allKerasTensors] at hout
        simp [validateOutputsArg, hout]
      | .listOf vs =>
        simp only [TensorArg.allKerasTensors] at hout
        simp [validateOutputsArg, validateTensorList, hout]
      | .single v =>
        simp only [TensorArg.allKerasTensors] at hout
        simp [validateOutputsArg, hout]
    simp [functionalInitValidate, hv1, hv2]
  · intro h
    rcases h with h | h
    · have : ∃ e, validateInputsArg inputs = .error e := by
        match inputs with
        | .dictOf kvs => exact (validateInputsDict_spec kvs).2 h
        | .listOf vs =>
          simp only [TensorArg.allKerasTensors] at h
          exact ⟨"all values in the list/tuple must be KerasTensors",
            by simp [validateInputsArg, validateTensorList, h]⟩
        | .single v =>
          simp only [TensorArg.allKerasTensors] at h
          exact ⟨"Unrecognized type for inputs", by simp [validateInputsArg, h]⟩
      obtain ⟨e, he⟩ := this
      exact ⟨e, by simp [functionalInitValidate, he]⟩
    · by_cases hin : validateInputsArg inputs matches .error _
      · match hv : validateInputsArg inputs with
        | .error e => exact ⟨e, by simp [functionalInitValidate, hv]⟩
        | .ok ws => rw [hv] at hin; simp at hin
      · match hv : validateInputsArg inputs with
        | .error e => exact ⟨e, by simp [functionalInitValidate, hv]⟩
        | .ok ws =>
          have : ∃ e, validateOutputsArg outputs = .error e := by
            match outputs with
            | .dictOf kvs =>
              simp only [TensorArg.allKerasTensors] at h
              exact ⟨"When providing outputs as a dict, all values in the dict must be KerasTensors",
                by simp [validateOutputsArg, h]⟩
            | .listOf vs =>
              simp only [TensorArg.allKerasTensors] at h
              exact ⟨"all values in the list/tuple must be KerasTensors",
                by simp [validateOutputsArg, validateTensorList, h]⟩
            | .single v =>
              simp only [TensorArg.allKerasTensors] at h
              exact ⟨"Unrecognized type for outputs", by simp [validateOutputsArg, h]⟩
          obtain ⟨e, he⟩ := this
          exact ⟨e, by simp [functionalInitValidate, hv, he]⟩

/-- C8 counterexample: an `outputs` dict key that does not match the tensor's
declared name produces no warning at all (the claim asserts a warning is
produced); the validation returns success with an empty warning list. -/
theorem functional_init_outputs_key_no_warning :
    functionalInitValidate (.single (.kerasTensor "i"))
        (.dictOf [("wrong", .kerasTensor "x")]) = .ok [] ∧
    TensorArg.mismatchKeys (.dictOf [("wrong", .kerasTensor "x")]) ≠ [] := by
  exact ⟨rfl, by decide⟩

/-- Witness for C8 at concrete inputs: a mismatched `inputs` dict key warns
(without error), and a non-tensor leaf errors. -/
theorem functional_init_validation_witness :
    functionalInitValidate (.dictOf [("a", .kerasTensor "b")])
        (.single (.kerasTensor "o")) = .ok ["a"] ∧
    (∃ e, functionalInitValidate (.listOf [.other "int"])
        (.single (.kerasTensor "o")) = .error e) := by
  constructor
  · exact (functional_init_validation (.dictOf [("a", .kerasTensor "b")])
      (.single (.kerasTensor "o"))).1 (by decide) (by decide)
  · exact (functional_init_validation (.listOf [.other "int"])
      (.single (.kerasTensor "o"))).2 (Or.inl (by decide))

/-! ## Persistence entry-point errors (C9) -/

/-- C9: `save_model` raises `ValueError` for a filepath without the `.keras`
extension (before anything is written) and for an unknown `weights_format`
(after the metadata and config archive entries — "where feasible");
`load_model` raises for a missing `.keras` extension and for an archive with
neither weights file; opening a sharded store for reading without its
shard-map JSON raises `FileNotFoundError` before the weights file is
opened. -/
theorem persistence_fail_fast :
    (∀ fp fmt sharded h5py, strEndsWith fp ".keras" = false →
      saveModelEntry fp fmt sharded h5py = ([], some .invalidExtension)) ∧
    (∀ fp fmt h5py, strEndsWith fp ".keras" = true → fmt ≠ "h5" → fmt ≠ "npz" →
      saveModelEntry fp fmt false h5py =
        (["metadata.json", "config.json"], some .unknownWeightsFormat)) ∧
    (∀ fp files, strEndsWith fp ".keras" = false →
      loadModelEntry fp files = .error .invalidExtension) ∧
    (∀ fp (files : List String), strEndsWith fp ".keras" = true →
      "model.weights.h5" ∉ files → "model.weights.npz" ∉ files →
      loadModelEntry fp files = .error .missingWeightsFile) ∧
    (∀ (fs : FS) (root : String),
      fs.jsons.lookup (shardMapFileName root) = none →
      openRead fs root = .error .fileNotFound) := by
  refine ⟨?_, ?_, ?_, ?_, ?_⟩
  · intro fp fmt sharded h5py h
    simp [saveModelEntry, h]
  · intro fp fmt h5py h hfmt hnpz
    simp [saveModelEntry, h, hfmt, hnpz]
  · intro fp files h
    simp [loadModelEntry, h]
  · intro fp files h h1 h2
    simp [loadModelEntry, h, h1, h2]
  · intro fs root h
    simp [openRead, h]

/-- Witness for C9 at concrete inputs. -/
theorem persistence_fail_fast_witness :
    saveModelEntry "model.h5" "h5" false true = ([], some .invalidExtension) ∧
    saveModelEntry "model.keras" "zarr" false true =
      (["metadata.json", "config.json"], some .unknownWeightsFormat) ∧
    loadModelEntry "model.txt" [] = .error .invalidExtension ∧
    loadModelEntry "model.keras" ["metadata.json", "config.json"] =
      .error .missingWeightsFile ∧
    openRead ⟨[], []⟩ "model.weights.h5" = .error .fileNotFound := by
  refine ⟨?_, ?_, ?_, ?_, ?_⟩
  · exact persistence_fail_fast.1 "model.h5" "h5" false true (by decide)
  · exact persistence_fail_fast.2.1 "model.keras" "zarr" true (by decide)
      (by decide) (by decide)
  · exact persistence_fail_fast.2.2.1 "model.txt" [] (by decide)
  · exact persistence_fail_fast.2.2.2.1 "model.keras"
      ["metadata.json", "config.json"] (by decide) (by decide) (by decide)
  · exact persistence_fail_fast.2.2.2.2 ⟨[], []⟩ "model.weights.h5" (by decide)

/-! ## Trackable walker lemmas (C3, C7, C10) -/

/-- An id in `savedVarsIds` comes from an event with that id. -/
theorem savedVarsIds_src {x : Nat} {es : List SaveEvent} (h : x ∈ savedVarsIds es) :
    ∃ e ∈ es, SaveEvent.id e = x := by
  simp only [savedVarsIds, List.mem_filterMap] at h
  obtain ⟨e, he, hm⟩ := h
  cases e with
  | savedVars j => simp at hm; exact ⟨_, he, by simp [SaveEvent.id, hm]⟩
  | savedAssets j => simp at hm

/-- An id in `savedAssetsIds` comes from an event with that id. -/
theorem savedAssetsIds_src {x : Nat} {es : List SaveEvent} (h : x ∈ savedAssetsIds es) :
    ∃ e ∈ es, SaveEvent.id e = x := by
  simp only [savedAssetsIds, List.mem_filterMap] at h
  obtain ⟨e, he, hm⟩ := h
  cases e with
  | savedVars j => simp at hm
  | savedAssets j => simp at hm; exact ⟨_, he, by simp [SaveEvent.id, hm]⟩

/-- An id in `loadVarsIds` comes from an event with that id. -/
theorem loadVarsIds_src {x : Nat} {es : List LoadEvent} (h : x ∈ loadVarsIds es) :
    ∃ e ∈ es, LoadEvent.id e = x := by
  simp only [loadVarsIds, List.mem_filterMap] at h
  obtain ⟨e, he, hm⟩ := h
  cases e <;> simp at hm <;> exact ⟨_, he, by simp [LoadEvent.id, hm]⟩

/-- An id in `loadAssetsIds` comes from an event with that id. -/
theorem loadAssetsIds_src {x : Nat} {es : List LoadEvent} (h : x ∈ loadAssetsIds es) :
    ∃ e ∈ es, LoadEvent.id e = x := by
  simp only [loadAssetsIds, List.mem_filterMap] at h
  obtain ⟨e, he, hm⟩ := h
  cases e <;> simp at hm <;> exact ⟨_, he, by simp [LoadEvent.id, hm]⟩

/-- The trivial save invariant. -/
theorem saveInv_nil (v : List Nat) : SaveInv v v [] := by
  refine ⟨fun x h => h, by simp, by simp [savedVarsIds], by simp [savedAssetsIds]⟩

/-- Save invariants compose along sequenced walks. -/
theorem saveInv_comp {v0 v1 v2 : List Nat} {es1 es2 : List SaveEvent}
    (h1 : SaveInv v0 v1 es1) (h2 : SaveInv v1 v2 es2) :
    SaveInv v0 v2 (es1 ++ es2) := by
  obtain ⟨s1, m1, nv1, na1⟩ := h1
  obtain ⟨s2, m2, nv2, na2⟩ := h2
  refine ⟨fun x h => s2 x (s1 x h), ?_, ?_, ?_⟩
  · intro e he
    rcases List.mem_append.1 he with h | h
    · exact ⟨(m1 e h).1, s2 _ (m1 e h).2⟩
    · exact ⟨fun hc => (m2 e h).1 (s1 _ hc), (m2 e h).2⟩
  · rw [savedVarsIds, List.filterMap_append]
    refine List.Nodup.append nv1 nv2 ?_
    intro x hx1 hx2
    obtain ⟨e1, he1, hid1⟩ := savedVarsIds_src hx1
    obtain ⟨e2, he2, hid2⟩ := savedVarsIds_src hx2
    exact (m2 e2 he2).1 (hid2 ▸ hid1 ▸ (m1 e1 he1).2)
  · rw [savedAssetsIds, List.filterMap_append]
    refine List.Nodup.append na1 na2 ?_
    intro x hx1 hx2
    obtain ⟨e1, he1, hid1⟩ := savedAssetsIds_src hx1
    obtain ⟨e2, he2, hid2⟩ := savedAssetsIds_src hx2
    exact (m2 e2 he2).1 (hid2 ▸ hid1 ▸ (m1 e1 he1).2)

/-- The trivial load invariant. -/
theorem loadInv_nil (v : List Nat) : LoadInv v v [] := by
  refine ⟨fun x h => h, by simp, by simp [loadVarsIds], by simp [loadAssetsIds]⟩

/-- Load invariants compose along sequenced walks. -/
theorem loadInv_comp {v0 v1 v2 : List Nat} {es1 es2 : List LoadEvent}
    (h1 : LoadInv v0 v1 es1) (h2 : LoadInv v1 v2 es2) :
    LoadInv v0 v2 (es1 ++ es2) := by
  obtain ⟨s1, m1, nv1, na1⟩ := h1
  obtain ⟨s2, m2, nv2, na2⟩ := h2
  refine ⟨fun x h => s2 x (s1 x h), ?_, ?_, ?_⟩
  · intro e he
    rcases List.mem_append.1 he with h | h
    · exact ⟨(m1 e h).1, s2 _ (m1 e h).2⟩
    · exact ⟨fun hc => (m2 e h).1 (s1 _ hc), (m2 e h).2⟩
  · rw [loadVarsIds, List.filterMap_append]
    refine List.Nodup.append nv1 nv2 ?_
    intro x hx1 hx2
    obtain ⟨e1, he1, hid1⟩ := loadVarsIds_src hx1
    obtain ⟨e2, he2, hid2⟩ := loadVarsIds_src hx2
    exact (m2 e2 he2).1 (hid2 ▸ hid1 ▸ (m1 e1 he1).2)
  · rw [loadAssetsIds, List.filterMap_append]
    refine List.Nodup.append na1 na2 ?_
    intro x hx1 hx2
    obtain ⟨e1, he1, hid1⟩ := loadAssetsIds_src hx1
    obtain ⟨e2, he2, hid2⟩ := loadAssetsIds_src hx2
    exact (m2 e2 he2).1 (hid2 ▸ hid1 ▸ (m1 e1 he1).2)

/-- Every own-save event carries the visited object's id. -/
theorem ownSaveEvents_id {t : TObj} {w a : Bool} {i : Nat} {e : SaveEvent}
    (h : e ∈ ownSaveEvents t w a i) : SaveEvent.id e = i := by
  simp only [ownSaveEvents, List.mem_append] at h
  rcases h with h | h <;> split at h <;> simp at h <;> simp [h, SaveEvent.id]

/-- The own-save events of one visit save each kind at most once. -/
theorem ownSaveEvents_nodup (t : TObj) (w a : Bool) (i : Nat) :
    (savedVarsIds (ownSaveEvents t w a i)).Nodup ∧
    (savedAssetsIds (ownSaveEvents t w a i)).Nodup := by
  simp only [ownSaveEvents]
  split <;> split <;> simp [savedVarsIds, savedAssetsIds]

/-- The walker's revisit guard is plain membership (`bool(set())` is falsy,
but membership in an empty set is false anyway). -/
theorem loadRevisitGuard_eq (visited : List Nat) (i : Nat) :
    loadRevisitGuard visited i = visited.contains i := by
  cases visited <;> simp [loadRevisitGuard]

/-- The save-walk invariant, by mutual induction over the fuel. -/
theorem saveWalk_inv (heap : Nat → TObj) (w a : Bool) : ∀ fuel : Nat,
    (∀ i visited v2 es, saveState heap w a fuel i visited = .ok (v2, es) →
      SaveInv visited v2 es) ∧
    (∀ attrs visited v2 es, saveChildren heap w a fuel attrs visited = .ok (v2, es) →
      SaveInv visited v2 es) ∧
    (∀ els visited v2 es, saveElems heap w a fuel els visited = .ok (v2, es) →
      SaveInv visited v2 es) := by
  intro fuel
  induction fuel with
  | zero =>
    refine ⟨?_, ?_, ?_⟩
    · intro i visited v2 es h
      simp only [saveState, Except.ok.injEq, Prod.mk.injEq] at h
      obtain ⟨rfl, rfl⟩ := h
      exact saveInv_nil _
    · intro attrs visited v2 es h
      simp only [saveChildren, Except.ok.injEq, Prod.mk.injEq] at h
      obtain ⟨rfl, rfl⟩ := h
      exact saveInv_nil _
    · intro els visited v2 es h
      simp only [saveElems, Except.ok.injEq, Prod.mk.injEq] at h
      obtain ⟨rfl, rfl⟩ := h
      exact saveInv_nil _
  | succ fuel ih =>
    obtain ⟨ihS, ihC, ihE⟩ := ih
    have hstate : ∀ i visited v2 es,
        saveState heap w a (fuel + 1) i visited = .ok (v2, es) →
        SaveInv visited v2 es := by
      intro i visited v2 es h
      simp only [saveState] at h
      rcases hvb : visited.contains i with _ | _
      · rw [hvb, if_neg Bool.false_ne_true] at h
        have hni : i ∉ visited := by simp at hvb; exact hvb
        rcases hwt : walkTrackable (heap i) with e | attrs <;> simp only [hwt] at h
        · simp at h
        · rcases hsc : saveChildren heap w a fuel attrs (i :: visited) with e | p <;>
            simp only [hsc] at h
          · simp at h
          · obtain ⟨v2x, es2⟩ := p
            simp only [Except.ok.injEq, Prod.mk.injEq] at h
            obtain ⟨rfl, rfl⟩ := h
            have hinner := ihC attrs (i :: visited) _ _ hsc
            obtain ⟨s2, m2, nv2, na2⟩ := hinner
            refine ⟨fun x hx => s2 x (List.mem_cons_of_mem i hx), ?_, ?_, ?_⟩
            · intro e he
              rcases List.mem_append.1 he with hm | hm
              · have hid := ownSaveEvents_id hm
                exact ⟨hid ▸ hni, hid ▸ s2 i (List.mem_cons_self i visited)⟩
              · have := m2 e hm
                exact ⟨fun hc => this.1 (List.mem_cons_of_mem i hc), this.2⟩
            · rw [savedVarsIds, List.filterMap_append]
              refine List.Nodup.append (ownSaveEvents_nodup _ _ _ _).1 nv2 ?_
              intro x hx1 hx2
              obtain ⟨e1, he1, hid1⟩ := savedVarsIds_src hx1
              obtain ⟨e2, he2, hid2⟩ := savedVarsIds_src hx2
              have hxi : x = i := by rw [← hid1, ownSaveEvents_id he1]
              exact (m2 e2 he2).1 (by rw [hid2, hxi]; exact List.mem_cons_self i visited)
            · rw [savedAssetsIds, List.filterMap_append]
              refine List.Nodup.append (ownSaveEvents_nodup _ _ _ _).2 na2 ?_
              intro x hx1 hx2
              obtain ⟨e1, he1, hid1⟩ := savedAssetsIds_src hx1
              obtain ⟨e2, he2, hid2⟩ := savedAssetsIds_src hx2
              have hxi : x = i := by rw [← hid1, ownSaveEvents_id he1]
              exact (m2 e2 he2).1 (by rw [hid2, hxi]; exact List.mem_cons_self i visited)
      · rw [hvb, if_pos rfl] at h
        simp only [Except.ok.injEq, Prod.mk.injEq] at h
        obtain ⟨rfl, rfl⟩ := h
        exact saveInv_nil _
    refine ⟨hstate, ?_, ?_⟩
    · intro attrs visited v2 es h
      match attrs with
      | [] =>
        simp only [saveChildren, Except.ok.injEq, Prod.mk.injEq] at h
        obtain ⟨rfl, rfl⟩ := h
        exact saveInv_nil _
      | (nm, c) :: rest =>
        simp only [saveChildren] at h
        have hstep : ∀ v1 es1,
            (match c with
              | ChildRef.obj j =>
                  if (heap j).isKerasTrackable then saveState heap w a fuel j visited
                  else .ok (visited, [])
              | ChildRef.cont els => saveElems heap w a fuel els visited
              | ChildRef.plain => .ok (visited, [])) = .ok (v1, es1) →
            SaveInv visited v1 es1 := by
          intro v1 es1 hs
          cases c with
          | obj j =>
            dsimp only at hs
            rcases htr : (heap j).isKerasTrackable with _ | _
            · rw [htr, if_neg Bool.false_ne_true] at hs
              simp only [Except.ok.injEq, Prod.mk.injEq] at hs
              obtain ⟨rfl, rfl⟩ := hs
              exact saveInv_nil _
            · rw [htr, if_pos rfl] at hs
              exact ihS j visited _ _ hs
          | cont els =>
            dsimp only at hs
            exact ihE els visited _ _ hs
          | plain =>
            dsimp only at hs
            simp only [Except.ok.injEq, Prod.mk.injEq] at hs
            obtain ⟨rfl, rfl⟩ := hs
            exact saveInv_nil _
        rcases hsv : (match c with
            | ChildRef.obj j =>
                if (heap j).isKerasTrackable then saveState heap w a fuel j visited
                else .ok (visited, [])
            | ChildRef.cont els => saveElems heap w a fuel els visited
            | ChildRef.plain => .ok (visited, [])) with e | p <;> simp only [hsv] at h
        · simp at h
        · obtain ⟨v1, es1⟩ := p
          rcases hrest : saveChildren heap w a fuel rest v1 with e | q <;>
            simp only [hrest] at h
          · simp at h
          · obtain ⟨v2x, es2⟩ := q
            simp only [Except.ok.injEq, Prod.mk.injEq] at h
            obtain ⟨rfl, rfl⟩ := h
            exact saveInv_comp (hstep v1 es1 hsv) (ihC rest v1 _ _ hrest)
    · intro els visited v2 es h
      match els with
      | [] =>
        simp only [saveElems, Except.ok.injEq, Prod.mk.injEq] at h
        obtain ⟨rfl, rfl⟩ := h
        exact saveInv_nil _
      | j :: rest =>
        simp only [saveElems] at h
        have hstep : ∀ v1 es1,
            (if (heap j).isKerasTrackable then saveState heap w a fuel j visited
             else .ok (visited, [])) = .ok (v1, es1) →
            SaveInv visited v1 es1 := by
          intro v1 es1 hs
          rcases htr : (heap j).isKerasTrackable with _ | _
          · rw [htr, if_neg Bool.false_ne_true] at hs
            simp only [Except.ok.injEq, Prod.mk.injEq] at hs
            obtain ⟨rfl, rfl⟩ := hs
            exact saveInv_nil _
          · rw [htr, if_pos rfl] at hs
            exact ihS j visited _ _ hs
        rcases hsv : (if (heap j).isKerasTrackable then saveState heap w a fuel j visited
            else Except.ok (visited, [])) with e | p <;> simp only [hsv] at h
        · simp at h
        · obtain ⟨v1, es1⟩ := p
          rcases hrest : saveElems heap w a fuel rest v1 with e | q <;>
            simp only [hrest] at h
          · simp at h
          · obtain ⟨v2x, es2⟩ := q
            simp only [Except.ok.injEq, Prod.mk.injEq] at h
            obtain ⟨rfl, rfl⟩ := h
            exact saveInv_comp (hstep v1 es1 hsv) (ihE rest v1 _ _ hrest)

/-- A trackable object always passes `_walk_trackable`'s classification
(`Layer`, `Optimizer`, `Metric` and `Loss` all have a branch). -/
theorem walkTrackable_ok {t : TObj} (h : t.isKerasTrackable = true) :
    walkTrackable t = .ok t.attrs := by
  simp only [walkTrackable, classifyTrackable]
  split_ifs <;> simp_all [TObj.isKerasTrackable, Except.map]

/-- The possible successful outcomes of the own-variables load step. -/
theorem loadVarsStep_cases {t : TObj} {w skip : Bool} {i : Nat}
    {es : List LoadEvent} (h : loadVarsStep t w skip i = .ok es) :
    es = [] ∨ es = [.warnedVars i] ∨ es = [.loadedVars i] := by
  simp only [loadVarsStep] at h
  split_ifs at h <;> simp only [Except.ok.injEq] at h <;> simp [← h]

/-- The possible successful outcomes of the assets load step. -/
theorem loadAssetsStep_cases {t : TObj} {a skip : Bool} {i : Nat}
    {es : List LoadEvent} (h : loadAssetsStep t a skip i = .ok es) :
    es = [] ∨ es = [.warnedAssets i] ∨ es = [.loadedAssets i] := by
  simp only [loadAssetsStep] at h
  split_ifs at h <;> simp only [Except.ok.injEq] at h <;> simp [← h]

/-- A failing own-variables load step reports that object's failure. -/
theorem loadVarsStep_err {t : TObj} {w skip : Bool} {i : Nat} {e : WalkErr}
    (h : loadVarsStep t w skip i = .error e) : e = .varsFailure i := by
  simp only [loadVarsStep] at h
  split_ifs at h <;> simp at h <;> simp [h]

/-- A failing assets load step reports that object's failure. -/
theorem loadAssetsStep_err {t : TObj} {a skip : Bool} {i : Nat} {e : WalkErr}
    (h : loadAssetsStep t a skip i = .error e) : e = .assetsFailure i := by
  simp only [loadAssetsStep] at h
  split_ifs at h <;> simp at h <;> simp [h]

/-- Single-visit load invariant facts for the own-step events. -/
theorem loadOwnSteps_inv {t : TObj} {w a skip : Bool} {i : Nat}
    {es0 es1 : List LoadEvent}
    (h0 : loadVarsStep t w skip i = .ok es0)
    (h1 : loadAssetsStep t a skip i = .ok es1) :
    (∀ e ∈ es0 ++ es1, LoadEvent.id e = i) ∧
    (loadVarsIds (es0 ++ es1)).Nodup ∧ (loadAssetsIds (es0 ++ es1)).Nodup := by
  rcases loadVarsStep_cases h0 with rfl | rfl | rfl <;>
    rcases loadAssetsStep_cases h1 with rfl | rfl | rfl <;>
      refine ⟨?_, ?_, ?_⟩ <;>
        simp [loadVarsIds, loadAssetsIds, LoadEvent.id]

/-- The load-walk invariant, by mutual induction over the fuel. -/
theorem loadWalk_inv (heap : Nat → TObj) (w a skip : Bool) : ∀ fuel : Nat,
    (∀ i visited v2 es, loadState heap w a skip fuel i visited = .ok (v2, es) →
      LoadInv visited v2 es) ∧
    (∀ attrs visited v2 es, loadChildren heap w a skip fuel attrs visited = .ok (v2, es) →
      LoadInv visited v2 es) ∧
    (∀ els visited v2 es, loadElems heap w a skip fuel els visited = .ok (v2, es) →
      LoadInv visited v2 es) := by
  intro fuel
  induction fuel with
  | zero =>
    refine ⟨?_, ?_, ?_⟩
    · intro i visited v2 es h
      simp only [loadState, Except.ok.injEq, Prod.mk.injEq] at h
      obtain ⟨rfl, rfl⟩ := h
      exact loadInv_nil _
    · intro attrs visited v2 es h
      simp only [loadChildren, Except.ok.injEq, Prod.mk.injEq] at h
      obtain ⟨rfl, rfl⟩ := h
      exact loadInv_nil _
    · intro els visited v2 es h
      simp only [loadElems, Except.ok.injEq, Prod.mk.injEq] at h
      obtain ⟨rfl, rfl⟩ := h
      exact loadInv_nil _
  | succ fuel ih =>
    obtain ⟨ihS, ihC, ihE⟩ := ih
    have hstate : ∀ i visited v2 es,
        loadState heap w a skip (fuel + 1) i visited = .ok (v2, es) →
        LoadInv visited v2 es := by
      intro i visited v2 es h
      simp only [loadState] at h
      rcases hvb : loadRevisitGuard visited i with _ | _
      · rw [hvb, if_neg Bool.false_ne_true] at h
        rcases h0 : loadVarsStep (heap i) w skip i with e | es0 <;> simp only [h0] at h
        · simp at h
        · rcases h1 : loadAssetsStep (heap i) a skip i with e | es1 <;> simp only [h1] at h
          · simp at h
          · rcases hwt : walkTrackable (heap i) with e | attrs <;> simp only [hwt] at h
            · simp at h
            · rcases hlc : loadChildren heap w a skip fuel attrs (i :: visited)
                  with e | p <;> simp only [hlc] at h
              · simp at h
              · obtain ⟨v2x, es2⟩ := p
                simp only [Except.ok.injEq, Prod.mk.injEq] at h
                obtain ⟨rfl, rfl⟩ := h
                obtain ⟨s2, m2, nv2, na2⟩ := ihC attrs (i :: visited) _ _ hlc
                obtain ⟨hid01, hnv01, hna01⟩ := loadOwnSteps_inv h0 h1
                have hni : i ∉ visited := by
                  intro hc
                  rw [loadRevisitGuard_eq] at hvb
                  simp [hc] at hvb
                refine ⟨fun x hx => s2 x (List.mem_cons_of_mem i hx), ?_, ?_, ?_⟩
                · intro e he
                  rcases List.mem_append.1 he with hm | hm
                  · have hid := hid01 e hm
                    exact ⟨hid ▸ hni, hid ▸ s2 i (List.mem_cons_self i visited)⟩
                  · have := m2 e hm
                    exact ⟨fun hc => this.1 (List.mem_cons_of_mem i hc), this.2⟩
                · rw [loadVarsIds, List.filterMap_append]
                  refine List.Nodup.append hnv01 nv2 ?_
                  intro x hx1 hx2
                  obtain ⟨e1, he1, hid1⟩ := loadVarsIds_src hx1
                  obtain ⟨e2, he2, hid2⟩ := loadVarsIds_src hx2
                  have hxi : x = i := by rw [← hid1, hid01 e1 he1]
                  exact (m2 e2 he2).1 (by rw [hid2, hxi]; exact List.mem_cons_self i visited)
                · rw [loadAssetsIds, List.filterMap_append]
                  refine List.Nodup.append hna01 na2 ?_
                  intro x hx1 hx2
                  obtain ⟨e1, he1, hid1⟩ := loadAssetsIds_src hx1
                  obtain ⟨e2, he2, hid2⟩ := loadAssetsIds_src hx2
                  have hxi : x = i := by rw [← hid1, hid01 e1 he1]
                  exact (m2 e2 he2).1 (by rw [hid2, hxi]; exact List.mem_cons_self i visited)
      · rw [hvb, if_pos rfl] at h
        simp only [Except.ok.injEq, Prod.mk.injEq] at h
        obtain ⟨rfl, rfl⟩ := h
        exact loadInv_nil _
    refine ⟨hstate, ?_, ?_⟩
    · intro attrs visited v2 es h
      match attrs with
      | [] =>
        simp only [loadChildren, Except.ok.injEq, Prod.mk.injEq] at h
        obtain ⟨rfl, rfl⟩ := h
        exact loadInv_nil _
      | (nm, c) :: rest =>
        simp only [loadChildren] at h
        have hstep : ∀ v1 es1,
            (match c with
              | ChildRef.obj j =>
                  if (heap j).isKerasTrackable then
                    loadState heap w a skip fuel j visited
                  else .ok (visited, [])
              | ChildRef.cont els => loadElems heap w a skip fuel els visited
              | ChildRef.plain => .ok (visited, [])) = .ok (v1, es1) →
            LoadInv visited v1 es1 := by
          intro v1 es1 hs
          cases c with
          | obj j =>
            dsimp only at hs
            rcases htr : (heap j).isKerasTrackable with _ | _
            · rw [htr, if_neg Bool.false_ne_true] at hs
              simp only [Except.ok.injEq, Prod.mk.injEq] at hs
              obtain ⟨rfl, rfl⟩ := hs
              exact loadInv_nil _
            · rw [htr, if_pos rfl] at hs
              exact ihS j visited _ _ hs
          | cont els =>
            dsimp only at hs
            exact ihE els visited _ _ hs
          | plain =>
            dsimp only at hs
            simp only [Except.ok.injEq, Prod.mk.injEq] at hs
            obtain ⟨rfl, rfl⟩ := hs
            exact loadInv_nil _
        rcases hsv : (match c with
            | ChildRef.obj j =>
                if (heap j).isKerasTrackable then
                  loadState heap w a skip fuel j visited
                else .ok (visited, [])
            | ChildRef.cont els => loadElems heap w a skip fuel els visited
            | ChildRef.plain => .ok (visited, [])) with e | p <;> simp only [hsv] at h
        · simp at h
        · obtain ⟨v1, es1⟩ := p
          rcases hrest : loadChildren heap w a skip fuel rest v1 with e | q <;>
            simp only [hrest] at h
          · simp at h
          · obtain ⟨v2x, es2⟩ := q
            simp only [Except.ok.injEq, Prod.mk.injEq] at h
            obtain ⟨rfl, rfl⟩ := h
            exact loadInv_comp (hstep v1 es1 hsv) (ihC rest v1 _ _ hrest)
    · intro els visited v2 es h
      match els with
      | [] =>
        simp only [loadElems, Except.ok.injEq, Prod.mk.injEq] at h
        obtain ⟨rfl, rfl⟩ := h
        exact loadInv_nil _
      | j :: rest =>
        simp only [loadElems] at h
        have hstep : ∀ v1 es1,
            (if (heap j).isKerasTrackable then loadState heap w a skip fuel j visited
             else .ok (visited, [])) = .ok (v1, es1) →
            LoadInv visited v1 es1 := by
          intro v1 es1 hs
          rcases htr : (heap j).isKerasTrackable with _ | _
          · rw [htr, if_neg Bool.false_ne_true] at hs
            simp only [Except.ok.injEq, Prod.mk.injEq] at hs
            obtain ⟨rfl, rfl⟩ := hs
            exact loadInv_nil _
          · rw [htr, if_pos rfl] at hs
            exact ihS j visited _ _ hs
        rcases hsv : (if (heap j).isKerasTrackable then loadState heap w a skip fuel j visited
            else Except.ok (visited, [])) with e | p <;> simp only [hsv] at h
        · simp at h
        · obtain ⟨v1, es1⟩ := p
          rcases hrest : loadElems heap w a skip fuel rest v1 with e | q <;>
            simp only [hrest] at h
          · simp at h
          · obtain ⟨v2x, es2⟩ := q
            simp only [Except.ok.injEq, Prod.mk.injEq] at h
            obtain ⟨rfl, rfl⟩ := h
            exact loadInv_comp (hstep v1 es1 hsv) (ihE rest v1 _ _ hrest)

/-- The save walk never fails when the root object is a Keras trackable:
children and container elements are guarded by `_is_keras_trackable` before
recursion, so `_walk_trackable`'s invalid-`obj_type` branch is never
reached. -/
theorem saveWalk_total (heap : Nat → TObj) (w a : Bool) : ∀ fuel : Nat,
    (∀ i visited, (heap i).isKerasTrackable = true →
      ∃ p, saveState heap w a fuel i visited = .ok p) ∧
    (∀ attrs visited, ∃ p, saveChildren heap w a fuel attrs visited = .ok p) ∧
    (∀ els visited, ∃ p, saveElems heap w a fuel els visited = .ok p) := by
  intro fuel
  induction fuel with
  | zero =>
    exact ⟨fun i v _ => ⟨(v, []), rfl⟩, fun attrs v => ⟨(v, []), rfl⟩,
      fun els v => ⟨(v, []), rfl⟩⟩
  | succ fuel ih =>
    obtain ⟨ihS, ihC, ihE⟩ := ih
    refine ⟨?_, ?_, ?_⟩
    · intro i visited htr
      simp only [saveState]
      rcases hvb : visited.contains i with _ | _
      · rw [if_neg Bool.false_ne_true, walkTrackable_ok htr]
        obtain ⟨⟨v2, es2⟩, hp⟩ := ihC (heap i).attrs (i :: visited)
        simp only [hp]
        exact ⟨_, rfl⟩
      · rw [if_pos rfl]
        exact ⟨_, rfl⟩
    · intro attrs visited
      match attrs with
      | [] => exact ⟨(visited, []), rfl⟩
      | (nm, c) :: rest =>
        simp only [saveChildren]
        have hstep : ∃ q : List Nat × List SaveEvent, (match c with
            | ChildRef.obj j =>
                if (heap j).isKerasTrackable then saveState heap w a fuel j visited
                else .ok (visited, [])
            | ChildRef.cont els => saveElems heap w a fuel els visited
            | ChildRef.plain => .ok (visited, [])) = .ok q := by
          cases c with
          | obj j =>
            dsimp only
            rcases htr : (heap j).isKerasTrackable with _ | _
            · rw [if_neg Bool.false_ne_true]
              exact ⟨_, rfl⟩
            · rw [if_pos rfl]
              exact ihS j visited htr
          | cont els => exact ihE els visited
          | plain => exact ⟨_, rfl⟩
        obtain ⟨⟨v1, es1⟩, hq⟩ := hstep
        obtain ⟨⟨v2, es2⟩, hp⟩ := ihC rest v1
        simp only [hq, hp]
        exact ⟨_, rfl⟩
    · intro els visited
      match els with
      | [] => exact ⟨(visited, []), rfl⟩
      | j :: rest =>
        simp only [saveElems]
        have hstep : ∃ q : List Nat × List SaveEvent, (if (heap j).isKerasTrackable then
            saveState heap w a fuel j visited
          else .ok (visited, [])) = .ok q := by
          rcases htr : (heap j).isKerasTrackable with _ | _
          · rw [if_neg Bool.false_ne_true]
            exact ⟨_, rfl⟩
          · rw [if_pos rfl]
            exact ihS j visited htr
        obtain ⟨⟨v1, es1⟩, hq⟩ := hstep
        obtain ⟨⟨v2, es2⟩, hp⟩ := ihE rest v1
        simp only [saveElems, hq, hp]
        exact ⟨_, rfl⟩

/-- Errors propagating out of the load walk are own-state load failures,
never the invalid-`obj_type` error, when the root is a Keras trackable. -/
theorem loadWalk_no_invalid (heap : Nat → TObj) (w a skip : Bool) : ∀ fuel : Nat,
    (∀ i visited e, (heap i).isKerasTrackable = true →
      loadState heap w a skip fuel i visited = .error e → e ≠ .invalidObjType) ∧
    (∀ attrs visited e, loadChildren heap w a skip fuel attrs visited = .error e →
      e ≠ .invalidObjType) ∧
    (∀ els visited e, loadElems heap w a skip fuel els visited = .error e →
      e ≠ .invalidObjType) := by
  intro fuel
  induction fuel with
  | zero =>
    refine ⟨?_, ?_, ?_⟩ <;> intro X v e <;> intros <;> simp_all [loadState, loadChildren, loadElems]
  | succ fuel ih =>
    obtain ⟨ihS, ihC, ihE⟩ := ih
    have hstate : ∀ i visited e, (heap i).isKerasTrackable = true →
        loadState heap w a skip (fuel + 1) i visited = .error e →
        e ≠ .invalidObjType := by
      intro i visited e htr h
      simp only [loadState] at h
      rcases hvb : loadRevisitGuard visited i with _ | _
      · rw [hvb, if_neg Bool.false_ne_true] at h
        rcases h0 : loadVarsStep (heap i) w skip i with e0 | es0 <;> simp only [h0] at h
        · simp only [Except.error.injEq] at h
          subst h
          simp [loadVarsStep_err h0]
        · rcases h1 : loadAssetsStep (heap i) a skip i with e1 | es1 <;> simp only [h1] at h
          · simp only [Except.error.injEq] at h
            subst h
            simp [loadAssetsStep_err h1]
          · rw [walkTrackable_ok htr] at h
            simp only at h
            rcases hlc : loadChildren heap w a skip fuel (heap i).attrs (i :: visited)
                with e2 | p <;> simp only [hlc] at h
            · simp only [Except.error.injEq] at h
              subst h
              exact ihC _ _ _ hlc
            · obtain ⟨v2x, es2⟩ := p
              simp at h
      · rw [hvb, if_pos rfl] at h
        simp at h
    refine ⟨hstate, ?_, ?_⟩
    · intro attrs visited e h
      match attrs with
      | [] => simp [loadChildren] at h
      | (nm, c) :: rest =>
        simp only [loadChildren] at h
        rcases hsv : (match c with
            | ChildRef.obj j =>
                if (heap j).isKerasTrackable then
                  loadState heap w a skip fuel j visited
                else .ok (visited, [])
            | ChildRef.cont els => loadElems heap w a skip fuel els visited
            | ChildRef.plain => .ok (visited, [])) with e1 | p <;> simp only [hsv] at h
        · simp only [Except.error.injEq] at h
          subst h
          cases c with
          | obj j =>
            dsimp only at hsv
            rcases htr : (heap j).isKerasTrackable with _ | _
            · rw [htr, if_neg Bool.false_ne_true] at hsv
              simp at hsv
            · rw [htr, if_pos rfl] at hsv
              exact ihS j visited _ htr hsv
          | cont els =>
            dsimp only at hsv
            exact ihE els visited _ hsv
          | plain =>
            dsimp only at hsv
            simp at hsv
        · obtain ⟨v1, es1⟩ := p
          rcases hrest : loadChildren heap w a skip fuel rest v1 with e2 | q <;>
            simp only [hrest] at h
          · simp only [Except.error.injEq] at h
            subst h
            exact ihC rest v1 _ hrest
          · obtain ⟨v2x, es2⟩ := q
            simp at h
    · intro els visited e h
      match els with
      | [] => simp [loadElems] at h
      | j :: rest =>
        simp only [loadElems] at h
        rcases hsv : (if (heap j).isKerasTrackable then
            loadState heap w a skip fuel j visited
          else .ok (visited, [])) with e1 | p <;> simp only [hsv] at h
        · simp only [Except.error.injEq] at h
          subst h
          rcases htr : (heap j).isKerasTrackable with _ | _
          · rw [htr, if_neg Bool.false_ne_true] at hsv
            simp at hsv
          · rw [htr, if_pos rfl] at hsv
            exact ihS j visited _ htr hsv
        · obtain ⟨v1, es1⟩ := p
          rcases hrest : loadElems heap w a skip fuel rest v1 with e2 | q <;>
            simp only [hrest] at h
          · simp only [Except.error.injEq] at h
            subst h
            exact ihE rest v1 _ hrest
          · obtain ⟨v2x, es2⟩ := q
            simp at h

/-- Events with no warning are non-warnings pointwise. -/
theorem noWarn_of_not_exists {es : List LoadEvent}
    (h : ¬ ∃ e ∈ es, LoadEvent.isWarning e = true) :
    ∀ e ∈ es, LoadEvent.isWarning e = false := by
  intro e he
  cases hw : e.isWarning with
  | false => rfl
  | true => exact absurd ⟨e, he, hw⟩ h

/-- Skip/no-skip relation for the own-variables load step. -/
theorem loadVarsStep_skip (t : TObj) (w : Bool) (i : Nat) :
    ∃ es, loadVarsStep t w true i = .ok es ∧
      ((∀ e ∈ es, LoadEvent.isWarning e = false) →
        loadVarsStep t w false i = .ok es) ∧
      ((∃ e ∈ es, LoadEvent.isWarning e = true) →
        ∃ err, loadVarsStep t w false i = .error err) := by
  rcases hh : (t.hasLoadVars && w) with _ | _
  · refine ⟨[], ?_, fun _ => ?_, fun ⟨e, he, _⟩ => absurd he (by simp)⟩ <;>
      simp [loadVarsStep, hh]
  · rcases hf : t.loadVarsFails with _ | _
    · refine ⟨[.loadedVars i], ?_, fun _ => ?_, fun ⟨e, he, hw⟩ => ?_⟩
      · simp [loadVarsStep, hh, hf]
      · simp [loadVarsStep, hh, hf]
      · rw [List.mem_singleton] at he
        subst he
        simp [LoadEvent.isWarning] at hw
    · refine ⟨[.warnedVars i], ?_, fun h => ?_, fun _ => ⟨.varsFailure i, ?_⟩⟩
      · simp [loadVarsStep, hh, hf]
      · exact absurd (h _ (List.mem_singleton_self _)) (by simp [LoadEvent.isWarning])
      · simp [loadVarsStep, hh, hf]

/-- Skip/no-skip relation for the assets load step. -/
theorem loadAssetsStep_skip (t : TObj) (a : Bool) (i : Nat) :
    ∃ es, loadAssetsStep t a true i = .ok es ∧
      ((∀ e ∈ es, LoadEvent.isWarning e = false) →
        loadAssetsStep t a false i = .ok es) ∧
      ((∃ e ∈ es, LoadEvent.isWarning e = true) →
        ∃ err, loadAssetsStep t a false i = .error err) := by
  rcases hh : (t.hasLoadAssets && a) with _ | _
  · refine ⟨[], ?_, fun _ => ?_, fun ⟨e, he, _⟩ => absurd he (by simp)⟩ <;>
      simp [loadAssetsStep, hh]
  · rcases hf : t.loadAssetsFails with _ | _
    · refine ⟨[.loadedAssets i], ?_, fun _ => ?_, fun ⟨e, he, hw⟩ => ?_⟩
      · simp [loadAssetsStep, hh, hf]
      · simp [loadAssetsStep, hh, hf]
      · rw [List.mem_singleton] at he
        subst he
        simp [LoadEvent.isWarning] at hw
    · refine ⟨[.warnedAssets i], ?_, fun h => ?_, fun _ => ⟨.assetsFailure i, ?_⟩⟩
      · simp [loadAssetsStep, hh, hf]
      · exact absurd (h _ (List.mem_singleton_self _)) (by simp [LoadEvent.isWarning])
      · simp [loadAssetsStep, hh, hf]

/-- C7's engine, by mutual induction: the `skip_mismatch=True` walk always
succeeds; if it produced no warnings the `skip_mismatch=False` walk returns
the same state and events; if it warned anywhere, the `skip_mismatch=False`
walk aborts with an error. -/
theorem loadWalk_skip (heap : Nat → TObj) (w a : Bool) : ∀ fuel : Nat,
    (∀ i visited, (heap i).isKerasTrackable = true →
      ∃ v2 es, loadState heap w a true fuel i visited = .ok (v2, es) ∧
        ((∀ e ∈ es, LoadEvent.isWarning e = false) →
          loadState heap w a false fuel i visited = .ok (v2, es)) ∧
        ((∃ e ∈ es, LoadEvent.isWarning e = true) →
          ∃ err, loadState heap w a false fuel i visited = .error err)) ∧
    (∀ attrs visited,
      ∃ v2 es, loadChildren heap w a true fuel attrs visited = .ok (v2, es) ∧
        ((∀ e ∈ es, LoadEvent.isWarning e = false) →
          loadChildren heap w a false fuel attrs visited = .ok (v2, es)) ∧
        ((∃ e ∈ es, LoadEvent.isWarning e = true) →
          ∃ err, loadChildren heap w a false fuel attrs visited = .error err)) ∧
    (∀ els visited,
      ∃ v2 es, loadElems heap w a true fuel els visited = .ok (v2, es) ∧
        ((∀ e ∈ es, LoadEvent.isWarning e = false) →
          loadElems heap w a false fuel els visited = .ok (v2, es)) ∧
        ((∃ e ∈ es, LoadEvent.isWarning e = true) →
          ∃ err, loadElems heap w a false fuel els visited = .error err)) := by
  intro fuel
  induction fuel with
  | zero =>
    refine ⟨?_, ?_, ?_⟩
    · exact fun i v _ => ⟨v, [], rfl, fun _ => rfl, fun ⟨e, he, _⟩ => absurd he (by simp)⟩
    · exact fun attrs v => ⟨v, [], rfl, fun _ => rfl, fun ⟨e, he, _⟩ => absurd he (by simp)⟩
    · exact fun els v => ⟨v, [], rfl, fun _ => rfl, fun ⟨e, he, _⟩ => absurd he (by simp)⟩
  | succ fuel ih =>
    obtain ⟨ihS, ihC, ihE⟩ := ih
    have hstate : ∀ i visited, (heap i).isKerasTrackable = true →
        ∃ v2 es, loadState heap w a true (fuel + 1) i visited = .ok (v2, es) ∧
          ((∀ e ∈ es, LoadEvent.isWarning e = false) →
            loadState heap w a false (fuel + 1) i visited = .ok (v2, es)) ∧
          ((∃ e ∈ es, LoadEvent.isWarning e = true) →
            ∃ err, loadState heap w a false (fuel + 1) i visited = .error err) := by
      intro i visited htr
      rcases hvb : loadRevisitGuard visited i with _ | _
      · obtain ⟨es0, h0t, h0ok, h0err⟩ := loadVarsStep_skip (heap i) w i
        obtain ⟨es1, h1t, h1ok, h1err⟩ := loadAssetsStep_skip (heap i) a i
        obtain ⟨v2, es2, h2t, h2ok, h2err⟩ := ihC (heap i).attrs (i :: visited)
        refine ⟨v2, es0 ++ es1 ++ es2, ?_, ?_, ?_⟩
        · simp only [loadState, hvb, if_neg Bool.false_ne_true, h0t, h1t,
            walkTrackable_ok htr, h2t]
        · intro hnw
          have hnw0 : ∀ e ∈ es0, LoadEvent.isWarning e = false := by
            intro e he
            exact hnw e (by simp [he])
          have hnw1 : ∀ e ∈ es1, LoadEvent.isWarning e = false := by
            intro e he
            exact hnw e (by simp [he])
          have hnw2 : ∀ e ∈ es2, LoadEvent.isWarning e = false := by
            intro e he
            exact hnw e (by simp [he])
          simp only [loadState, hvb, if_neg Bool.false_ne_true, h0ok hnw0,
            h1ok hnw1, walkTrackable_ok htr, h2ok hnw2]
        · intro hw
          by_cases hw0 : ∃ e ∈ es0, LoadEvent.isWarning e = true
          · obtain ⟨err, herr⟩ := h0err hw0
            exact ⟨err, by simp only [loadState, hvb, if_neg Bool.false_ne_true, herr]⟩
          · have hnw0 := noWarn_of_not_exists hw0
            by_cases hw1 : ∃ e ∈ es1, LoadEvent.isWarning e = true
            · obtain ⟨err, herr⟩ := h1err hw1
              exact ⟨err, by simp only [loadState, hvb, if_neg Bool.false_ne_true,
                h0ok hnw0, herr]⟩
            · have hnw1 := noWarn_of_not_exists hw1
              have hw2 : ∃ e ∈ es2, LoadEvent.isWarning e = true := by
                obtain ⟨e, he, hwe⟩ := hw
                rcases List.mem_append.1 he with he01 | he2
                · rcases List.mem_append.1 he01 with he0 | he1
                  · exact absurd hwe (by simp [hnw0 e he0])
                  · exact absurd hwe (by simp [hnw1 e he1])
                · exact ⟨e, he2, hwe⟩
              obtain ⟨err, herr⟩ := h2err hw2
              exact ⟨err, by simp only [loadState, hvb, if_neg Bool.false_ne_true,
                h0ok hnw0, h1ok hnw1, walkTrackable_ok htr, herr]⟩
      · refine ⟨visited, [], ?_, fun _ => ?_, fun ⟨e, he, _⟩ => absurd he (by simp)⟩
        · simp [loadState, hvb]
        · simp [loadState, hvb]
    refine ⟨hstate, ?_, ?_⟩
    · intro attrs visited
      match attrs with
      | [] =>
        exact ⟨visited, [], rfl, fun _ => rfl, fun ⟨e, he, _⟩ => absurd he (by simp)⟩
      | (nm, c) :: rest =>
        have hstep : ∃ (v1 : List Nat) (es1 : List LoadEvent),
            (match c with
              | ChildRef.obj j =>
                  if (heap j).isKerasTrackable then
                    loadState heap w a true fuel j visited
                  else .ok (visited, [])
              | ChildRef.cont els => loadElems heap w a true fuel els visited
              | ChildRef.plain => .ok (visited, [])) = .ok (v1, es1) ∧
            ((∀ e ∈ es1, LoadEvent.isWarning e = false) →
              (match c with
                | ChildRef.obj j =>
                    if (heap j).isKerasTrackable then
                      loadState heap w a false fuel j visited
                    else .ok (visited, [])
                | ChildRef.cont els => loadElems heap w a false fuel els visited
                | ChildRef.plain => .ok (visited, [])) = .ok (v1, es1)) ∧
            ((∃ e ∈ es1, LoadEvent.isWarning e = true) →
              ∃ err : WalkErr, (match c with
                | ChildRef.obj j =>
                    if (heap j).isKerasTrackable then
                      loadState heap w a false fuel j visited
                    else .ok (visited, [])
                | ChildRef.cont els => loadElems heap w a false fuel els visited
                | ChildRef.plain => .ok (visited, [])) = .error err) := by
          cases c with
          | obj j =>
            dsimp only
            by_cases htr : (heap j).isKerasTrackable = true
            · simp only [if_pos htr]
              exact ihS j visited htr
            · simp only [if_neg htr]
              exact ⟨visited, [], rfl, fun _ => rfl,
                fun ⟨e, he, _⟩ => absurd he (by simp)⟩
          | cont els =>
            dsimp only
            exact ihE els visited
          | plain =>
            dsimp only
            exact ⟨visited, [], rfl, fun _ => rfl,
              fun ⟨e, he, _⟩ => absurd he (by simp)⟩
        obtain ⟨v1, es1, hq, hqok, hqerr⟩ := hstep
        obtain ⟨v2, es2, hr, hrok, hrerr⟩ := ihC rest v1
        refine ⟨v2, es1 ++ es2, ?_, ?_, ?_⟩
        · simp only [loadChildren, hq, hr]
        · intro hnw
          have hnw1 : ∀ e ∈ es1, LoadEvent.isWarning e = false := by
            intro e he
            exact hnw e (by simp [he])
          have hnw2 : ∀ e ∈ es2, LoadEvent.isWarning e = false := by
            intro e he
            exact hnw e (by simp [he])
          simp only [loadChildren, hqok hnw1, hrok hnw2]
        · intro hw
          by_cases hw1 : ∃ e ∈ es1, LoadEvent.isWarning e = true
          · obtain ⟨err, herr⟩ := hqerr hw1
            exact ⟨err, by simp only [loadChildren, herr]⟩
          · have hnw1 := noWarn_of_not_exists hw1
            have hw2 : ∃ e ∈ es2, LoadEvent.isWarning e = true := by
              obtain ⟨e, he, hwe⟩ := hw
              rcases List.mem_append.1 he with he1 | he2
              · exact absurd hwe (by simp [hnw1 e he1])
              · exact ⟨e, he2, hwe⟩
            obtain ⟨err, herr⟩ := hrerr hw2
            exact ⟨err, by simp only [loadChildren, hqok hnw1, herr]⟩
    · intro els visited
      match els with
      | [] =>
        exact ⟨visited, [], rfl, fun _ => rfl, fun ⟨e, he, _⟩ => absurd he (by simp)⟩
      | j :: rest =>
        have hstep : ∃ (v1 : List Nat) (es1 : List LoadEvent),
            (if (heap j).isKerasTrackable then
                loadState heap w a true fuel j visited
              else .ok (visited, [])) = .ok (v1, es1) ∧
            ((∀ e ∈ es1, LoadEvent.isWarning e = false) →
              (if (heap j).isKerasTrackable then
                  loadState heap w a false fuel j visited
                else .ok (visited, [])) = .ok (v1, es1)) ∧
            ((∃ e ∈ es1, LoadEvent.isWarning e = true) →
              ∃ err, (if (heap j).isKerasTrackable then
                  loadState heap w a false fuel j visited
                else .ok (visited, [])) = .error err) := by
          by_cases htr : (heap j).isKerasTrackable = true
          · simp only [if_pos htr]
            exact ihS j visited htr
          · simp only [if_neg htr]
            exact ⟨visited, [], rfl, fun _ => rfl, fun ⟨e, he, _⟩ => absurd he (by simp)⟩
        obtain ⟨v1, es1, hq, hqok, hqerr⟩ := hstep
        obtain ⟨v2, es2, hr, hrok, hrerr⟩ := ihE rest v1
        refine ⟨v2, es1 ++ es2, ?_, ?_, ?_⟩
        · simp only [loadElems, hq, hr]
        · intro hnw
          have hnw1 : ∀ e ∈ es1, LoadEvent.isWarning e = false := by
            intro e he
            exact hnw e (by simp [he])
          have hnw2 : ∀ e ∈ es2, LoadEvent.isWarning e = false := by
            intro e he
            exact hnw e (by simp [he])
          simp only [loadElems, hqok hnw1, hrok hnw2]
        · intro hw
          by_cases hw1 : ∃ e ∈ es1, LoadEvent.isWarning e = true
          · obtain ⟨err, herr⟩ := hqerr hw1
            exact ⟨err, by simp only [loadElems, herr]⟩
          · have hnw1 := noWarn_of_not_exists hw1
            have hw2 : ∃ e ∈ es2, LoadEvent.isWarning e = true := by
              obtain ⟨e, he, hwe⟩ := hw
              rcases List.mem_append.1 he with he1 | he2
              · exact absurd hwe (by simp [hnw1 e he1])
              · exact ⟨e, he2, hwe⟩
            obtain ⟨err, herr⟩ := hrerr hw2
            exact ⟨err, by simp only [loadElems, hqok hnw1, herr]⟩

/-- C3: in a single `_save_state` or `_load_state` pass, each object
instance has its own variables and assets saved/loaded at most once even when
reachable through several attribute paths or a reference cycle, and no object
already in the visited set is ever re-processed; a revisited object returns
immediately with no events and no recursion. -/
theorem trackable_visited_once (heap : Nat → TObj) (w a skip : Bool)
    (fuel i : Nat) (visited : List Nat) :
    (∀ v2 es, saveState heap w a fuel i visited = .ok (v2, es) →
      (savedVarsIds es).Nodup ∧ (savedAssetsIds es).Nodup ∧
      ∀ e ∈ es, SaveEvent.id e ∉ visited) ∧
    (∀ v2 es, loadState heap w a skip fuel i visited = .ok (v2, es) →
      (loadVarsIds es).Nodup ∧ (loadAssetsIds es).Nodup ∧
      ∀ e ∈ es, LoadEvent.id e ∉ visited) ∧
    (i ∈ visited →
      saveState heap w a fuel i visited = .ok (visited, []) ∧
      loadState heap w a skip fuel i visited = .ok (visited, [])) := by
  refine ⟨?_, ?_, ?_⟩
  · intro v2 es h
    obtain ⟨_, hmem, hnv, hna⟩ := (saveWalk_inv heap w a fuel).1 i visited v2 es h
    exact ⟨hnv, hna, fun e he => (hmem e he).1⟩
  · intro v2 es h
    obtain ⟨_, hmem, hnv, hna⟩ := (loadWalk_inv heap w a skip fuel).1 i visited v2 es h
    exact ⟨hnv, hna, fun e he => (hmem e he).1⟩
  · intro hmem
    have hc : visited.contains i = true := by simp [hmem]
    have hg : loadRevisitGuard visited i = true := by rw [loadRevisitGuard_eq]; exact hc
    constructor
    · cases fuel with
      | zero => rfl
      | succ fuel =>
        simp only [saveState]
        rw [hc, if_pos rfl]
    · cases fuel with
      | zero => rfl
      | succ fuel =>
        simp only [loadState]
        rw [hg, if_pos rfl]

/-- Witness for C3 on a concrete heap with sharing and a cycle: object 2 is
reachable from object 0 both directly and through object 1 and through a
container, and object 2 refers back to object 0; every object's variables are
still saved exactly once, and a revisit returns the state unchanged. -/
theorem trackable_visited_once_witness :
    ((savedVarsIds [SaveEvent.savedVars 0, SaveEvent.savedAssets 0,
        SaveEvent.savedVars 1, SaveEvent.savedVars 2]).Nodup ∧
      (savedAssetsIds [SaveEvent.savedVars 0, SaveEvent.savedAssets 0,
        SaveEvent.savedVars 1, SaveEvent.savedVars 2]).Nodup ∧
      ∀ e ∈ [SaveEvent.savedVars 0, SaveEvent.savedAssets 0,
        SaveEvent.savedVars 1, SaveEvent.savedVars 2], SaveEvent.id e ∉ ([] : List Nat)) ∧
    (saveState demoHeap true true 10 2 [2, 5] = .ok ([2, 5], []) ∧
      loadState demoHeap true true false 10 2 [2, 5] = .ok ([2, 5], [])) := by
  constructor
  · exact (trackable_visited_once demoHeap true true false 10 0 []).1 [2, 1, 0]
      [SaveEvent.savedVars 0, SaveEvent.savedAssets 0,
        SaveEvent.savedVars 1, SaveEvent.savedVars 2] rfl
  · exact (trackable_visited_once demoHeap true true false 10 2 [2, 5]).2.2 (by simp)

/-- C7: with `skip_mismatch=True` an exception from any one trackable's
own-variables or assets load is caught and recorded as a warning and the walk
continues (the pass always succeeds and, absent warnings, produces exactly
the states the strict pass would); with `skip_mismatch=False` any such
exception propagates and aborts the whole load. -/
theorem load_skip_mismatch (heap : Nat → TObj) (w a : Bool) (fuel i : Nat)
    (visited : List Nat) (htr : (heap i).isKerasTrackable = true) :
    ∃ v2 es, loadState heap w a true fuel i visited = .ok (v2, es) ∧
      ((∀ e ∈ es, LoadEvent.isWarning e = false) →
        loadState heap w a false fuel i visited = .ok (v2, es)) ∧
      ((∃ e ∈ es, LoadEvent.isWarning e = true) →
        ∃ err, loadState heap w a false fuel i visited = .error err) :=
  (loadWalk_skip heap w a fuel).1 i visited htr

/-- Witness for C7: object 3's own-variables load raises; under
`skip_mismatch` the pass succeeds with a warning for 3 and still loads its
siblings 1 and 2; without `skip_mismatch` the same pass aborts. -/
theorem load_skip_mismatch_witness :
    loadState demoHeap true true true 10 3 [] =
      .ok ([0, 2, 1, 3], [LoadEvent.warnedVars 3, LoadEvent.loadedVars 1,
        LoadEvent.loadedVars 2, LoadEvent.loadedVars 0]) ∧
    (∃ err, loadState demoHeap true true false 10 3 [] = .error err) := by
  obtain ⟨v2, es, ht, hok, herr⟩ :=
    load_skip_mismatch demoHeap true true 10 3 [] (by decide)
  have hconc : loadState demoHeap true true true 10 3 [] =
      .ok ([0, 2, 1, 3], [LoadEvent.warnedVars 3, LoadEvent.loadedVars 1,
        LoadEvent.loadedVars 2, LoadEvent.loadedVars 0]) := rfl
  refine ⟨hconc, ?_⟩
  have heq : (([0, 2, 1, 3] : List Nat), [LoadEvent.warnedVars 3, LoadEvent.loadedVars 1,
      LoadEvent.loadedVars 2, LoadEvent.loadedVars 0]) = (v2, es) := by
    rw [hconc] at ht
    exact (Except.ok.injEq _ _).mp ht
  obtain ⟨h1, h2⟩ := Prod.mk.injEq .. ▸ heq
  apply herr
  rw [← h2]
  exact ⟨LoadEvent.warnedVars 3, by simp, rfl⟩

/-- C10: the walker only ever classifies objects that satisfy
`_is_keras_trackable`; under the precondition that the root passed to
`_save_state`/`_load_state` is such an instance, `_walk_trackable`'s trailing
invalid-`obj_type` branch is unreachable throughout the recursion — the save
walk always succeeds, and a load walk can only fail with an own-state load
failure, never the invalid-`obj_type` error. -/
theorem walk_invalid_objtype_unreachable (heap : Nat → TObj) (w a skip : Bool)
    (fuel root : Nat) (visited : List Nat)
    (htr : (heap root).isKerasTrackable = true) :
    (∃ p, saveState heap w a fuel root visited = .ok p) ∧
    (∀ e, loadState heap w a skip fuel root visited = .error e →
      e ≠ .invalidObjType) :=
  ⟨(saveWalk_total heap w a fuel).1 root visited htr,
   fun e he => (loadWalk_no_invalid heap w a skip fuel).1 root visited e htr he⟩

/-- Witness for C10 on the concrete heap: the save walk from the trackable
root succeeds, and the one load failure that does occur is an own-variables
failure, not the invalid-`obj_type` error. -/
theorem walk_invalid_objtype_unreachable_witness :
    (∃ p, saveState demoHeap true true 10 0 [] = .ok p) ∧
    (loadState demoHeap true true false 10 3 [] = .error (.varsFailure 3) ∧
      WalkErr.varsFailure 3 ≠ WalkErr.invalidObjType) := by
  refine ⟨?_, rfl, ?_⟩
  · exact (walk_invalid_objtype_unreachable demoHeap true true false 10 0 [] (by decide)).1
  · exact (walk_invalid_objtype_unreachable demoHeap true true false 10 3 []
      (by decide)).2 (.varsFailure 3) rfl

/-! ## Sharded store lemmas (C4) -/

/-- Looking up the updated key finds the new value. -/
theorem assocUpdate_lookup_self {β : Type} (m : List (String × β)) (k : String)
    (v : β) : (assocUpdate m k v).lookup k = some v := by
  induction m with
  | nil => simp [assocUpdate, List.lookup]
  | cons e rest ih =>
    by_cases he : e.1 = k
    · simp [assocUpdate, he, List.lookup]
    · simp only [assocUpdate, if_neg he]
      rw [List.lookup]
      have : (k == e.1) = false := by
        simp only [beq_eq_false_iff_ne, ne_eq]
        exact fun hc => he hc.symm
      rw [this]
      exact ih

/-- Looking up a different key is unchanged by the update. -/
theorem assocUpdate_lookup_ne {β : Type} (m : List (String × β)) (k k2 : String)
    (v : β) (h : k2 ≠ k) : (assocUpdate m k v).lookup k2 = m.lookup k2 := by
  induction m with
  | nil =>
    have hb : (k2 == k) = false := by simpa using h
    simp [assocUpdate, List.lookup, hb]
  | cons e rest ih =>
    by_cases he : e.1 = k
    · simp only [assocUpdate, if_pos he]
      rw [List.lookup, List.lookup]
      have h1 : (k2 == k) = false := by simpa using h
      have h2 : (k2 == e.1) = false := by
        rw [he]
        exact h1
      rw [h1, h2]
    · simp only [assocUpdate, if_neg he]
      rw [List.lookup, List.lookup]
      cases hk : (k2 == e.1) with
      | true => rfl
      | false => exact ih

/-- Membership in an updated association list. -/
theorem assocUpdate_mem {β : Type} {m : List (String × β)} {k : String}
    {v : β} {e : String × β} (h : e ∈ assocUpdate m k v) :
    e ∈ m ∨ e.1 = k := by
  induction m with
  | nil =>
    simp only [assocUpdate] at h
    rw [List.mem_singleton] at h
    exact Or.inr (by rw [h])
  | cons g rest ih =>
    by_cases hg : g.1 = k
    · simp only [assocUpdate, if_pos hg] at h
      rcases List.mem_cons.1 h with rfl | h2
      · exact Or.inr rfl
      · exact Or.inl (List.mem_cons_of_mem _ h2)
    · simp only [assocUpdate, if_neg hg] at h
      rcases List.mem_cons.1 h with rfl | h2
      · exact Or.inl (List.mem_cons_self _ _)
      · rcases ih h2 with h3 | h3
        · exact Or.inl (List.mem_cons_of_mem _ h3)
        · exact Or.inr h3

/-- A key bound in no entry looks up to nothing. -/
theorem lookup_eq_none {β : Type} {m : List (String × β)} {k : String}
    (h : ∀ e ∈ m, e.1 ≠ k) : m.lookup k = none := by
  induction m with
  | nil => rfl
  | cons e rest ih =>
    rw [List.lookup]
    have : (k == e.1) = false := by
      simp only [beq_eq_false_iff_ne, ne_eq]
      exact fun hc => h e (List.mem_cons_self _ _) hc.symm
    rw [this]
    exact ih (fun g hg => h g (List.mem_cons_of_mem _ hg))

/-- A present binding is preserved by appending entries on the right. -/
theorem lookup_append_some {β : Type} {m m2 : List (String × β)} {k : String}
    {v : β} (h : m.lookup k = some v) : (m ++ m2).lookup k = some v := by
  induction m with
  | nil => simp [List.lookup] at h
  | cons e rest ih =>
    rw [List.cons_append, List.lookup]
    rw [List.lookup] at h
    cases hk : (k == e.1) with
    | true => rw [hk] at h; exact h
    | false => rw [hk] at h; exact ih h

/-- A successful lookup exhibits a member with that key. -/
theorem lookup_mem {β : Type} {m : List (String × β)} {k : String} {v : β}
    (h : m.lookup k = some v) : (k, v) ∈ m := by
  induction m with
  | nil => simp [List.lookup] at h
  | cons e rest ih =>
    rw [List.lookup] at h
    cases hk : (k == e.1) with
    | true =>
      rw [hk] at h
      have hke : k = e.1 := by simpa using hk
      have hv : v = e.2 := by simpa using h.symm
      rw [hke, hv]
      exact List.mem_cons_self _ _
    | false =>
      rw [hk] at h
      exact List.mem_cons_of_mem _ (ih h)

/-- Folding file updates over files whose names all differ from `k` leaves
the binding at `k` unchanged. -/
theorem foldl_files_preserve (l : List H5File) :
    ∀ (acc : List (String × H5File)) (k : String), (∀ g ∈ l, g.name ≠ k) →
      (l.foldl (fun m g => assocUpdate m g.name g) acc).lookup k =
        acc.lookup k := by
  induction l with
  | nil => intro acc k _; rfl
  | cons g2 rest2 ih2 =>
    intro acc k hne
    rw [List.foldl_cons]
    rw [ih2 _ _ (fun g3 hg3 => hne g3 (List.mem_cons_of_mem _ hg3))]
    exact assocUpdate_lookup_ne _ _ _ _ (fun hc =>
      hne g2 (List.mem_cons_self _ _) hc.symm)

/-- Folding file updates over the disk makes every distinctly-named file
retrievable by name. -/
theorem foldl_files_lookup (files : List H5File) :
    ∀ (acc : List (String × H5File)) (f : H5File), f ∈ files →
      (files.map (fun g => g.name)).Nodup →
      (files.foldl (fun m g => assocUpdate m g.name g) acc).lookup f.name =
        some f := by
  induction files with
  | nil => intro acc f hf; simp at hf
  | cons g rest ih =>
    intro acc f hf hnd
    rw [List.map_cons, List.nodup_cons] at hnd
    rw [List.foldl_cons]
    rcases List.mem_cons.1 hf with rfl | hf2
    · rw [foldl_files_preserve rest _ _
        (fun g2 hg2 hc => hnd.1 (by rw [← hc]; exact List.mem_map_of_mem _ hg2))]
      exact assocUpdate_lookup_self _ _ _
    · exact ih _ f hf2 hnd.2

/-- `groupName` is injective on nonempty paths. -/
theorem groupName_inj {p q : String} (hp : p ≠ "") (hq : q ≠ "")
    (h : groupName p = groupName q) : p = q := by
  simp only [groupName, if_neg hp, if_neg hq] at h
  have hd : ("/" ++ p ++ "/vars").data = ("/" ++ q ++ "/vars").data := by rw [h]
  simp only [String.data_append] at hd
  rw [List.append_assoc, List.append_assoc] at hd
  have := List.append_cancel_right (List.append_cancel_left hd)
  exact String.ext this

/-- Every `vars` group name starts with a slash. -/
theorem groupName_startsWith (p : String) :
    strStartsWith (groupName p) "/" = true := by
  by_cases hp : p = ""
  · subst hp
    decide
  · simp only [groupName, if_neg hp, strStartsWith]
    show List.isPrefixOf "/".toList ("/" ++ p ++ "/vars").toList = true
    have hdata : ("/" ++ p ++ "/vars").toList = '/' :: (p.data ++ "/vars".data) := by
      show ("/" ++ p ++ "/vars").data = '/' :: (p.data ++ "/vars".data)
      simp [String.data_append]
    rw [hdata]
    simp [List.isPrefixOf]

/-- A path that does not start with a slash differs from every group name. -/
theorem ne_groupName {p q : String} (h : strStartsWith p "/" = false) :
    p ≠ groupName q := by
  intro hc
  rw [hc, groupName_startsWith q] at h
  simp at h

/-- Each rotation extends the canonical name sequence by one. -/
theorem shardNameSeq_succ (r : Nat) :
    shardNameSeq (r + 1) =
      shardNameSeq r ++
        [resolveDuplicateFilename (shardNameLast r) (shardNameSeq r)] := rfl

/-- The canonical name sequence is nonempty. -/
theorem shardNameSeq_ne_nil (r : Nat) : shardNameSeq r ≠ [] := by
  cases r with
  | zero => simp [shardNameSeq]
  | succ r => simp [shardNameSeq]

/-- The first canonical shard name is the original root. -/
theorem shardNameSeq_head (r : Nat) :
    (shardNameSeq r).head? = some "model.weights.h5" := by
  induction r with
  | zero => rfl
  | succ r ih =>
    rw [shardNameSeq_succ, List.head?_append_of_ne_nil _ (shardNameSeq_ne_nil r)]
    exact ih

/-- Rotation-name freshness for the session lengths covered by the
round-trip theorem (the `resolve_duplicate_filename` scheme, checked by
evaluation). -/
theorem shardNameSeq_nodup : ∀ r < 13, (shardNameSeq r).Nodup := by decide

/-- A missing binding defers lookup to the appended entries. -/
theorem lookup_append_none {β : Type} {m m2 : List (String × β)} {k : String}
    (h : m.lookup k = none) : (m ++ m2).lookup k = m2.lookup k := by
  induction m with
  | nil => rfl
  | cons e rest ih =>
    rw [List.cons_append, List.lookup]
    rw [List.lookup] at h
    cases hk : (k == e.1) with
    | true => rw [hk] at h; exact absurd h (by simp)
    | false => rw [hk] at h; exact ih h

/-- The current root is the last canonical name. -/
theorem shardNameLast_mem (r : Nat) : shardNameLast r ∈ shardNameSeq r := by
  have h := shardNameSeq_ne_nil r
  simp only [shardNameLast]
  cases hs : shardNameSeq r with
  | nil => exact absurd hs h
  | cons a l =>
    rw [List.getLastD_eq_getLast?]
    rw [List.getLast?_eq_getLast (a :: l) (by simp)]
    simp only [Option.getD_some]
    exact List.getLast_mem _

/-- `make` preserves the write-session invariant: the new group lands in the
current shard (rotated first iff the measured shard size exceeds the
threshold) and the shard map records its location. -/
theorem storeMake_inv {mx : Nat} {ws : List (String × Vars)} {st : WStore}
    {r : Nat} (p : String) (v : Vars)
    (hInv : WriteSessionInv mx ws st r)
    (hp : p ≠ "") (hfresh : p ∉ ws.map Prod.fst)
    (hws : ∀ q ∈ ws.map Prod.fst, q ≠ "") :
    ∃ r2, (r2 = r ∨ r2 = r + 1) ∧
      WriteSessionInv mx (ws ++ [(p, v)]) (storeMake st p v) r2 ∧
      (st.cur.size ≤ mx → r2 = r ∧ (storeMake st p v).closed = st.closed) ∧
      (st.cur.size > mx → r2 = r + 1 ∧
        (storeMake st p v).closed = st.closed ++ [st.cur] ∧
        (storeMake st p v).cur.groups = [(p, v)]) := by
  obtain ⟨hOrig, hMx, hRoot, hCurName, hSL, hNames, hGroups, hKeys, hBind⟩ := hInv
  have hNamesE : st.closed.map (fun f => f.name) ++ [st.cur.name] = shardNameSeq r := by
    simpa [finalShardFiles] using hNames
  by_cases hsz : st.cur.size > st.maxSize
  · -- rotation
    have hsz2 : st.cur.size > mx := hMx ▸ hsz
    refine ⟨r + 1, Or.inr rfl, ?_, fun hle => absurd hsz2 (by omega), fun _ => ?_⟩
    · have hslEq : st.shardList ++ [st.cur.name] = shardNameSeq r := by
        rw [hSL, hCurName, ← hNamesE, List.dropLast_concat, hCurName]
      have hcontains : (st.shardList ++ [st.cur.name]).contains st.rootPath = true := by
        rw [hRoot, ← hCurName]
        simp
      have hnew : resolveDuplicateFilename st.rootPath (st.shardList ++ [st.cur.name]) =
          resolveDuplicateFilename (shardNameLast r) (shardNameSeq r) := by
        rw [hRoot, hslEq]
      have hseq1 : shardNameSeq (r + 1) =
          shardNameSeq r ++ [resolveDuplicateFilename (shardNameLast r) (shardNameSeq r)] :=
        shardNameSeq_succ r
      have hlast1 : shardNameLast (r + 1) =
          resolveDuplicateFilename (shardNameLast r) (shardNameSeq r) := by
        rw [shardNameLast, hseq1, List.getLastD_concat]
      simp only [storeMake, if_pos hsz, rotateShard, hcontains, if_pos rfl]
      rw [hnew]
      refine ⟨hOrig, hMx, hlast1.symm, hlast1.symm, ?_, ?_, ?_, ?_, ?_⟩
      · simp only [hseq1, List.dropLast_concat]
        exact hslEq
      · simp only [finalShardFiles, List.map_append, List.map_cons, List.map_nil,
          hseq1]
        rw [← hNamesE]
        simp
      · simp only [finalShardFiles, List.flatMap_append, List.flatMap_cons,
          List.flatMap_nil] at hGroups ⊢
        simp [← hGroups]
      · intro e he
        rcases assocUpdate_mem he with hold | hnewk
        · obtain ⟨q, hq, hqe⟩ := hKeys e hold
          exact ⟨q, ⟨by simp [hq.1], hq.2⟩, hqe⟩
        · exact ⟨p, ⟨by simp, hp⟩, hnewk⟩
      · intro q w hqw
        rcases List.mem_append.1 hqw with hqold | hqnew
        · obtain ⟨f, hf, hmap, hlook⟩ := hBind q w hqold
          refine ⟨f, ?_, ?_, hlook⟩
          · simp only [finalShardFiles] at hf ⊢
            rcases List.mem_append.1 hf with hfc | hfcur
            · simp [List.mem_append, hfc]
            · rw [List.mem_singleton] at hfcur
              simp [List.mem_append, hfcur]
          · rw [assocUpdate_lookup_ne _ _ _ _ ?_]
            · exact hmap
            · intro hc
              have hq0 : q ≠ "" := hws q (List.mem_map_of_mem _ hqold)
              exact hfresh (groupName_inj hq0 hp hc ▸ List.mem_map_of_mem _ hqold)
        · rw [List.mem_singleton] at hqnew
          obtain ⟨rfl, rfl⟩ := Prod.mk.injEq .. ▸ hqnew
          refine ⟨⟨resolveDuplicateFilename (shardNameLast r) (shardNameSeq r), [(q, w)]⟩,
            ?_, ?_, ?_⟩
          · simp [finalShardFiles]
          · rw [assocUpdate_lookup_self]
            simp
          · simp [List.lookup]
    · refine ⟨rfl, ?_, ?_⟩ <;> simp [storeMake, if_pos hsz, rotateShard]
  · -- no rotation
    have hle2 : ¬ st.cur.size > mx := hMx ▸ hsz
    refine ⟨r, Or.inl rfl, ?_, fun _ => ⟨rfl, by simp [storeMake, if_neg hsz]⟩,
      fun hgt => absurd hgt hle2⟩
    simp only [storeMake, if_neg hsz]
    refine ⟨hOrig, hMx, hRoot, hCurName, hSL, ?_, ?_, ?_, ?_⟩
    · simpa [finalShardFiles] using hNames
    · simp only [finalShardFiles, List.flatMap_append, List.flatMap_cons,
        List.flatMap_nil] at hGroups ⊢
      simp [← hGroups]
    · intro e he
      rcases assocUpdate_mem he with hold | hnewk
      · obtain ⟨q, hq, hqe⟩ := hKeys e hold
        exact ⟨q, ⟨by simp [hq.1], hq.2⟩, hqe⟩
      · exact ⟨p, ⟨by simp, hp⟩, hnewk⟩
    · intro q w hqw
      have hcurGroups : ∀ e ∈ st.cur.groups, e.1 ≠ p := by
        intro e he hc
        apply hfresh
        rw [← hGroups]
        rw [← hc]
        simp only [finalShardFiles, List.flatMap_append, List.flatMap_cons,
          List.flatMap_nil, List.append_nil]
        exact List.mem_map_of_mem _ (List.mem_append_right _ he)
      rcases List.mem_append.1 hqw with hqold | hqnew
      · obtain ⟨f, hf, hmap, hlook⟩ := hBind q w hqold
        have hq0 : q ≠ "" := hws q (List.mem_map_of_mem _ hqold)
        have hmapNew : (assocUpdate st.varShardMap (groupName p) st.rootPath).lookup
            (groupName q) = some f.name := by
          rw [assocUpdate_lookup_ne _ _ _ _ ?_]
          · exact hmap
          · intro hc
            exact hfresh (groupName_inj hq0 hp hc ▸ List.mem_map_of_mem _ hqold)
        simp only [finalShardFiles] at hf
        rcases List.mem_append.1 hf with hfc | hfcur
        · exact ⟨f, by simp [finalShardFiles, List.mem_append, hfc], hmapNew, hlook⟩
        · rw [List.mem_singleton] at hfcur
          subst hfcur
          refine ⟨⟨st.cur.name, st.cur.groups ++ [(p, v)]⟩,
            by simp [finalShardFiles], hmapNew, ?_⟩
          exact lookup_append_some hlook
      · rw [List.mem_singleton] at hqnew
        obtain ⟨rfl, rfl⟩ := Prod.mk.injEq .. ▸ hqnew
        refine ⟨⟨st.cur.name, st.cur.groups ++ [(q, w)]⟩,
          by simp [finalShardFiles], ?_, ?_⟩
        · rw [assocUpdate_lookup_self, hRoot, hCurName]
        · rw [lookup_append_none (lookup_eq_none hcurGroups)]
          simp [List.lookup]

/-- Appending one group to a shard file adds that group's byte size. -/
theorem size_append_group (n : String) (gs : List (String × Vars))
    (p : String) (v : Vars) :
    (H5File.mk n (gs ++ [(p, v)])).size = (H5File.mk n gs).size + varsSize v := by
  simp [H5File.size, varsSize, List.map_append, List.sum_append]

/-- The canonical shard-name sequence after `r` rotations has `r + 1`
names. -/
theorem shardNameSeq_length (r : Nat) : (shardNameSeq r).length = r + 1 := by
  induction r with
  | zero => rfl
  | succ r ih =>
    rw [shardNameSeq_succ, List.length_append, ih]
    rfl

/-- In a list with duplicate-free keys, a key determines its value. -/
theorem nodup_keys_mem_inj {β : Type} {ws : List (String × β)}
    (hnd : (ws.map Prod.fst).Nodup) {p : String} {v w : β}
    (h1 : (p, v) ∈ ws) (h2 : (p, w) ∈ ws) : v = w := by
  induction ws with
  | nil => simp at h1
  | cons e rest ih =>
    rw [List.map_cons, List.nodup_cons] at hnd
    rcases List.mem_cons.1 h1 with he1 | h1s
    · rcases List.mem_cons.1 h2 with he2 | h2s
      · have h3 : (p, v) = (p, w) := he1.trans he2.symm
        exact (Prod.mk.injEq .. ▸ h3).2
      · exfalso
        have hpm : p ∈ rest.map Prod.fst := List.mem_map_of_mem Prod.fst h2s
        rw [← he1] at hnd
        exact hnd.1 hpm
    · rcases List.mem_cons.1 h2 with he2 | h2s
      · exfalso
        have hpm : p ∈ rest.map Prod.fst := List.mem_map_of_mem Prod.fst h1s
        rw [← he2] at hnd
        exact hnd.1 hpm
      · exact ih hnd.2 h1s h2s

/-- Running a write list preserves the session invariant; the rotation count
grows by at most the number of writes, and a session that never rotated kept
every proper prefix of the writes within the threshold. -/
theorem runWrites_inv {mx : Nat} (rest : List (String × Vars)) :
    ∀ {ws : List (String × Vars)} {st : WStore} {r : Nat},
      WriteSessionInv mx ws st r →
      (∀ q ∈ (ws ++ rest).map Prod.fst, q ≠ "") →
      ((ws ++ rest).map Prod.fst).Nodup →
      ∃ r2, r ≤ r2 ∧ r2 ≤ r + rest.length ∧
        WriteSessionInv mx (ws ++ rest) (runWrites st rest) r2 ∧
        (r2 = r → (runWrites st rest).closed = st.closed ∧
          (rest ≠ [] → st.cur.size + writesSize rest.dropLast ≤ mx)) := by
  induction rest with
  | nil =>
    intro ws st r hInv hws hnd
    exact ⟨r, le_refl r, by simp, by simpa using hInv,
      fun _ => ⟨rfl, fun hne => absurd rfl hne⟩⟩
  | cons e rest ih =>
    intro ws st r hInv hws hnd
    obtain ⟨p, v⟩ := e
    have hmem : p ∈ (ws ++ (p, v) :: rest).map Prod.fst := by simp
    have hp : p ≠ "" := hws p hmem
    have hnds : (ws.map Prod.fst ++ p :: rest.map Prod.fst).Nodup := by
      simpa using hnd
    have hfresh : p ∉ ws.map Prod.fst := fun hc =>
      (List.nodup_append.1 hnds).2.2 hc (List.mem_cons_self _ _)
    have hws0 : ∀ q ∈ ws.map Prod.fst, q ≠ "" := by
      intro q hq
      apply hws
      simp only [List.map_append]
      exact List.mem_append_left _ hq
    obtain ⟨r1, hr1or, hInv1, hle_c, hgt_c⟩ := storeMake_inv p v hInv hp hfresh hws0
    have hassoc : (ws ++ [(p, v)]) ++ rest = ws ++ (p, v) :: rest := by simp
    have hws1 : ∀ q ∈ ((ws ++ [(p, v)]) ++ rest).map Prod.fst, q ≠ "" := by
      rw [hassoc]; exact hws
    have hnd1 : (((ws ++ [(p, v)]) ++ rest).map Prod.fst).Nodup := by
      rw [hassoc]; exact hnd
    obtain ⟨r2, hr12, hr2len, hInv2, hsz2⟩ := ih hInv1 hws1 hnd1
    have hrr1 : r ≤ r1 ∧ r1 ≤ r + 1 := by rcases hr1or with rfl | rfl <;> omega
    refine ⟨r2, by omega, by simp only [List.length_cons]; omega, ?_, ?_⟩
    · exact hassoc ▸ hInv2
    · intro hr2r
      have hr1r : r1 = r := by omega
      by_cases hsz : st.cur.size > mx
      · exact absurd (hgt_c hsz).1 (by omega)
      · have hle := hle_c (by omega)
        have hmaxeq : st.maxSize = mx := hInv.2.1
        have hszmax : ¬ st.cur.size > st.maxSize := by rw [hmaxeq]; exact hsz
        have hcur1 : (storeMake st p v).cur
            = ⟨st.cur.name, st.cur.groups ++ [(p, v)]⟩ := by
          simp [storeMake, if_neg hszmax]
        have hclosed2 := hsz2 (by omega)
        constructor
        · show (runWrites (storeMake st p v) rest).closed = st.closed
          rw [hclosed2.1, hle.2]
        · intro _
          cases rest with
          | nil =>
            have h0 : writesSize (((p, v) :: []).dropLast) = 0 := rfl
            rw [h0]
            omega
          | cons w rest2 =>
            have hsub := hclosed2.2 (by simp)
            have hsize1 : (storeMake st p v).cur.size
                = st.cur.size + varsSize v := by
              rw [hcur1]
              exact size_append_group st.cur.name st.cur.groups p v
            have hdl : ((p, v) :: w :: rest2).dropLast
                = (p, v) :: (w :: rest2).dropLast := rfl
            rw [hdl]
            have hwsz : writesSize ((p, v) :: (w :: rest2).dropLast)
                = varsSize v + writesSize ((w :: rest2).dropLast) := by
              simp [writesSize]
            rw [hwsz]
            rw [hsize1] at hsub
            omega

/-- `get` on a read store consistent with a finished write session retrieves
a written path's variables — reopening the shard named by the map on a
current-shard miss — and preserves consistency. -/
theorem storeGet_correct {fs : FS} {m : ShardMap} {files : List H5File}
    {ws : List (String × Vars)} {rs : RStore} {p : String} {v : Vars}
    (hcons : ReadConsistent fs m files rs)
    (hGroups : files.flatMap (fun f => f.groups) = ws)
    (hnd : (ws.map Prod.fst).Nodup)
    (hKeys : ∀ e ∈ m, ∃ q, (q ∈ ws.map Prod.fst ∧ q ≠ "") ∧ e.1 = groupName q)
    (hBind : ∃ f, f ∈ files ∧ m.lookup (groupName p) = some f.name ∧
        f.groups.lookup p = some v)
    (hdisk : ∀ f ∈ files, fs.h5s.lookup f.name = some f)
    (hp : p ≠ "") (hslash : strStartsWith p "/" = false) :
    ∃ rs2, storeGet rs p = .ok (rs2, some v) ∧
      rs2.cur.groups.lookup p = some v ∧ ReadConsistent fs m files rs2 := by
  obtain ⟨hfs, hm, hcur⟩ := hcons
  obtain ⟨f, hf, hmap, hlook⟩ := hBind
  cases hhit : rs.cur.groups.lookup p with
  | some w =>
    have h1 : (p, w) ∈ ws := by
      rw [← hGroups]
      exact List.mem_flatMap.2 ⟨rs.cur, hcur, lookup_mem hhit⟩
    have h2 : (p, v) ∈ ws := by
      rw [← hGroups]
      exact List.mem_flatMap.2 ⟨f, hf, lookup_mem hlook⟩
    have hwv : w = v := nodup_keys_mem_inj hnd h1 h2
    subst hwv
    refine ⟨rs, ?_, hhit, hfs, hm, hcur⟩
    simp only [storeGet, if_neg hp, hhit]
  | none =>
    have hraw : m.lookup p = none := by
      apply lookup_eq_none
      intro e he
      obtain ⟨q, _, heq⟩ := hKeys e he
      rw [heq]
      exact Ne.symm (ne_groupName hslash)
    have hgp : m.lookup ("/" ++ p ++ "/vars") = some f.name := by
      have hg : groupName p = "/" ++ p ++ "/vars" := by
        simp [groupName, hp]
      rw [← hg]
      exact hmap
    refine ⟨{rs with cur := f}, ?_, hlook, hfs, hm, hf⟩
    simp only [storeGet, if_neg hp, hhit, hm, hraw, hgp, Option.orElse, hfs,
      hdisk f hf, hlook]

/-- C4: for a `ShardedH5IOStore` opened for writing with a byte threshold,
a `make()` that finds the current shard over the threshold closes it and
opens a new physical file under a fresh name holding only the new group;
writing more than the threshold before the final write yields more than one
shard file; the path-to-filename map is persisted as the sibling
`.weights.json` index on close; and after reopening for read, `get(path)`
retrieves the variables of every written path, reopening the correct older
shard (which then holds the group) on a current-shard miss.  Stated for
sessions of at most 12 writes to nonempty non-slash-prefixed paths under the
default root `"model.weights.h5"` (the regex-based duplicate-filename scheme
is checked by evaluation up to that depth). -/
theorem sharded_store_roundtrip
    (fs0 : FS) (sizeStr : String) (mx : Nat) (st0 : WStore)
    (ws : List (String × Vars))
    (hmx : convertStrBytesToInt sizeStr = .ok mx)
    (hopen : openWrite fs0 "model.weights.h5" sizeStr = .ok st0)
    (hstale : fs0.jsons.lookup (shardMapFileName "model.weights.h5") = none)
    (hlen : ws.length ≤ 12)
    (hks : ∀ q ∈ ws.map Prod.fst, q ≠ "" ∧ strStartsWith q "/" = false)
    (hnd : (ws.map Prod.fst).Nodup) :
    (∀ pre e post, ws = pre ++ e :: post →
      (runWrites st0 pre).cur.size > mx →
      (runWrites st0 (pre ++ [e])).closed
          = (runWrites st0 pre).closed ++ [(runWrites st0 pre).cur] ∧
      (runWrites st0 (pre ++ [e])).cur.name ≠ (runWrites st0 pre).cur.name ∧
      (runWrites st0 (pre ++ [e])).cur.groups = [e]) ∧
    (writesSize ws.dropLast > mx →
      2 ≤ (finalShardFiles (runWrites st0 ws)).length) ∧
    (closeWrite fs0 (runWrites st0 ws)).jsons.lookup
        (shardMapFileName "model.weights.h5")
      = some (runWrites st0 ws).varShardMap ∧
    (∃ rs0, openRead (closeWrite fs0 (runWrites st0 ws)) "model.weights.h5"
        = .ok rs0 ∧
      ReadConsistent (closeWrite fs0 (runWrites st0 ws))
        (runWrites st0 ws).varShardMap (finalShardFiles (runWrites st0 ws)) rs0) ∧
    (∀ p v, (p, v) ∈ ws →
      ∀ rs, ReadConsistent (closeWrite fs0 (runWrites st0 ws))
          (runWrites st0 ws).varShardMap (finalShardFiles (runWrites st0 ws)) rs →
        ∃ rs2, storeGet rs p = .ok (rs2, some v) ∧
          rs2.cur.groups.lookup p = some v ∧
          ReadConsistent (closeWrite fs0 (runWrites st0 ws))
            (runWrites st0 ws).varShardMap (finalShardFiles (runWrites st0 ws))
            rs2) := by
  simp only [openWrite, hmx, hstale, Option.getD] at hopen
  rw [Except.ok.injEq] at hopen
  subst hopen
  have hInv0 : WriteSessionInv mx []
      { origRoot := "model.weights.h5", rootPath := "model.weights.h5",
        maxSize := mx, shardList := [], closed := [],
        cur := ⟨"model.weights.h5", []⟩, varShardMap := [] } 0 := by
    refine ⟨rfl, rfl, rfl, rfl, rfl, rfl, rfl, ?_, ?_⟩
    · intro e he
      simp at he
    · intro q w hq
      simp at hq
  have hws0 : ∀ q ∈ (([] : List (String × Vars)) ++ ws).map Prod.fst,
      q ≠ "" := by
    intro q hq
    exact (hks q (by simpa using hq)).1
  have hnd0 : ((([] : List (String × Vars)) ++ ws).map Prod.fst).Nodup := by
    simpa using hnd
  obtain ⟨r2, h0r2, hr2len, hInvF, hsz0⟩ := runWrites_inv ws hInv0 hws0 hnd0
  rw [List.nil_append] at hInvF
  obtain ⟨hO1, hM1, hR1, hCN1, hSL1, hN1, hG1, hK1, hB1⟩ := hInvF
  have hr2b : r2 < 13 := by omega
  have hjson : (closeWrite fs0 (runWrites
        { origRoot := "model.weights.h5", rootPath := "model.weights.h5",
          maxSize := mx, shardList := [], closed := [],
          cur := ⟨"model.weights.h5", []⟩, varShardMap := [] } ws)).jsons.lookup
      (shardMapFileName "model.weights.h5")
      = some (runWrites
        { origRoot := "model.weights.h5", rootPath := "model.weights.h5",
          maxSize := mx, shardList := [], closed := [],
          cur := ⟨"model.weights.h5", []⟩, varShardMap := [] } ws).varShardMap := by
    show (assocUpdate fs0.jsons (shardMapFileName (runWrites _ ws).origRoot)
        (runWrites _ ws).varShardMap).lookup (shardMapFileName "model.weights.h5")
      = _
    rw [hO1]
    exact assocUpdate_lookup_self _ _ _
  have hndnames : ((finalShardFiles (runWrites
      { origRoot := "model.weights.h5", rootPath := "model.weights.h5",
        maxSize := mx, shardList := [], closed := [],
        cur := ⟨"model.weights.h5", []⟩, varShardMap := [] } ws)).map
        (fun f => f.name)).Nodup := by
    rw [hN1]
    exact shardNameSeq_nodup r2 hr2b
  have hdisk : ∀ f ∈ finalShardFiles (runWrites
      { origRoot := "model.weights.h5", rootPath := "model.weights.h5",
        maxSize := mx, shardList := [], closed := [],
        cur := ⟨"model.weights.h5", []⟩, varShardMap := [] } ws),
      (closeWrite fs0 (runWrites
        { origRoot := "model.weights.h5", rootPath := "model.weights.h5",
          maxSize := mx, shardList := [], closed := [],
          cur := ⟨"model.weights.h5", []⟩, varShardMap := [] } ws)).h5s.lookup
        f.name = some f := by
    intro f hf
    exact foldl_files_lookup _ fs0.h5s f hf hndnames
  refine ⟨?_, ?_, hjson, ?_, ?_⟩
  · -- rotation behavior at each over-threshold make
    intro pre e post hsplit hszpre
    obtain ⟨ep, ev⟩ := e
    have hkspre : ∀ q ∈ (([] : List (String × Vars)) ++ pre).map Prod.fst,
        q ≠ "" := by
      intro q hq
      refine (hks q ?_).1
      rw [hsplit, List.map_append]
      exact List.mem_append_left _ (by simpa using hq)
    have hndmid : ((pre ++ (ep, ev) :: post).map Prod.fst).Nodup := by
      rw [← hsplit]
      exact hnd
    have hndpre : ((([] : List (String × Vars)) ++ pre).map Prod.fst).Nodup := by
      rw [List.nil_append]
      rw [List.map_append] at hndmid
      exact (List.nodup_append.1 hndmid).1
    obtain ⟨rp, _, hrplen, hInvP, _⟩ := runWrites_inv pre hInv0 hkspre hndpre
    rw [List.nil_append] at hInvP
    have hpe : ep ≠ "" := by
      refine (hks ep ?_).1
      rw [hsplit, List.map_append]
      exact List.mem_append_right _ (by simp)
    have hfreshe : ep ∉ pre.map Prod.fst := by
      rw [List.map_append] at hndmid
      intro hc
      exact (List.nodup_append.1 hndmid).2.2 hc (by simp)
    have hwspre : ∀ q ∈ pre.map Prod.fst, q ≠ "" := by
      intro q hq
      refine (hks q ?_).1
      rw [hsplit, List.map_append]
      exact List.mem_append_left _ hq
    obtain ⟨r1, hr1or, hInvS, hle_c, hgt_c⟩ :=
      storeMake_inv ep ev hInvP hpe hfreshe hwspre
    obtain ⟨hr1eq, hclosedS, hgroupsS⟩ := hgt_c hszpre
    subst hr1eq
    have hrw : runWrites
        { origRoot := "model.weights.h5", rootPath := "model.weights.h5",
          maxSize := mx, shardList := [], closed := [],
          cur := ⟨"model.weights.h5", []⟩, varShardMap := [] } (pre ++ [(ep, ev)])
        = storeMake (runWrites
          { origRoot := "model.weights.h5", rootPath := "model.weights.h5",
            maxSize := mx, shardList := [], closed := [],
            cur := ⟨"model.weights.h5", []⟩, varShardMap := [] } pre) ep ev := by
      simp [runWrites, List.foldl_append]
    refine ⟨by rw [hrw]; exact hclosedS, ?_, by rw [hrw]; exact hgroupsS⟩
    have hCNP := hInvP.2.2.2.1
    have hCNS := hInvS.2.2.2.1
    have hlenws : ws.length = pre.length + post.length + 1 := by
      rw [hsplit]
      simp only [List.length_append, List.length_cons]
      omega
    have hrpbound : rp + 1 < 13 := by omega
    have hnd2 := shardNameSeq_nodup (rp + 1) hrpbound
    rw [shardNameSeq_succ] at hnd2
    have hnotin : resolveDuplicateFilename (shardNameLast rp) (shardNameSeq rp)
        ∉ shardNameSeq rp := by
      intro hc
      exact (List.nodup_append.1 hnd2).2.2 hc (by simp)
    have hlast1 : shardNameLast (rp + 1)
        = resolveDuplicateFilename (shardNameLast rp) (shardNameSeq rp) := by
      rw [shardNameLast, shardNameSeq_succ, List.getLastD_concat]
    rw [hrw, hCNS, hCNP]
    intro hc
    rw [hlast1] at hc
    have hmemL := shardNameLast_mem rp
    rw [← hc] at hmemL
    exact hnotin hmemL
  · -- enough data makes more than one shard
    intro hbig
    by_cases hr20 : r2 = 0
    · exfalso
      rcases eq_or_ne ws [] with rfl | hwne
      · have h0 : writesSize (([] : List (String × Vars)).dropLast) = 0 := rfl
        rw [h0] at hbig
        omega
      · have hb := (hsz0 hr20).2 hwne
        have hc0 : (H5File.mk "model.weights.h5" []).size = 0 := rfl
        have hb2 : writesSize ws.dropLast ≤ mx := by
          simpa [hc0] using hb
        omega
    · have hlf := congrArg List.length hN1
      rw [List.length_map, shardNameSeq_length] at hlf
      omega
  · -- reopening for read succeeds on the persisted index
    have hne : finalShardFiles (runWrites
        { origRoot := "model.weights.h5", rootPath := "model.weights.h5",
          maxSize := mx, shardList := [], closed := [],
          cur := ⟨"model.weights.h5", []⟩, varShardMap := [] } ws) ≠ [] := by
      simp [finalShardFiles]
    obtain ⟨f0, files2, hfiles⟩ : ∃ a l, finalShardFiles (runWrites
        { origRoot := "model.weights.h5", rootPath := "model.weights.h5",
          maxSize := mx, shardList := [], closed := [],
          cur := ⟨"model.weights.h5", []⟩, varShardMap := [] } ws) = a :: l := by
      cases hh : finalShardFiles (runWrites
          { origRoot := "model.weights.h5", rootPath := "model.weights.h5",
            maxSize := mx, shardList := [], closed := [],
            cur := ⟨"model.weights.h5", []⟩, varShardMap := [] } ws) with
      | nil => exact absurd hh hne
      | cons a l => exact ⟨a, l, rfl⟩
    have hf0name : f0.name = "model.weights.h5" := by
      have h1 := congrArg List.head? hN1
      rw [hfiles, shardNameSeq_head r2] at h1
      simpa using h1
    have hroot : (closeWrite fs0 (runWrites
        { origRoot := "model.weights.h5", rootPath := "model.weights.h5",
          maxSize := mx, shardList := [], closed := [],
          cur := ⟨"model.weights.h5", []⟩, varShardMap := [] } ws)).h5s.lookup
        "model.weights.h5" = some f0 := by
      have h := hdisk f0 (by rw [hfiles]; exact List.mem_cons_self _ _)
      rw [hf0name] at h
      exact h
    refine ⟨⟨_, _, f0⟩, ?_, rfl, rfl, by rw [hfiles]; exact List.mem_cons_self _ _⟩
    simp only [openRead, hjson, hroot]
    rfl
  · -- every written path is retrievable from any consistent read state
    intro p v hpv rs hrs
    have hpne : p ≠ "" := (hks p (List.mem_map_of_mem Prod.fst hpv)).1
    have hpslash : strStartsWith p "/" = false :=
      (hks p (List.mem_map_of_mem Prod.fst hpv)).2
    exact storeGet_correct hrs hG1 hnd hK1 (hB1 p v hpv) hdisk hpne hpslash

/-- A concrete sharded write session: three groups totalling 1300 bytes
against a `"1KB"` threshold produce more than one shard file, with the index
persisted and every path retrievable after reopening. -/
theorem sharded_store_roundtrip_witness :
    2 ≤ (finalShardFiles (runWrites
      { origRoot := "model.weights.h5", rootPath := "model.weights.h5",
        maxSize := 1000, shardList := [], closed := [],
        cur := ⟨"model.weights.h5", []⟩, varShardMap := [] }
      [("a", [("w", 600)]), ("b", [("w", 600)]), ("c", [("w", 100)])])).length ∧
    (∃ rs0, openRead (closeWrite ⟨[], []⟩ (runWrites
        { origRoot := "model.weights.h5", rootPath := "model.weights.h5",
          maxSize := 1000, shardList := [], closed := [],
          cur := ⟨"model.weights.h5", []⟩, varShardMap := [] }
        [("a", [("w", 600)]), ("b", [("w", 600)]), ("c", [("w", 100)])]))
        "model.weights.h5" = .ok rs0) := by
  have h := sharded_store_roundtrip ⟨[], []⟩ "1KB" 1000
    { origRoot := "model.weights.h5", rootPath := "model.weights.h5",
      maxSize := 1000, shardList := [], closed := [],
      cur := ⟨"model.weights.h5", []⟩, varShardMap := [] }
    [("a", [("w", 600)]), ("b", [("w", 600)]), ("c", [("w", 100)])]
    rfl rfl rfl (by decide) (by decide) (by decide)
  obtain ⟨rs0, hrs0, _⟩ := h.2.2.2.1
  exact ⟨h.2.1 (by decide), rs0, hrs0⟩

/-! ## Reconstruction-loop lemmas (C2) -/

/-- The inner per-layer queue never grows, and a run that returns the whole
queue unchanged processed no node at all. -/
theorem processLayerQueue_spec (name : String) :
    ∀ (ds : List NodeData) (created c1 : List RLayer) (rem : List NodeData),
      processLayerQueue created name ds = .ok (c1, rem) →
      rem.length ≤ ds.length ∧
      (rem.length = ds.length → rem = ds ∧ c1 = created) := by
  intro ds
  induction ds with
  | nil =>
    intro created c1 rem h
    simp only [processLayerQueue] at h
    rw [Except.ok.injEq, Prod.mk.injEq] at h
    obtain ⟨h1, h2⟩ := h
    subst h1
    subst h2
    exact ⟨le_refl _, fun _ => ⟨rfl, rfl⟩⟩
  | cons d ds ih =>
    intro created c1 rem h
    simp only [processLayerQueue] at h
    cases hpn : processNode created name d with
    | error e =>
      simp only [hpn] at h
      by_cases hie : e.isIndexError = true
      · rw [if_pos hie] at h
        rw [Except.ok.injEq, Prod.mk.injEq] at h
        obtain ⟨h1, h2⟩ := h
        subst h1
        subst h2
        exact ⟨le_refl _, fun _ => ⟨rfl, rfl⟩⟩
      · rw [if_neg hie] at h
        exact absurd h (by simp)
    | ok created1 =>
      simp only [hpn] at h
      cases hq : processLayerQueue created1 name ds with
      | error e =>
        simp only [hq] at h
        exact absurd h (by simp)
      | ok pr =>
        obtain ⟨c2, rem2⟩ := pr
        simp only [hq] at h
        rw [Except.ok.injEq, Prod.mk.injEq] at h
        obtain ⟨h1, h2⟩ := h
        subst h1
        subst h2
        have hrec := (ih created1 _ _ hq).1
        constructor
        · simp only [List.length_cons]
          omega
        · intro hlen
          exfalso
          simp only [List.length_cons] at hlen
          omega

/-- Setting an absent key changes nothing. -/
theorem pendingSet_absent {k : String} {ds : List NodeData} :
    ∀ {p : Pending}, k ∉ p.map Prod.fst → pendingSet p k ds = p := by
  intro p
  induction p with
  | nil => intro _; rfl
  | cons e rest ih =>
    intro hk
    simp only [List.map_cons, List.mem_cons] at hk
    push_neg at hk
    simp only [pendingSet, List.map_cons]
    rw [if_neg (fun hc => hk.1 hc.symm)]
    congr 1
    exact ih hk.2

/-- Erasing an absent key changes nothing. -/
theorem pendingErase_absent {k : String} :
    ∀ {p : Pending}, k ∉ p.map Prod.fst → pendingErase p k = p := by
  intro p
  induction p with
  | nil => intro _; rfl
  | cons e rest ih =>
    intro hk
    simp only [List.map_cons, List.mem_cons] at hk
    push_neg at hk
    simp only [pendingErase, List.filter_cons]
    rw [if_pos (by simpa using fun hc => hk.1 hc.symm)]
    congr 1
    exact ih hk.2

/-- Re-queueing exactly the value a key already has leaves the queue
unchanged. -/
theorem pendingSet_self {p : Pending} {k : String} {ds : List NodeData}
    (hnd : (p.map Prod.fst).Nodup) (h : p.lookup k = some ds) :
    pendingSet p k ds = p := by
  induction p with
  | nil => rfl
  | cons e rest ih =>
    rw [List.map_cons, List.nodup_cons] at hnd
    rw [List.lookup] at h
    by_cases hk : e.1 = k
    · have hkk : (k == e.1) = true := by simp [hk]
      rw [hkk] at h
      simp only [Option.some.injEq] at h
      subst h
      have habs : pendingSet rest k e.2 = rest :=
        pendingSet_absent (by rw [← hk]; exact hnd.1)
      show (if e.1 = k then (k, e.2) else e) :: pendingSet rest k e.2 = e :: rest
      rw [if_pos hk, habs]
      have he : (k, e.2) = e := by rw [← hk]
      rw [he]
    · have hkk : (k == e.1) = false := by
        simp only [beq_eq_false_iff_ne, ne_eq]
        exact fun hc => hk hc.symm
      rw [hkk] at h
      simp only [pendingSet, List.map_cons, if_neg hk]
      congr 1
      exact ih hnd.2 h

/-- Erasing a present key removes exactly its queue from the count. -/
theorem pendingCount_erase {p : Pending} {k : String} {ds : List NodeData}
    (hnd : (p.map Prod.fst).Nodup) (h : p.lookup k = some ds) :
    pendingCount (pendingErase p k) + ds.length = pendingCount p := by
  induction p with
  | nil => simp [List.lookup] at h
  | cons e rest ih =>
    rw [List.map_cons, List.nodup_cons] at hnd
    rw [List.lookup] at h
    by_cases hk : e.1 = k
    · have hkk : (k == e.1) = true := by simp [hk]
      rw [hkk] at h
      simp only [Option.some.injEq] at h
      subst h
      have h1 : pendingErase (e :: rest) k = pendingErase rest k := by
        simp [pendingErase, List.filter_cons, hk]
      have h2 : pendingErase rest k = rest :=
        pendingErase_absent (by rw [← hk]; exact hnd.1)
      rw [h1, h2]
      simp only [pendingCount, List.map_cons, List.sum_cons]
      omega
    · have hkk : (k == e.1) = false := by
        simp only [beq_eq_false_iff_ne, ne_eq]
        exact fun hc => hk hc.symm
      rw [hkk] at h
      have h1 : pendingErase (e :: rest) k = e :: pendingErase rest k := by
        simp [pendingErase, List.filter_cons, hk]
      rw [h1]
      have := ih hnd.2 h
      simp only [pendingCount, List.map_cons, List.sum_cons] at this ⊢
      omega

/-- Replacing a present key's queue replaces exactly its length in the
count. -/
theorem pendingCount_set {p : Pending} {k : String} {ds rem : List NodeData}
    (hnd : (p.map Prod.fst).Nodup) (h : p.lookup k = some ds) :
    pendingCount (pendingSet p k rem) + ds.length
      = pendingCount p + rem.length := by
  induction p with
  | nil => simp [List.lookup] at h
  | cons e rest ih =>
    rw [List.map_cons, List.nodup_cons] at hnd
    rw [List.lookup] at h
    by_cases hk : e.1 = k
    · have hkk : (k == e.1) = true := by simp [hk]
      rw [hkk] at h
      simp only [Option.some.injEq] at h
      subst h
      have h1 : pendingSet (e :: rest) k rem = (k, rem) :: rest := by
        simp only [pendingSet, List.map_cons, if_pos hk]
        congr 1
        have habs : pendingSet rest k rem = rest :=
          pendingSet_absent (by rw [← hk]; exact hnd.1)
        exact habs
      rw [h1]
      simp only [pendingCount, List.map_cons, List.sum_cons]
      omega
    · have hkk : (k == e.1) = false := by
        simp only [beq_eq_false_iff_ne, ne_eq]
        exact fun hc => hk hc.symm
      rw [hkk] at h
      have h1 : pendingSet (e :: rest) k rem = e :: pendingSet rest k rem := by
        simp only [pendingSet, List.map_cons, if_neg hk]
      rw [h1]
      have := ih hnd.2 h
      simp only [pendingCount, List.map_cons, List.sum_cons] at this ⊢
      omega

/-- `pendingSet` preserves the key list. -/
theorem pendingSet_keys (p : Pending) (k : String) (rem : List NodeData) :
    (pendingSet p k rem).map Prod.fst = p.map Prod.fst := by
  induction p with
  | nil => rfl
  | cons e rest ih =>
    show (if e.1 = k then ((k, rem) : String × List NodeData) else e).1
        :: (pendingSet rest k rem).map Prod.fst = e.1 :: rest.map Prod.fst
    rw [ih]
    by_cases hk : e.1 = k
    · rw [if_pos hk, hk]
    · rw [if_neg hk]

/-- Deleting a drained queue entry preserves well-formedness. -/
theorem pendingErase_wf {p : Pending} {k : String} (hwf : PendingWF p) :
    PendingWF (pendingErase p k) := by
  constructor
  · exact List.Nodup.sublist ((List.filter_sublist p).map Prod.fst) hwf.1
  · intro e he
    exact hwf.2 e (List.mem_of_mem_filter he)

/-- Re-queueing a nonempty remainder preserves well-formedness. -/
theorem pendingSet_wf {p : Pending} {k : String} {rem : List NodeData}
    (hwf : PendingWF p) (hrem : rem.isEmpty = false) :
    PendingWF (pendingSet p k rem) := by
  constructor
  · rw [pendingSet_keys]
    exact hwf.1
  · intro e he
    obtain ⟨x, hx, hfx⟩ := List.mem_map.1 he
    by_cases hk : x.1 = k
    · rw [if_pos hk] at hfx
      rw [← hfx]
      exact hrem
    · rw [if_neg hk] at hfx
      rw [← hfx]
      exact hwf.2 x hx

/-- Unfolding `processPass` at a layer with no queue entry. -/
theorem processPass_cons_none {lc : LayerCfg} {rest : List LayerCfg}
    {st : List RLayer × Pending} (hlk : st.2.lookup lc.op.name = none) :
    processPass (lc :: rest) st = processPass rest st := by
  simp only [processPass, hlk]

/-- Unfolding `processPass` at a layer whose queue run fails. -/
theorem processPass_cons_err {lc : LayerCfg} {rest : List LayerCfg}
    {st : List RLayer × Pending} {ds : List NodeData} {e : RecErr}
    (hlk : st.2.lookup lc.op.name = some ds)
    (hpq : processLayerQueue st.1 lc.op.name ds = .error e) :
    processPass (lc :: rest) st = .error e := by
  simp only [processPass, hlk, hpq]

/-- Unfolding `processPass` at a layer whose queue run returns. -/
theorem processPass_cons_some {lc : LayerCfg} {rest : List LayerCfg}
    {st : List RLayer × Pending} {ds rem : List NodeData} {c1 : List RLayer}
    (hlk : st.2.lookup lc.op.name = some ds)
    (hpq : processLayerQueue st.1 lc.op.name ds = .ok (c1, rem)) :
    processPass (lc :: rest) st = processPass rest (c1,
      if rem.isEmpty then pendingErase st.2 lc.op.name
      else pendingSet st.2 lc.op.name rem) := by
  simp only [processPass, hlk, hpq]

/-- One outer-loop pass either raises, strictly shrinks the total queued-node
count, or returns its input state exactly (every queued node deferred). -/
theorem processPass_trichotomy (cfgLayers : List LayerCfg) :
    ∀ st : List RLayer × Pending, PendingWF st.2 →
      (∃ e, processPass cfgLayers st = .error e) ∨
      (∃ st1, processPass cfgLayers st = .ok st1 ∧ PendingWF st1.2 ∧
        pendingCount st1.2 < pendingCount st.2) ∨
      processPass cfgLayers st = .ok st := by
  induction cfgLayers with
  | nil =>
    intro st hwf
    exact Or.inr (Or.inr rfl)
  | cons lc rest ih =>
    intro st hwf
    cases hlk : st.2.lookup lc.op.name with
    | none =>
      rcases ih st hwf with ⟨e, he⟩ | ⟨st1, h1, hw1, hc1⟩ | hfix
      · exact Or.inl ⟨e, by rw [processPass_cons_none hlk]; exact he⟩
      · exact Or.inr (Or.inl ⟨st1, by rw [processPass_cons_none hlk]; exact h1,
          hw1, hc1⟩)
      · exact Or.inr (Or.inr (by rw [processPass_cons_none hlk]; exact hfix))
    | some ds =>
      have hds : ds.isEmpty = false := hwf.2 _ (lookup_mem hlk)
      cases hpq : processLayerQueue st.1 lc.op.name ds with
      | error e =>
        exact Or.inl ⟨e, processPass_cons_err hlk hpq⟩
      | ok pr =>
        obtain ⟨c1, rem⟩ := pr
        have hspec := processLayerQueue_spec lc.op.name ds st.1 c1 rem hpq
        by_cases hremfull : rem.length = ds.length
        · obtain ⟨hrds, hcs⟩ := hspec.2 hremfull
          subst hrds
          subst hcs
          have hset : pendingSet st.2 lc.op.name rem = st.2 :=
            pendingSet_self hwf.1 hlk
          have hremne : rem.isEmpty = false := hds
          have heq : processPass (lc :: rest) st = processPass rest st := by
            rw [processPass_cons_some hlk hpq, hremne, hset]
            simp
          rcases ih st hwf with ⟨e, he⟩ | ⟨st1, h1, hw1, hc1⟩ | hfix
          · exact Or.inl ⟨e, by rw [heq]; exact he⟩
          · exact Or.inr (Or.inl ⟨st1, by rw [heq]; exact h1, hw1, hc1⟩)
          · exact Or.inr (Or.inr (by rw [heq]; exact hfix))
        · have hlt : rem.length < ds.length :=
            lt_of_le_of_ne hspec.1 hremfull
          have hdpos : 1 ≤ ds.length := by
            cases ds with
            | nil => simp at hds
            | cons a l => simp
          by_cases hre : rem.isEmpty = true
          · have hcount := pendingCount_erase hwf.1 hlk
            have hwf1 := pendingErase_wf (k := lc.op.name) hwf
            have hlt1 : pendingCount (pendingErase st.2 lc.op.name)
                < pendingCount st.2 := by omega
            have heq : processPass (lc :: rest) st
                = processPass rest (c1, pendingErase st.2 lc.op.name) := by
              rw [processPass_cons_some hlk hpq, if_pos hre]
            rcases ih (c1, pendingErase st.2 lc.op.name) hwf1 with
              ⟨e, he⟩ | ⟨st1, h1, hw1, hc1⟩ | hfix
            · exact Or.inl ⟨e, by rw [heq]; exact he⟩
            · exact Or.inr (Or.inl ⟨st1, by rw [heq]; exact h1, hw1, by
                simp only [] at hc1
                omega⟩)
            · exact Or.inr (Or.inl ⟨(c1, pendingErase st.2 lc.op.name),
                by rw [heq]; exact hfix, hwf1, hlt1⟩)
          · have hre' : rem.isEmpty = false := by simpa using hre
            have hrlen : rem.length < ds.length := hlt
            have hcount : pendingCount (pendingSet st.2 lc.op.name rem)
                + ds.length = pendingCount st.2 + rem.length :=
              pendingCount_set hwf.1 hlk
            have hwf1 := pendingSet_wf (k := lc.op.name) hwf hre'
            have hlt1 : pendingCount (pendingSet st.2 lc.op.name rem)
                < pendingCount st.2 := by omega
            have heq : processPass (lc :: rest) st
                = processPass rest (c1, pendingSet st.2 lc.op.name rem) := by
              rw [processPass_cons_some hlk hpq, hre']
              simp
            rcases ih (c1, pendingSet st.2 lc.op.name rem) hwf1 with
              ⟨e, he⟩ | ⟨st1, h1, hw1, hc1⟩ | hfix
            · exact Or.inl ⟨e, by rw [heq]; exact he⟩
            · exact Or.inr (Or.inl ⟨st1, by rw [heq]; exact h1, hw1, by
                simp only [] at hc1
                omega⟩)
            · exact Or.inr (Or.inl ⟨(c1, pendingSet st.2 lc.op.name rem),
                by rw [heq]; exact hfix, hwf1, hlt1⟩)

/-- From a full-deferral fixpoint with a nonempty queue, the loop never
returns and never raises: every fuel bound ends in the `outOfFuel` marker. -/
theorem runLoop_fix (cfgLayers : List LayerCfg) (st : List RLayer × Pending)
    (hfix : processPass cfgLayers st = .ok st) (hne : st.2.isEmpty = false) :
    ∀ f, runLoop cfgLayers f st = .error .outOfFuel := by
  intro f
  induction f with
  | zero => simp [runLoop, hne]
  | succ f ihf => simp [runLoop, hne, hfix, ihf]

/-- C2 (amended): the reconstruction loop defers exactly the node replays
that raise `IndexError` (in this source only legacy-format references to a
missing inbound node; the modern format raises `ValueError`, which
propagates), and with a pass budget exceeding the queued-node count the loop
either returns with the queue drained, propagates an error raised by some
pass, or reaches a state whose pass defers every queued node — a fixpoint,
after which the Python `while unprocessed_nodes:` loop repeats the identical
pass forever with no error raised (`outOfFuel` marks that divergence at
every bound).  The claim's "an error is raised if a cyclic dependency
prevents the queue from draining" is refuted by the third case. -/
theorem reconstruction_loop_behavior (cfgLayers : List LayerCfg) :
    ∀ (fuel : Nat) (st : List RLayer × Pending), PendingWF st.2 →
      pendingCount st.2 < fuel →
      (∃ st1, runLoop cfgLayers fuel st = .ok st1 ∧ st1.2.isEmpty = true) ∨
      (∃ e stf, PendingWF stf.2 ∧ processPass cfgLayers stf = .error e ∧
        runLoop cfgLayers fuel st = .error e) ∨
      (∃ stf, PendingWF stf.2 ∧ stf.2.isEmpty = false ∧
        processPass cfgLayers stf = .ok stf ∧
        (∀ f, runLoop cfgLayers f stf = .error .outOfFuel) ∧
        runLoop cfgLayers fuel st = .error .outOfFuel) := by
  intro fuel
  induction fuel with
  | zero =>
    intro st hwf hf
    exact absurd hf (by omega)
  | succ fuel ihf =>
    intro st hwf hf
    by_cases hemp : st.2.isEmpty = true
    · exact Or.inl ⟨st, by simp [runLoop, hemp], hemp⟩
    · have hemp2 : st.2.isEmpty = false := by simpa using hemp
      rcases processPass_trichotomy cfgLayers st hwf with
        ⟨e, he⟩ | ⟨st1, h1, hw1, hc1⟩ | hfix
      · exact Or.inr (Or.inl ⟨e, st, hwf, he, by simp [runLoop, hemp2, he]⟩)
      · have heq : runLoop cfgLayers (fuel + 1) st = runLoop cfgLayers fuel st1 := by
          simp [runLoop, hemp2, h1]
        have hflt : pendingCount st1.2 < fuel := by omega
        rcases ihf st1 hw1 hflt with
          ⟨s2, h2, hd⟩ | ⟨e, stf, hwfe, hppe, hrun⟩ | ⟨stf, hw, hne, hfx, hall, hrun⟩
        · exact Or.inl ⟨s2, by rw [heq]; exact h2, hd⟩
        · exact Or.inr (Or.inl ⟨e, stf, hwfe, hppe, by rw [heq]; exact hrun⟩)
        · exact Or.inr (Or.inr ⟨stf, hw, hne, hfx, hall, by rw [heq]; exact hrun⟩)
      · have hall := runLoop_fix cfgLayers st hfix hemp2
        exact Or.inr (Or.inr ⟨st, hwf, hemp2, hfix, hall, hall (fuel + 1)⟩)

/-- C2 counterexample: for the cyclic legacy config, one pass over the
initial state is an exact fixpoint with a nonempty queue — no error — and the
reconstruction entry point diverges (`outOfFuel`) instead of raising the
error the claim promises. -/
theorem reconstruction_cycle_no_error :
    processPass cycLayers (initCreated cycLayers, initPending cycLayers)
        = .ok (initCreated cycLayers, initPending cycLayers) ∧
    (initPending cycLayers).isEmpty = false ∧
    functionalFromConfig cycCfg = .error .outOfFuel := by
  exact ⟨rfl, rfl, rfl⟩

/-- The loop-behavior theorem at the concrete cyclic config: its hypotheses
hold there by evaluation. -/
theorem reconstruction_loop_behavior_witness :
    (∃ st1, runLoop cycLayers 3 (initCreated cycLayers, initPending cycLayers)
        = .ok st1 ∧ st1.2.isEmpty = true) ∨
    (∃ e stf, PendingWF stf.2 ∧ processPass cycLayers stf = .error e ∧
      runLoop cycLayers 3 (initCreated cycLayers, initPending cycLayers)
        = .error e) ∨
    (∃ stf, PendingWF stf.2 ∧ stf.2.isEmpty = false ∧
      processPass cycLayers stf = .ok stf ∧
      (∀ f, runLoop cycLayers f stf = .error .outOfFuel) ∧
      runLoop cycLayers 3 (initCreated cycLayers, initPending cycLayers)
        = .error .outOfFuel) :=
  reconstruction_loop_behavior cycLayers 3
    (initCreated cycLayers, initPending cycLayers)
    ⟨by decide, by decide⟩ (by decide)

/-! ## Round-trip lemmas (C1) -/

/-- Generic association-list lookup exhibits a member. -/
theorem lookup_mem_gen {α β : Type} [BEq α] [LawfulBEq α]
    {l : List (α × β)} {k : α} {v : β}
    (h : l.lookup k = some v) : (k, v) ∈ l := by
  induction l with
  | nil => simp [List.lookup] at h
  | cons e rest ih =>
    rw [List.lookup] at h
    cases hk : (k == e.1) with
    | true =>
      rw [hk] at h
      have hke : k = e.1 := by simpa using hk
      have hv : v = e.2 := by simpa using h.symm
      rw [hke, hv]
      exact List.mem_cons_self _ _
    | false =>
      rw [hk] at h
      exact List.mem_cons_of_mem _ (ih h)

/-- A key present among an association list's keys has a binding. -/
theorem lookup_some_of_key {α β : Type} [BEq α] [LawfulBEq α]
    {l : List (α × β)} {k : α}
    (h : k ∈ l.map Prod.fst) : ∃ v, l.lookup k = some v := by
  induction l with
  | nil => simp at h
  | cons e rest ih =>
    rw [List.lookup]
    by_cases hk : k = e.1
    · rw [show (k == e.1) = true by simpa using hk]
      exact ⟨e.2, rfl⟩
    · rw [show (k == e.1) = false by simpa using hk]
      apply ih
      rw [List.map_cons] at h
      rcases List.mem_cons.1 h with h1 | h1
      · exact absurd h1 hk
      · exact h1

/-- Layers with duplicate-free names are determined by their name. -/
theorem layer_name_inj {layers : List LayerRec}
    (hnd : (layers.map (fun L => L.op.name)).Nodup) {L1 L2 : LayerRec}
    (h1 : L1 ∈ layers) (h2 : L2 ∈ layers) (he : L1.op.name = L2.op.name) :
    L1 = L2 := by
  induction layers with
  | nil => simp at h1
  | cons e rest ih =>
    rw [List.map_cons, List.nodup_cons] at hnd
    rcases List.mem_cons.1 h1 with rfl | h1s
    · rcases List.mem_cons.1 h2 with rfl | h2s
      · rfl
      · exfalso
        apply hnd.1
        rw [he]
        exact List.mem_map_of_mem _ h2s
    · rcases List.mem_cons.1 h2 with rfl | h2s
      · exfalso
        apply hnd.1
        rw [← he]
        exact List.mem_map_of_mem _ h1s
      · exact ih hnd.2 h1s h2s

/-- With duplicate-free names, `find?` by name returns the member itself. -/
theorem find_layer_of_mem {layers : List LayerRec}
    (hnd : (layers.map (fun L => L.op.name)).Nodup) {L : LayerRec}
    (hL : L ∈ layers) :
    layers.find? (fun L2 => L2.op.name = L.op.name) = some L := by
  induction layers with
  | nil => simp at hL
  | cons e rest ih =>
    rw [List.map_cons, List.nodup_cons] at hnd
    rcases List.mem_cons.1 hL with rfl | hLs
    · simp [List.find?]
    · rw [List.find?]
      have hne : (decide (e.op.name = L.op.name)) = false := by
        simp only [decide_eq_false_iff_not]
        intro hc
        exact hnd.1 (by rw [hc]; exact List.mem_map_of_mem _ hLs)
      rw [hne]
      exact ih hnd.2 hLs

/-- `findIdx?` names an element at the found position. -/
theorem findIdx_get {α : Type} (p : α → Bool) :
    ∀ (l : List α) (s j : Nat), List.findIdx? p l s = some j →
      s ≤ j ∧ ∃ x, l.get? (j - s) = some x ∧ p x = true := by
  intro l
  induction l with
  | nil =>
    intro s j h
    simp at h
  | cons e rest ih =>
    intro s j h
    rw [List.findIdx?_cons] at h
    by_cases hp : p e = true
    · rw [if_pos hp] at h
      simp only [Option.some.injEq] at h
      subst h
      exact ⟨le_refl _, e, by simp, hp⟩
    · rw [if_neg hp] at h
      obtain ⟨hle, x, hx, hpx⟩ := ih (s + 1) j h
      refine ⟨by omega, x, ?_, hpx⟩
      have hd : j - s = (j - (s + 1)) + 1 := by omega
      rw [hd, List.get?_cons_succ]
      exact hx

/-- Sequencing a pointwise-identity partial map returns the list. -/
theorem optionMapList_id {α : Type} {f : α → Option α} :
    ∀ {l : List α}, (∀ x ∈ l, f x = some x) → optionMapList f l = some l := by
  intro l
  induction l with
  | nil => intro _; rfl
  | cons a as ih =>
    intro h
    simp only [optionMapList, h a (List.mem_cons_self _ _),
      ih (fun x hx => h x (List.mem_cons_of_mem _ hx))]

/-- A fallible map agreeing pointwise with a successful partial map
sequences to the same list. -/
theorem exceptMapList_agree {α β ε : Type} {f : α → Except ε β}
    {g : α → Option β} :
    ∀ {l : List α} {bs : List β}, optionMapList g l = some bs →
      (∀ x ∈ l, ∀ b, g x = some b → f x = .ok b) →
      exceptMapList f l = .ok bs := by
  intro l
  induction l with
  | nil =>
    intro bs h _
    simp only [optionMapList, Option.some.injEq] at h
    subst h
    rfl
  | cons a as ih =>
    intro bs h hag
    simp only [optionMapList] at h
    cases hga : g a with
    | none => rw [hga] at h; exact absurd h (by simp)
    | some b =>
      rw [hga] at h
      cases hgas : optionMapList g as with
      | none => rw [hgas] at h; exact absurd h (by simp)
      | some bs2 =>
        rw [hgas] at h
        simp only [Option.some.injEq] at h
        subst h
        simp only [exceptMapList, hag a (List.mem_cons_self _ _) b hga,
          ih hgas (fun x hx => hag x (List.mem_cons_of_mem _ hx))]

/-- Unpacking the round-trip precondition. -/
theorem wf_unpack {m : FModel} (h : wfRoundtrip m = true) :
    wfBase m = true ∧ wfContiguous m = true ∧ wfInOrder m = true := by
  simp only [wfRoundtrip, Bool.and_eq_true] at h
  tauto

/-- Unpacking the constructor guarantees. -/
theorem wfBase_parts {m : FModel} (h : wfBase m = true) :
    (m.layers.map (fun L => L.op.name)).Nodup ∧
    wfKeptEntries m = true ∧
    (∀ L ∈ m.layers, wfLayer m L = true) ∧
    (∀ r ∈ m.inputRefs, wfRef m r = true ∧
      (match m.findLayer r.layerName with
       | some L => decide (L.op.kind = LayerKind.inputLayer)
       | none => false) = true) ∧
    (∀ r ∈ m.outputRefs, wfRef m r = true) := by
  simp only [wfBase, Bool.and_eq_true, decide_eq_true_eq, List.all_eq_true] at h
  tauto

/-- Each kept node of a well-formed layer exists, carries tensor inputs
unless the layer is an `InputLayer`, and has outputs computed by the
operation from its resolved argument shapes. -/
theorem wfLayer_node {m : FModel} {L : LayerRec} (h : wfLayer m L = true)
    {i : Nat} (hi : i ∈ keptIndices m L) :
    ∃ nd, L.inbound.get? i = some nd ∧
      (L.op.kind = .inputLayer ∨ (refsOf nd.args).isEmpty = false) ∧
      (∀ r ∈ refsOf nd.args, wfRef m r = true) ∧
      ∃ ss, optionMapList m.refShape (refsOf nd.args) = some ss ∧
        nd.outputs = L.op.callShapes ss := by
  simp only [wfLayer, Bool.and_eq_true, List.all_eq_true] at h
  have h3 := h.2 i hi
  cases hnd : L.inbound.get? i with
  | none =>
    simp only [hnd] at h3
    exact absurd h3 (by simp)
  | some nd =>
    simp only [hnd, Bool.and_eq_true, Bool.or_eq_true, decide_eq_true_eq,
      List.all_eq_true] at h3
    refine ⟨nd, rfl, ?_, ?_, ?_⟩
    · rcases h3.1.1 with hk | hk
      · exact Or.inl hk
      · exact Or.inr (by simpa using hk)
    · intro r hr
      exact h3.1.2 r hr
    · cases hss : optionMapList m.refShape (refsOf nd.args) with
      | none => simp only [hss] at h3; exact absurd h3.2 (by simp)
      | some ss =>
        simp only [hss, decide_eq_true_eq] at h3
        exact ⟨ss, rfl, h3.2⟩

/-- A well-formed layer has at least one kept node. -/
theorem wfLayer_ne {m : FModel} {L : LayerRec} (h : wfLayer m L = true) :
    (keptIndices m L).isEmpty = false := by
  simp only [wfLayer, Bool.and_eq_true] at h
  have := h.1.1
  simpa using this

/-- A well-formed `InputLayer` has exactly its argument-free creation node,
and that node is kept. -/
theorem wfLayer_input {m : FModel} {L : LayerRec} (h : wfLayer m L = true)
    (hk : L.op.kind = .inputLayer) :
    L.inbound.length = 1 ∧ m.kept.contains (L.op.name, 0) = true ∧
      ∃ nd, L.inbound.get? 0 = some nd ∧ nd.args = [] := by
  simp only [wfLayer, Bool.and_eq_true] at h
  have h2 := h.1.2
  rw [hk] at h2
  simp only [Bool.and_eq_true, decide_eq_true_eq] at h2
  refine ⟨h2.1.1, h2.1.2, ?_⟩
  cases hnd : L.inbound.get? 0 with
  | none => rw [hnd] at h2; exact absurd h2.2 (by simp)
  | some nd =>
    rw [hnd] at h2
    exact ⟨nd, rfl, by simpa using h2.2⟩

/-- Contiguity at one layer. -/
theorem wfContiguous_at {m : FModel} (h : wfContiguous m = true)
    {L : LayerRec} (hL : L ∈ m.layers) :
    keptIndices m L
      = List.range' (keptBase L.op.kind) (keptIndices m L).length := by
  simp only [wfContiguous, List.all_eq_true, decide_eq_true_eq] at h
  exact h L hL

/-- A well-formed reference is kept and denotes a shape. -/
theorem wfRef_parts {m : FModel} {r : TensorRef} (h : wfRef m r = true) :
    m.kept.contains (r.layerName, r.nodeIndex) = true ∧
      ∃ s, m.refShape r = some s := by
  simp only [wfRef, Bool.and_eq_true] at h
  refine ⟨h.1, ?_⟩
  cases hs : m.refShape r with
  | none => rw [hs] at h; exact absurd h.2 (by simp)
  | some s => exact ⟨s, rfl⟩

/-- The in-order condition at one kept node's reference. -/
theorem wfInOrder_at {m : FModel} (h : wfInOrder m = true)
    {P : Nat} {L : LayerRec} (hP : m.layers.get? P = some L)
    (hkind : L.op.kind ≠ .inputLayer)
    {i : Nat} (hi : i ∈ keptIndices m L) {nd : NodeRec}
    (hnd : L.inbound.get? i = some nd) {r : TensorRef}
    (hr : r ∈ refsOf nd.args) :
    ∃ j0 L0, layerPos m r.layerName = some j0 ∧
      m.findLayer r.layerName = some L0 ∧
      (j0 < P ∨ (j0 = P ∧ r.nodeIndex < i) ∨ L0.op.kind = .inputLayer) := by
  simp only [wfInOrder, List.all_eq_true] at h
  have hmem : (P, L) ∈ m.layers.enum := by
    apply List.get?_mem
    rw [List.get?_eq_getElem?] at hP ⊢
    show (List.enumFrom 0 m.layers)[P]? = _
    rw [List.getElem?_enumFrom, hP]
    simp
  have h2 := h (P, L) hmem
  simp only [Bool.or_eq_true, decide_eq_true_eq, List.all_eq_true] at h2
  rcases h2 with hk | h2
  · exact absurd hk hkind
  · have h3 := h2 i hi
    simp only [hnd, List.all_eq_true] at h3
    have h4 := h3 r hr
    cases hlp : layerPos m r.layerName with
    | none => simp only [hlp] at h4; exact absurd h4 (by simp)
    | some j0 =>
      cases hfl : m.findLayer r.layerName with
      | none => simp only [hlp, hfl] at h4; exact absurd h4 (by simp)
      | some L0 =>
        simp only [hlp, hfl, Bool.or_eq_true, Bool.and_eq_true,
          decide_eq_true_eq] at h4
        refine ⟨j0, L0, rfl, rfl, ?_⟩
        rcases h4 with (h5 | h5) | h5
        · exact Or.inl h5
        · exact Or.inr (Or.inl h5)
        · exact Or.inr (Or.inr h5)


theorem keptIndices_lt {m : FModel} {L : LayerRec} {i : Nat}
    (h : i ∈ keptIndices m L) : i < L.inbound.length := by
  simp only [keptIndices, List.mem_filter, List.mem_range] at h
  exact h.1

theorem keptIndices_contains {m : FModel} {L : LayerRec} {i : Nat}
    (h : i ∈ keptIndices m L) : m.kept.contains (L.op.name, i) = true := by
  simp only [keptIndices, List.mem_filter, List.mem_range] at h
  exact h.2

theorem mem_keptIndices_of {m : FModel} {L : LayerRec} {i : Nat}
    (hlt : i < L.inbound.length) (hc : m.kept.contains (L.op.name, i) = true) :
    i ∈ keptIndices m L := by
  simp only [keptIndices, List.mem_filter, List.mem_range]
  exact ⟨hlt, hc⟩

theorem nodeChunk_len_get (L : LayerRec) (b : Nat) :
    ∀ k, (∀ t, t < k → ∃ nd, L.inbound.get? (b + t) = some nd) →
      (nodeChunk L b k).length = k ∧
      ∀ t nd, L.inbound.get? (b + t) = some nd → t < k →
        (nodeChunk L b k).get? t = some (rnodeOf nd) := by
  intro k
  induction k with
  | zero => intro _; exact ⟨rfl, fun t nd _ ht => absurd ht (by omega)⟩
  | succ k ih =>
    intro hall
    obtain ⟨hlen, hget⟩ := ih (fun t ht => hall t (by omega))
    obtain ⟨ndk, hndk⟩ := hall k (by omega)
    have hsplit : nodeChunk L b (k + 1) = nodeChunk L b k ++ [rnodeOf ndk] := by
      simp only [nodeChunk]
      rw [List.range'_concat, List.filterMap_append]
      have h1 : b + 1 * k = b + k := by omega
      rw [h1]
      have hndk2 : L.inbound[b + k]? = some ndk := by
        rw [← List.get?_eq_getElem?]
        exact hndk
      simp [hndk2]
    constructor
    · rw [hsplit, List.length_append, hlen]
      rfl
    · intro t nd hnd ht
      rw [hsplit]
      by_cases htk : t < k
      · rw [List.get?_append (by omega)]
        exact hget t nd hnd htk
      · have ht2 : t = k := by omega
        subst ht2
        have hnn : nd = ndk := by
          have := hnd.symm.trans hndk
          simpa using this
        rw [List.get?_append_right (le_of_eq hlen)]
        rw [hlen, Nat.sub_self]
        simp [hnn]

theorem modernChunk_cons (L : LayerRec) (b k : Nat) {nd : NodeRec}
    (hnd : L.inbound.get? b = some nd) :
    modernChunk L b (k + 1) = .modern nd.args :: modernChunk L (b + 1) k := by
  simp only [modernChunk]
  rw [List.range'_succ]
  have hnd2 : L.inbound[b]? = some nd := by
    rw [← List.get?_eq_getElem?]
    exact hnd
  simp [hnd2]

theorem nodeChunk_concat (L : LayerRec) (b k : Nat) {nd : NodeRec}
    (h : L.inbound.get? (b + k) = some nd) :
    nodeChunk L b (k + 1) = nodeChunk L b k ++ [rnodeOf nd] := by
  simp only [nodeChunk]
  rw [List.range'_concat, List.filterMap_append]
  have h1 : b + 1 * k = b + k := by omega
  rw [h1]
  have h2 : L.inbound[b + k]? = some nd := by
    rw [← List.get?_eq_getElem?]
    exact h
  simp [h2]

theorem layerCfg_op (m : FModel) (L : LayerRec) : (layerCfgOf m L).op = L.op := rfl

theorem layerCfg_inbound_nonInput {m : FModel} {L : LayerRec} {n : Nat}
    (hwfL : wfLayer m L = true)
    (hctg : keptIndices m L = List.range' (keptBase L.op.kind) n)
    (hkind : L.op.kind ≠ .inputLayer) :
    (layerCfgOf m L).inboundNodes = modernChunk L (keptBase L.op.kind) n := by
  show (keptIndices m L).filterMap (fun i => (L.inbound.get? i).bind serializeNode)
      = (List.range' (keptBase L.op.kind) n).filterMap
          (fun i => (L.inbound.get? i).map (fun nd => NodeData.modern nd.args))
  rw [hctg]
  apply List.filterMap_congr
  intro i hi
  have hi2 : i ∈ keptIndices m L := by rw [hctg]; exact hi
  obtain ⟨nd, hnd, href, _, _⟩ := wfLayer_node hwfL hi2
  rw [hnd]
  rcases href with hk | hne
  · exact absurd hk hkind
  · have hne2 : refsOf nd.args ≠ [] := by simpa using hne
    simp [serializeNode, hne2]

theorem layerCfg_inbound_input {m : FModel} {L : LayerRec}
    (hwfL : wfLayer m L = true) (hkind : L.op.kind = .inputLayer) :
    (layerCfgOf m L).inboundNodes = [] := by
  show (keptIndices m L).filterMap (fun i => (L.inbound.get? i).bind serializeNode)
      = []
  rw [List.filterMap_eq_nil]
  intro i hi
  have hlt : i < L.inbound.length := keptIndices_lt hi
  obtain ⟨h1, _, nd0, hnd0, hargs⟩ := wfLayer_input hwfL hkind
  have hi0 : i = 0 := by omega
  subst hi0
  rw [hnd0]
  show serializeNode nd0 = none
  simp [serializeNode, refsOf, hargs]

theorem initPending_cons_empty {lc : LayerCfg} {rest : List LayerCfg}
    (h : lc.inboundNodes.isEmpty = true) :
    initPending (lc :: rest) = initPending rest := by
  have h2 : lc.inboundNodes = [] := by simpa using h
  simp [initPending, h2]

theorem initPending_cons_ne {lc : LayerCfg} {rest : List LayerCfg}
    (h : lc.inboundNodes.isEmpty = false) :
    initPending (lc :: rest) = (lc.op.name, lc.inboundNodes) :: initPending rest := by
  have h2 : lc.inboundNodes ≠ [] := by simpa using h
  simp [initPending, h2]

theorem initPending_keys_sub {cfgLayers : List LayerCfg} {k : String}
    (hk : k ∈ (initPending cfgLayers).map Prod.fst) :
    k ∈ cfgLayers.map (fun lc => lc.op.name) := by
  obtain ⟨e, he, hfst⟩ := List.mem_map.1 hk
  obtain ⟨lc, hlc, hsome⟩ := List.mem_filterMap.1 he
  by_cases hie : lc.inboundNodes.isEmpty = true
  · rw [if_pos hie] at hsome
    exact absurd hsome (by simp)
  · rw [if_neg hie] at hsome
    have he2 : e = (lc.op.name, lc.inboundNodes) := by
      have := hsome.symm
      simpa using this
    rw [← hfst, he2]
    exact List.mem_map_of_mem _ hlc

theorem find_map_rlayer (κ : String → Nat) (name : String) :
    ∀ (ls : List LayerRec),
      (ls.map (fun L => rlayerAt L (κ L.op.name))).find?
          (fun rl => rl.op.name = name)
        = (ls.find? (fun L => L.op.name = name)).map
            (fun L => rlayerAt L (κ L.op.name)) := by
  intro ls
  induction ls with
  | nil => rfl
  | cons L rest ih =>
    rw [List.map_cons, List.find?, List.find?]
    by_cases hp : L.op.name = name
    · rw [show (decide ((rlayerAt L (κ L.op.name)).op.name = name)) = true by
        simp [rlayerAt, hp]]
      rw [show (decide (L.op.name = name)) = true by simp [hp]]
      rfl
    · rw [show (decide ((rlayerAt L (κ L.op.name)).op.name = name)) = false by
        simp [rlayerAt, hp]]
      rw [show (decide (L.op.name = name)) = false by simp [hp]]
      exact ih

theorem createdK_find {m : FModel} (κ : String → Nat) {L : LayerRec}
    (hnd : (m.layers.map (fun L2 => L2.op.name)).Nodup) (hL : L ∈ m.layers) :
    findCreated (createdK m κ) L.op.name = some (rlayerAt L (κ L.op.name)) := by
  show (m.layers.map (fun L2 => rlayerAt L2 (κ L2.op.name))).find?
      (fun rl => rl.op.name = L.op.name) = _
  rw [find_map_rlayer, find_layer_of_mem hnd hL]
  rfl

theorem autoNodes_len_nonInput {op : Operation} (h : op.kind ≠ .inputLayer) :
    (autoNodes op).length = keptBase op.kind := by
  cases hk : op.kind with
  | plain => simp [autoNodes, keptBase, hk]
  | inputLayer => exact absurd hk h
  | functionalSub => simp [autoNodes, keptBase, hk]

theorem rlayerAt_get_input {L : LayerRec} (hk : L.op.kind = .inputLayer)
    (k : Nat) :
    (rlayerAt L k).nodes.get? 0 = some ⟨[], L.op.callShapes []⟩ := by
  show (autoNodes L.op ++ nodeChunk L (keptBase L.op.kind) k).get? 0 = _
  simp [autoNodes, hk]

theorem rlayerAt_get_replayed {L : LayerRec} (hkind : L.op.kind ≠ .inputLayer)
    {k i : Nat} (hik : keptBase L.op.kind ≤ i)
    (hlt : i < keptBase L.op.kind + k)
    (hall : ∀ t, t < k → ∃ nd, L.inbound.get? (keptBase L.op.kind + t) = some nd)
    {nd : NodeRec} (hnd : L.inbound.get? i = some nd) :
    (rlayerAt L k).nodes.get? i = some (rnodeOf nd) := by
  have hauto := autoNodes_len_nonInput hkind
  obtain ⟨hlen, hget⟩ := nodeChunk_len_get L (keptBase L.op.kind) k hall
  show (autoNodes L.op ++ nodeChunk L (keptBase L.op.kind) k).get? i = _
  rw [List.get?_append_right (by omega)]
  rw [hauto]
  have ht : keptBase L.op.kind + (i - keptBase L.op.kind) = i := by omega
  exact hget (i - keptBase L.op.kind) nd (by rw [ht]; exact hnd) (by omega)

theorem rlayerAt_succ (L : LayerRec) (k : Nat) {nd : NodeRec}
    (h : L.inbound.get? (keptBase L.op.kind + k) = some nd) :
    rlayerAt L (k + 1)
      = { op := L.op, nodes := (rlayerAt L k).nodes ++ [rnodeOf nd] } := by
  simp only [rlayerAt]
  rw [nodeChunk_concat L (keptBase L.op.kind) k h, ← List.append_assoc]

theorem callLayer_step {m : FModel} (κ : String → Nat) {L : LayerRec}
    (hnd : (m.layers.map (fun L2 => L2.op.name)).Nodup) (hL : L ∈ m.layers)
    {nd : NodeRec}
    (hget : L.inbound.get? (keptBase L.op.kind + κ L.op.name) = some nd)
    {shapes : List Shape} (hout : L.op.callShapes shapes = nd.outputs) :
    callLayer (createdK m κ) L.op.name nd.args shapes
      = createdK m (fun n => if n = L.op.name then κ L.op.name + 1 else κ n) := by
  show (m.layers.map (fun L2 => rlayerAt L2 (κ L2.op.name))).map _
      = m.layers.map _
  rw [List.map_map]
  apply List.map_congr_left
  intro L2 hL2
  dsimp only [Function.comp_apply]
  by_cases hn : L2.op.name = L.op.name
  · have hL2L : L2 = L := layer_name_inj hnd hL2 hL hn
    subst hL2L
    rw [if_pos (show (rlayerAt L2 (κ L2.op.name)).op.name = L2.op.name from rfl)]
    have hgrow := rlayerAt_succ L2 (κ L2.op.name) hget
    have hx : ({ args := nd.args, outputs := (rlayerAt L2 (κ L2.op.name)).op.callShapes shapes } : RNode) = rnodeOf nd := by
      show ({ args := nd.args, outputs := L2.op.callShapes shapes } : RNode) = rnodeOf nd
      simp [rnodeOf, hout]
    rw [hx, if_pos (rfl : L2.op.name = L2.op.name)]
    show ({ op := L2.op, nodes := (rlayerAt L2 (κ L2.op.name)).nodes ++ [rnodeOf nd] } : RLayer) = rlayerAt L2 (κ L2.op.name + 1)
    exact hgrow.symm
  · rw [if_neg (show ¬ (rlayerAt L2 (κ L2.op.name)).op.name = L.op.name from hn)]
    rw [if_neg hn]

theorem kept_mem {m : FModel} {nm : String} {i : Nat}
    (hc : m.kept.contains (nm, i) = true) : (nm, i) ∈ m.kept := by
  simpa using hc

theorem wfKept_at {m : FModel} (h : wfKeptEntries m = true) {nm : String}
    {i : Nat} (hc : (nm, i) ∈ m.kept) :
    ∃ L nd, m.findLayer nm = some L ∧ L.inbound.get? i = some nd := by
  simp only [wfKeptEntries, List.all_eq_true] at h
  have h2 := h (nm, i) hc
  cases hna : m.nodeAt nm i with
  | none => simp only [hna] at h2; exact absurd h2 (by simp)
  | some nd =>
    simp only [FModel.nodeAt] at hna
    cases hfl : m.findLayer nm with
    | none => rw [hfl] at hna; exact absurd hna (by simp)
    | some L =>
      rw [hfl] at hna
      exact ⟨L, nd, rfl, by simpa using hna⟩

theorem enumFrom_range'_snd :
    ∀ (n b s : Nat) (pi : Nat × Nat),
      pi ∈ List.enumFrom s (List.range' b n) → pi.2 = b + (pi.1 - s) ∧ s ≤ pi.1 := by
  intro n
  induction n with
  | zero => intro b s pi h; simp at h
  | succ n ih =>
    intro b s pi h
    rw [List.range'_succ, List.enumFrom_cons] at h
    rcases List.mem_cons.1 h with rfl | h2
    · exact ⟨by omega, le_refl _⟩
    · obtain ⟨h3, h4⟩ := ih (b + 1) (s + 1) pi h2
      exact ⟨by omega, by omega⟩

theorem reindexPairs_val {m : FModel} (hctg : wfContiguous m = true)
    {e : (String × Nat) × Nat} (he : e ∈ reindexPairs m) : e.2 = e.1.2 := by
  simp only [reindexPairs, List.mem_flatMap] at he
  obtain ⟨L, hL, he2⟩ := he
  obtain ⟨pi, hpi, hpe⟩ := List.mem_map.1 he2
  have hctgL := wfContiguous_at hctg hL
  rw [hctgL] at hpi
  obtain ⟨h3, _⟩ := enumFrom_range'_snd _ _ _ pi hpi
  rw [← hpe]
  simp only []
  omega

theorem key_mem_reindexPairs {m : FModel} {L : LayerRec} (hL : L ∈ m.layers)
    {i : Nat} (hi : i ∈ keptIndices m L) :
    (L.op.name, i) ∈ (reindexPairs m).map Prod.fst := by
  obtain ⟨j, hj⟩ := List.get?_of_mem hi
  have hj2 : (keptIndices m L).enum.get? j = some (j, i) := by
    rw [List.get?_eq_getElem?] at hj ⊢
    show (List.enumFrom 0 (keptIndices m L))[j]? = _
    rw [List.getElem?_enumFrom, hj]
    simp
  have hmem : (j, i) ∈ (keptIndices m L).enum := List.get?_mem hj2
  have hpair : ((L.op.name, i), keptBase L.op.kind + j) ∈ reindexPairs m := by
    simp only [reindexPairs, List.mem_flatMap]
    refine ⟨L, hL, ?_⟩
    have := List.mem_map_of_mem
      (fun pi => ((L.op.name, pi.2), keptBase L.op.kind + pi.1)) hmem
    simpa using this
  have := List.mem_map_of_mem Prod.fst hpair
  simpa using this

theorem nodeReindex_id {m : FModel} (hctg : wfContiguous m = true)
    {L : LayerRec} (hL : L ∈ m.layers) {i : Nat} (hi : i ∈ keptIndices m L) :
    nodeReindex m L.op.name i = some i := by
  obtain ⟨v, hv⟩ := lookup_some_of_key (key_mem_reindexPairs hL hi)
  have hval := reindexPairs_val hctg (lookup_mem_gen hv)
  show (reindexPairs m).lookup (L.op.name, i) = some i
  rw [hv]
  exact congrArg some hval

theorem mem_range1 {s n x : Nat} : x ∈ List.range' s n ↔ s ≤ x ∧ x < s + n := by
  rw [List.mem_range']
  constructor
  · rintro ⟨i, hi, rfl⟩
    omega
  · intro ⟨h1, h2⟩
    exact ⟨x - s, by omega, by omega⟩

theorem resolve_ready {m : FModel} (hwfb : wfBase m = true)
    (hctg : wfContiguous m = true) (κ : String → Nat)
    (hbound : ∀ L0 ∈ m.layers, κ L0.op.name ≤ (keptIndices m L0).length)
    {r : TensorRef} {s : Shape} (hrs : m.refShape r = some s)
    (hkept : m.kept.contains (r.layerName, r.nodeIndex) = true)
    (hready : ∀ L0, m.findLayer r.layerName = some L0 →
      L0.op.kind ≠ .inputLayer →
      r.nodeIndex < keptBase L0.op.kind + κ r.layerName) :
    resolveRefModern (createdK m κ) r = .ok s ∧
      getTensor (createdK m κ) r = .ok s := by
  obtain ⟨hnames, hke, hlayers, _, _⟩ := wfBase_parts hwfb
  obtain ⟨L0, nd, hfl, hget⟩ := wfKept_at hke (kept_mem hkept)
  have hL0mem : L0 ∈ m.layers := List.mem_of_find?_eq_some hfl
  have hname : L0.op.name = r.layerName := by
    have := List.find?_some hfl
    simpa using this
  have hout : nd.outputs.get? r.tensorIndex = some s := by
    have h1 : m.refShape r = nd.outputs.get? r.tensorIndex := by
      have hget2 : L0.inbound[r.nodeIndex]? = some nd := by
        rw [← List.get?_eq_getElem?]
        exact hget
      simp [FModel.refShape, FModel.nodeAt, hfl, hget2, List.get?_eq_getElem?]
    rw [← h1]
    exact hrs
  have hlt : r.nodeIndex < L0.inbound.length := by
    by_contra hc
    rw [List.get?_eq_none.2 (by omega)] at hget
    exact absurd hget (by simp)
  have kidx : r.nodeIndex ∈ keptIndices m L0 :=
    mem_keptIndices_of hlt (by rw [hname]; exact hkept)
  have hfind : findCreated (createdK m κ) r.layerName
      = some (rlayerAt L0 (κ r.layerName)) := by
    have := createdK_find κ hnames hL0mem
    rw [hname] at this
    exact this
  have hndget : (rlayerAt L0 (κ r.layerName)).nodes.get? r.nodeIndex
      = some ⟨nd.args, nd.outputs⟩ := by
    by_cases hk : L0.op.kind = .inputLayer
    · obtain ⟨hlen1, _, nd0, hnd0get, hargs0⟩ :=
        wfLayer_input (hlayers L0 hL0mem) hk
      have hi0 : r.nodeIndex = 0 := by omega
      have hnd0 : nd0 = nd := by
        rw [hi0] at hget
        have := hnd0get.symm.trans hget
        simpa using this
      obtain ⟨nd2, hnd2, _, _, ss, hss, houts⟩ := wfLayer_node (hlayers L0 hL0mem) kidx
      have hnd2e : nd2 = nd := by
        rw [hi0] at hget
        rw [hi0] at hnd2
        have := hnd2.symm.trans hget
        simpa using this
      subst hnd2e
      have hargs : nd2.args = [] := by rw [← hnd0]; exact hargs0
      have hss2 : ss = [] := by
        rw [hargs] at hss
        have : refsOf [] = ([] : List TensorRef) := rfl
        rw [this] at hss
        have h4 : optionMapList m.refShape ([] : List TensorRef) = some [] := rfl
        rw [h4] at hss
        simpa using hss.symm
      rw [hi0, rlayerAt_get_input hk]
      rw [hss2] at houts
      rw [houts, hargs]

    · have hkne := hready L0 hfl hk
      have hctgL := wfContiguous_at hctg hL0mem
      have hrange : r.nodeIndex ∈ List.range' (keptBase L0.op.kind) (keptIndices m L0).length := by
        rw [← hctgL]
        exact kidx
      obtain ⟨hbase, _⟩ := mem_range1.1 hrange
      have hall : ∀ t, t < κ r.layerName →
          ∃ nd2, L0.inbound.get? (keptBase L0.op.kind + t) = some nd2 := by
        intro t ht
        have hbnd := hbound L0 hL0mem
        rw [hname] at hbnd
        have hmem2 : keptBase L0.op.kind + t ∈ keptIndices m L0 := by
          rw [hctgL]
          exact mem_range1.2 ⟨by omega, by omega⟩
        obtain ⟨nd2, hnd2, _, _, _⟩ := wfLayer_node (hlayers L0 hL0mem) hmem2
        exact ⟨nd2, hnd2⟩
      exact rlayerAt_get_replayed hk hbase hkne hall hget
  constructor
  · simp only [resolveRefModern, hfind, hndget, hout]
  · simp only [getTensor, hfind, hndget, hout]

theorem layerPos_at {m : FModel}
    {nm : String} {j0 : Nat} (hlp : layerPos m nm = some j0) :
    ∃ L0, m.layers.get? j0 = some L0 ∧ L0.op.name = nm ∧
      (∀ P L2, m.layers.get? P = some L2 → L2.op.name = nm →
        (m.layers.map (fun L => L.op.name)).Nodup → P = j0) := by
  obtain ⟨_, x, hx, hpx⟩ := findIdx_get _ m.layers 0 j0 hlp
  rw [Nat.sub_zero] at hx
  have hxn : x.op.name = nm := by simpa using hpx
  refine ⟨x, hx, hxn, ?_⟩
  intro P L2 hP hLn hnames
  have hPlt : P < m.layers.length := by
    by_contra hc
    rw [List.get?_eq_none.2 (by omega)] at hP
    exact absurd hP (by simp)
  apply List.getElem?_inj (by simpa using hPlt) hnames
  rw [List.getElem?_map, List.getElem?_map]
  rw [← List.get?_eq_getElem?, ← List.get?_eq_getElem?]
  rw [hP, hx]
  simp [hLn, hxn]

theorem layerPos_exists {m : FModel}
    (hnames : (m.layers.map (fun L => L.op.name)).Nodup)
    {L : LayerRec} {P : Nat} (hP : m.layers.get? P = some L) :
    layerPos m L.op.name = some P := by
  have hmemL : L ∈ m.layers := List.get?_mem hP
  cases hlp : layerPos m L.op.name with
  | none =>
    have hiso : (m.layers.findIdx? (fun L2 => L2.op.name = L.op.name)).isSome = true := by
      simp only [List.findIdx?_isSome, List.any_eq_true]
      exact ⟨L, hmemL, by simp⟩
    rw [show layerPos m L.op.name
        = m.layers.findIdx? (fun L2 => L2.op.name = L.op.name) from rfl] at hlp
    rw [hlp] at hiso
    simp at hiso
  | some j0 =>
    obtain ⟨x, hx, hxn, huniq⟩ := layerPos_at hlp
    rw [huniq P L hP rfl hnames]

theorem queue_drains {m : FModel} (hwfb : wfBase m = true)
    (hctg : wfContiguous m = true) (hio : wfInOrder m = true)
    {P : Nat} {L : LayerRec} (hP : m.layers.get? P = some L)
    (hL : L ∈ m.layers) (hkind : L.op.kind ≠ .inputLayer) :
    ∀ (j : Nat) (κ : String → Nat),
      (∀ L0 ∈ m.layers, ∀ j0, layerPos m L0.op.name = some j0 → j0 < P →
        L0.op.kind ≠ .inputLayer → κ L0.op.name = (keptIndices m L0).length) →
      (∀ L0 ∈ m.layers, κ L0.op.name ≤ (keptIndices m L0).length) →
      ∀ k, k + j = (keptIndices m L).length → κ L.op.name = k →
      processLayerQueue (createdK m κ) L.op.name
          (modernChunk L (keptBase L.op.kind + k) j)
        = .ok (createdK m (fun n => if n = L.op.name
            then (keptIndices m L).length else κ n), []) := by
  obtain ⟨hnames, hke, hlayers, _, _⟩ := wfBase_parts hwfb
  intro j
  induction j with
  | zero =>
    intro κ hdone hbound k hk hκk
    have hcEq : createdK m κ = createdK m (fun n =>
        if n = L.op.name then (keptIndices m L).length else κ n) := by
      apply List.map_congr_left
      intro L2 hL2
      show rlayerAt L2 (κ L2.op.name) = rlayerAt L2
        (if L2.op.name = L.op.name then (keptIndices m L).length else κ L2.op.name)
      by_cases hn : L2.op.name = L.op.name
      · have hkc : k = (keptIndices m L).length := by omega
        rw [if_pos hn, hn, hκk, hkc]
      · rw [if_neg hn]
    show Except.ok (createdK m κ, ([] : List NodeData)) = _
    rw [hcEq]
  | succ j ih =>
    intro κ hdone hbound k hk hκk
    have hmem : keptBase L.op.kind + k ∈ keptIndices m L := by
      rw [wfContiguous_at hctg hL]
      exact mem_range1.2 ⟨by omega, by omega⟩
    obtain ⟨nd, hnd, _, hrefswf, ss, hss, houts⟩ := wfLayer_node (hlayers L hL) hmem
    rw [modernChunk_cons L _ j hnd]
    have hmap : exceptMapList (resolveRefModern (createdK m κ)) (refsOf nd.args)
        = .ok ss := by
      apply exceptMapList_agree hss
      intro rr hrr srr hsrr
      have hwfr := wfRef_parts (hrefswf rr hrr)
      refine (resolve_ready hwfb hctg κ hbound hsrr hwfr.1 ?_).1
      intro L0 hfl0 hk0
      obtain ⟨j0, L0b, hlp, hflb, hcases⟩ :=
        wfInOrder_at hio hP hkind hmem hnd hrr
      have hL0e : L0b = L0 := by
        have := hflb.symm.trans hfl0
        simpa using this
      subst hL0e
      have hname0 : L0b.op.name = rr.layerName := by
        have := List.find?_some hfl0
        simpa using this
      have hL0mem : L0b ∈ m.layers := List.mem_of_find?_eq_some hfl0
      obtain ⟨L1, nd1, hfl1, hget1⟩ := wfKept_at hke (kept_mem hwfr.1)
      have hL1e : L1 = L0b := by
        have := hfl1.symm.trans hfl0
        simpa using this
      subst hL1e
      have hidxlt : rr.nodeIndex < L1.inbound.length := by
        by_contra hc
        rw [List.get?_eq_none.2 (by omega)] at hget1
        exact absurd hget1 (by simp)
      have hkidx : rr.nodeIndex ∈ keptIndices m L1 :=
        mem_keptIndices_of hidxlt (by rw [hname0]; exact hwfr.1)
      have hrange : rr.nodeIndex ∈ List.range' (keptBase L1.op.kind)
          (keptIndices m L1).length := by
        rw [← wfContiguous_at hctg hL0mem]
        exact hkidx
      obtain ⟨hb1, hb2⟩ := mem_range1.1 hrange
      have hκr : κ rr.layerName = κ L1.op.name := by rw [hname0]
      rcases hcases with hj0 | ⟨hj0, hidx⟩ | hinp
      · have hlp2 : layerPos m L1.op.name = some j0 := by
          rw [hname0]
          exact hlp
        have := hdone L1 hL0mem j0 hlp2 hj0 hk0
        rw [hκr, this]
        omega
      · subst hj0
        obtain ⟨x, hx, hxn, _⟩ := layerPos_at hlp
        have hxL : x = L := by
          have := hx.symm.trans hP
          simpa using this
        subst hxL
        have hnmL : rr.layerName = x.op.name := hxn.symm
        have hL1x : L1 = x := layer_name_inj hnames hL0mem hL
          (by rw [hname0, hnmL])
        subst hL1x
        rw [hκr, hκk]
        omega
      · exact absurd hinp hk0
    have hpn : processNode (createdK m κ) L.op.name (NodeData.modern nd.args)
        = .ok (callLayer (createdK m κ) L.op.name nd.args ss) := by
      simp only [processNode, deserializeNode, hmap]
    have hcl : callLayer (createdK m κ) L.op.name nd.args ss
        = createdK m (fun n => if n = L.op.name then κ L.op.name + 1 else κ n) :=
      callLayer_step κ hnames hL (by rw [hκk]; exact hnd) houts.symm
    have hdone2 : ∀ L0 ∈ m.layers, ∀ j0, layerPos m L0.op.name = some j0 →
        j0 < P → L0.op.kind ≠ .inputLayer →
        (fun n => if n = L.op.name then κ L.op.name + 1 else κ n) L0.op.name
          = (keptIndices m L0).length := by
      intro L0 hL0 j0 hlp0 hj0 hk0
      by_cases hn0 : L0.op.name = L.op.name
      · exfalso
        have hL0L : L0 = L := layer_name_inj hnames hL0 hL hn0
        subst hL0L
        have := layerPos_exists hnames hP
        rw [this] at hlp0
        have hj0P : j0 = P := by simpa using hlp0.symm
        omega
      · show (if L0.op.name = L.op.name then κ L.op.name + 1 else κ L0.op.name)
            = (keptIndices m L0).length
        rw [if_neg hn0]
        exact hdone L0 hL0 j0 hlp0 hj0 hk0
    have hbound2 : ∀ L0 ∈ m.layers,
        (fun n => if n = L.op.name then κ L.op.name + 1 else κ n) L0.op.name
          ≤ (keptIndices m L0).length := by
      intro L0 hL0
      by_cases hn0 : L0.op.name = L.op.name
      · have hL0L : L0 = L := layer_name_inj hnames hL0 hL hn0
        subst hL0L
        show (if L0.op.name = L0.op.name then κ L0.op.name + 1 else κ L0.op.name)
            ≤ (keptIndices m L0).length
        rw [if_pos rfl, hκk]
        omega
      · show (if L0.op.name = L.op.name then κ L.op.name + 1 else κ L0.op.name)
            ≤ (keptIndices m L0).length
        rw [if_neg hn0]
        exact hbound L0 hL0
    have hrec := ih (fun n => if n = L.op.name then κ L.op.name + 1 else κ n)
      hdone2 hbound2 (k + 1) (by omega)
      (by show (if L.op.name = L.op.name then κ L.op.name + 1 else κ L.op.name) = k + 1
          rw [if_pos rfl, hκk])
    have hfinEq : createdK m (fun n => if n = L.op.name
          then (keptIndices m L).length
          else (fun n2 => if n2 = L.op.name then κ L.op.name + 1 else κ n2) n)
        = createdK m (fun n => if n = L.op.name
          then (keptIndices m L).length else κ n) := by
      apply List.map_congr_left
      intro L2 hL2
      show rlayerAt L2 (if L2.op.name = L.op.name then (keptIndices m L).length
          else if L2.op.name = L.op.name then κ L.op.name + 1 else κ L2.op.name)
        = rlayerAt L2 (if L2.op.name = L.op.name then (keptIndices m L).length
          else κ L2.op.name)
      by_cases hn : L2.op.name = L.op.name
      · rw [if_pos hn, if_pos hn]
      · rw [if_neg hn, if_neg hn, if_neg hn]
    have hrec2 : processLayerQueue
        (createdK m (fun n => if n = L.op.name then κ L.op.name + 1 else κ n))
        L.op.name (modernChunk L (keptBase L.op.kind + k + 1) j)
        = .ok (createdK m (fun n => if n = L.op.name
            then (keptIndices m L).length else κ n), []) := by
      rw [Nat.add_assoc, hrec, hfinEq]
    simp only [processLayerQueue, hpn, hcl, hrec2]

theorem contains_true_of_mem {A : List String} {a : String} (h : a ∈ A) :
    A.contains a = true := by
  simpa using h

theorem contains_false_of_not_mem {A : List String} {a : String} (h : a ∉ A) :
    A.contains a = false := by
  simpa using h

theorem contains_append_one {A : List String} {x a : String} (h : a ≠ x) :
    (A ++ [x]).contains a = A.contains a := by
  by_cases hm : a ∈ A
  · rw [contains_true_of_mem (List.mem_append_left _ hm), contains_true_of_mem hm]
  · rw [contains_false_of_not_mem ?h1, contains_false_of_not_mem hm]
    intro hc
    rcases List.mem_append.1 hc with h2 | h2
    · exact hm h2
    · rw [List.mem_singleton] at h2
      exact h h2

theorem keptLen_pos {m : FModel} {L : LayerRec} (h : wfLayer m L = true) :
    1 ≤ (keptIndices m L).length := by
  have h2 := wfLayer_ne h
  cases hki : keptIndices m L with
  | nil => rw [hki] at h2; simp at h2
  | cons a l => simp

theorem findLayer_of_mem {m : FModel}
    (hnames : (m.layers.map (fun L => L.op.name)).Nodup) {L : LayerRec}
    (hL : L ∈ m.layers) : m.findLayer L.op.name = some L :=
  find_layer_of_mem hnames hL

theorem pass_drains {m : FModel} (hwfb : wfBase m = true)
    (hctg : wfContiguous m = true) (hio : wfInOrder m = true) :
    ∀ (suf pre : List LayerRec), m.layers = pre ++ suf →
      processPass (suf.map (layerCfgOf m))
        (createdK m (replayCount m (pre.map (fun L => L.op.name))),
         initPending (suf.map (layerCfgOf m)))
      = .ok (createdK m
          (replayCount m ((pre ++ suf).map (fun L => L.op.name))), []) := by
  obtain ⟨hnames, hke, hlayers, _, _⟩ := wfBase_parts hwfb
  intro suf
  induction suf with
  | nil =>
    intro pre hsplit
    show Except.ok (createdK m (replayCount m
        (pre.map (fun L => L.op.name))), ([] : Pending)) = _
    rw [List.append_nil]
  | cons L suf ih =>
    intro pre hsplit
    have hL : L ∈ m.layers := by
      rw [hsplit]
      exact List.mem_append_right _ (List.mem_cons_self _ _)
    have hP : m.layers.get? pre.length = some L := by
      rw [hsplit, List.get?_append_right (le_refl _)]
      simp
    have hnds : ((pre ++ L :: suf).map (fun L2 => L2.op.name)).Nodup := by
      rw [← hsplit]
      exact hnames
    rw [List.map_append, List.map_cons] at hnds
    have hnameNotSuf : L.op.name ∉ suf.map (fun L2 => L2.op.name) := by
      have h3 := (List.nodup_append.1 hnds).2.1
      rw [List.nodup_cons] at h3
      exact h3.1
    have hnameNotPre : L.op.name ∉ pre.map (fun L2 => L2.op.name) := by
      intro hc
      exact (List.nodup_append.1 hnds).2.2 hc (List.mem_cons_self _ _)
    have hassoc : (pre ++ [L]) ++ suf = pre ++ L :: suf := by simp
    have hκstep : ∀ L2 ∈ m.layers, L2.op.name ≠ L.op.name →
        replayCount m ((pre ++ [L]).map (fun L3 => L3.op.name)) L2.op.name
          = replayCount m (pre.map (fun L3 => L3.op.name)) L2.op.name := by
      intro L2 hL2 hn2
      simp only [replayCount]
      cases hfl2 : m.findLayer L2.op.name with
      | none => rfl
      | some L3 =>
        dsimp only
        by_cases hk3 : L3.op.kind = .inputLayer
        · rw [if_pos hk3, if_pos hk3]
        · rw [if_neg hk3, if_neg hk3]
          have hcont : ((pre ++ [L]).map (fun L3 => L3.op.name)).contains L2.op.name
              = (pre.map (fun L3 => L3.op.name)).contains L2.op.name := by
            rw [List.map_append, List.map_cons, List.map_nil]
            exact contains_append_one hn2
          rw [hcont]
    have hLKfull : replayCount m ((pre ++ [L]).map (fun L3 => L3.op.name)) L.op.name
        = (if L.op.kind = .inputLayer then 0 else (keptIndices m L).length) := by
      simp only [replayCount]
      rw [findLayer_of_mem hnames hL]
      dsimp only
      by_cases hki : L.op.kind = .inputLayer
      · rw [if_pos hki, if_pos hki]
      · rw [if_neg hki, if_neg hki]
        rw [if_pos (contains_true_of_mem (by
          rw [List.map_append, List.map_cons, List.map_nil]
          exact List.mem_append_right _ (List.mem_cons_self _ _)))]
    by_cases hki : L.op.kind = .inputLayer
    · -- input layer: no queue entry, state unchanged
      have hcfgI : (layerCfgOf m L).inboundNodes = [] :=
        layerCfg_inbound_input (hlayers L hL) hki
      have hpend : initPending ((L :: suf).map (layerCfgOf m))
          = initPending (suf.map (layerCfgOf m)) := by
        rw [List.map_cons]
        exact initPending_cons_empty (by rw [hcfgI]; rfl)
      have hlk : (initPending (suf.map (layerCfgOf m))).lookup
          ((layerCfgOf m L).op.name) = none := by
        apply lookup_eq_none
        intro e he hc
        have hkey : e.1 ∈ (suf.map (layerCfgOf m)).map (fun lc => lc.op.name) :=
          initPending_keys_sub (List.mem_map_of_mem _ he)
        rw [List.map_map] at hkey
        rw [hc] at hkey
        exact hnameNotSuf hkey
      have hcEq : createdK m (replayCount m (pre.map (fun L2 => L2.op.name)))
          = createdK m (replayCount m ((pre ++ [L]).map (fun L2 => L2.op.name))) := by
        apply List.map_congr_left
        intro L2 hL2
        congr 1
        by_cases hn2 : L2.op.name = L.op.name
        · have hL2L : L2 = L := layer_name_inj hnames hL2 hL hn2
          subst hL2L
          rw [hLKfull, if_pos hki]
          simp only [replayCount]
          rw [findLayer_of_mem hnames hL2]
          dsimp only
          rw [if_pos hki]
        · exact (hκstep L2 hL2 hn2).symm
      rw [hpend, List.map_cons]
      rw [processPass_cons_none hlk]
      rw [hcEq, ← hassoc]
      exact ih (pre ++ [L]) (by rw [hsplit, ← hassoc])
    · -- a plain or nested-functional layer: drain its queue
      have hcnt1 : 1 ≤ (keptIndices m L).length := keptLen_pos (hlayers L hL)
      have hcfgN : (layerCfgOf m L).inboundNodes
          = modernChunk L (keptBase L.op.kind) (keptIndices m L).length :=
        layerCfg_inbound_nonInput (hlayers L hL) (wfContiguous_at hctg hL) hki
      have hmem0 : keptBase L.op.kind ∈ keptIndices m L := by
        rw [wfContiguous_at hctg hL]
        exact mem_range1.2 ⟨by omega, by omega⟩
      obtain ⟨nd0, hnd0, _, _, _, _, _⟩ := wfLayer_node (hlayers L hL) hmem0
      have hchne : (layerCfgOf m L).inboundNodes.isEmpty = false := by
        rw [hcfgN]
        obtain ⟨c0, hc0⟩ : ∃ c, (keptIndices m L).length = c + 1 :=
          ⟨(keptIndices m L).length - 1, by omega⟩
        rw [hc0, modernChunk_cons L _ c0 hnd0]
        rfl
      have hpend : initPending ((L :: suf).map (layerCfgOf m))
          = ((layerCfgOf m L).op.name, (layerCfgOf m L).inboundNodes)
            :: initPending (suf.map (layerCfgOf m)) := by
        rw [List.map_cons]
        exact initPending_cons_ne hchne
      have hdone0 : ∀ L0 ∈ m.layers, ∀ j0, layerPos m L0.op.name = some j0 →
          j0 < pre.length → L0.op.kind ≠ .inputLayer →
          replayCount m (pre.map (fun L2 => L2.op.name)) L0.op.name
            = (keptIndices m L0).length := by
        intro L0 hL0 j0 hlp0 hj0 hk0
        obtain ⟨x, hx, hxn, _⟩ := layerPos_at hlp0
        have hxL0 : x = L0 := layer_name_inj hnames (List.get?_mem hx) hL0 hxn
        subst hxL0
        have hxpre : x ∈ pre := by
          rw [hsplit, List.get?_append hj0] at hx
          exact List.get?_mem hx
        simp only [replayCount]
        rw [findLayer_of_mem hnames hL0]
        dsimp only
        rw [if_neg hk0]
        rw [if_pos (contains_true_of_mem (List.mem_map_of_mem _ hxpre))]
      have hbound0 : ∀ L0 ∈ m.layers,
          replayCount m (pre.map (fun L2 => L2.op.name)) L0.op.name
            ≤ (keptIndices m L0).length := by
        intro L0 hL0
        simp only [replayCount]
        rw [findLayer_of_mem hnames hL0]
        dsimp only
        by_cases h1 : L0.op.kind = .inputLayer
        · rw [if_pos h1]
          omega
        · rw [if_neg h1]
          by_cases h2 : ((pre.map (fun L2 => L2.op.name)).contains L0.op.name) = true
          · rw [if_pos h2]
          · rw [if_neg h2]
            omega
      have hκ0 : replayCount m (pre.map (fun L2 => L2.op.name)) L.op.name = 0 := by
        simp only [replayCount]
        rw [findLayer_of_mem hnames hL]
        dsimp only
        rw [if_neg hki]
        rw [if_neg (by rw [contains_false_of_not_mem hnameNotPre]; simp)]
      have hq := queue_drains hwfb hctg hio hP hL hki (keptIndices m L).length
        (replayCount m (pre.map (fun L2 => L2.op.name))) hdone0 hbound0 0
        (by omega) hκ0
      rw [Nat.add_zero] at hq
      have hpq : processLayerQueue
          (createdK m (replayCount m (pre.map (fun L2 => L2.op.name))))
          ((layerCfgOf m L).op.name) ((layerCfgOf m L).inboundNodes)
          = .ok (createdK m (fun n => if n = L.op.name
              then (keptIndices m L).length
              else replayCount m (pre.map (fun L2 => L2.op.name)) n), []) := by
        rw [hcfgN]
        exact hq
      have hlk2 : (((layerCfgOf m L).op.name, (layerCfgOf m L).inboundNodes)
          :: initPending (suf.map (layerCfgOf m))).lookup
            ((layerCfgOf m L).op.name)
          = some ((layerCfgOf m L).inboundNodes) := by
        rw [List.lookup]
        simp
      have hErase : pendingErase
          (((layerCfgOf m L).op.name, (layerCfgOf m L).inboundNodes)
            :: initPending (suf.map (layerCfgOf m))) ((layerCfgOf m L).op.name)
          = initPending (suf.map (layerCfgOf m)) := by
        have h1 : pendingErase
            (((layerCfgOf m L).op.name, (layerCfgOf m L).inboundNodes)
              :: initPending (suf.map (layerCfgOf m))) ((layerCfgOf m L).op.name)
            = pendingErase (initPending (suf.map (layerCfgOf m)))
                ((layerCfgOf m L).op.name) := by
          simp [pendingErase, List.filter_cons]
        rw [h1]
        apply pendingErase_absent
        intro hc
        have hkey := initPending_keys_sub hc
        rw [List.map_map] at hkey
        exact hnameNotSuf hkey
      have hcEq2 : createdK m (fun n => if n = L.op.name
            then (keptIndices m L).length
            else replayCount m (pre.map (fun L2 => L2.op.name)) n)
          = createdK m (replayCount m ((pre ++ [L]).map (fun L2 => L2.op.name))) := by
        apply List.map_congr_left
        intro L2 hL2
        by_cases hn2 : L2.op.name = L.op.name
        · have hL2L : L2 = L := layer_name_inj hnames hL2 hL hn2
          subst hL2L
          show rlayerAt L2 (if L2.op.name = L2.op.name
              then (keptIndices m L2).length
              else replayCount m (pre.map (fun L3 => L3.op.name)) L2.op.name) = _
          rw [if_pos rfl]
          rw [hLKfull, if_neg hki]
        · show rlayerAt L2 (if L2.op.name = L.op.name
              then (keptIndices m L).length
              else replayCount m (pre.map (fun L3 => L3.op.name)) L2.op.name) = _
          rw [if_neg hn2]
          rw [← hκstep L2 hL2 hn2]
      rw [hpend, List.map_cons]
      rw [processPass_cons_some hlk2 hpq]
      rw [show (([] : List NodeData).isEmpty) = true from rfl]
      rw [if_pos rfl]
      rw [hErase, hcEq2, ← hassoc]
      exact ih (pre ++ [L]) (by rw [hsplit, ← hassoc])

theorem processPass_empty_pending (cfgLayers : List LayerCfg) (c : List RLayer) :
    processPass cfgLayers (c, ([] : Pending)) = .ok (c, []) := by
  induction cfgLayers with
  | nil => rfl
  | cons lc rest ih =>
    rw [processPass_cons_none
      (show (([] : Pending)).lookup lc.op.name = none from rfl)]
    exact ih

theorem runLoop_empty (cfgLayers : List LayerCfg) (f : Nat) (c : List RLayer) :
    runLoop cfgLayers f (c, ([] : Pending)) = .ok (c, []) := by
  cases f with
  | zero => rfl
  | succ f => rfl

theorem runLoop_via_pass {cfgLayers : List LayerCfg} {c cF : List RLayer}
    {p : Pending} (hpass : processPass cfgLayers (c, p) = .ok (cF, []))
    (f : Nat) :
    runLoop cfgLayers (f + 1) (c, p) = .ok (cF, []) := by
  by_cases hpe : p.isEmpty = true
  · have hp0 : p = [] := by simpa using hpe
    subst hp0
    have h2 := processPass_empty_pending cfgLayers c
    have h3 := h2.symm.trans hpass
    simp only [Except.ok.injEq, Prod.mk.injEq] at h3
    rw [runLoop_empty, h3.1]
  · have hpe2 : p.isEmpty = false := by simpa using hpe
    simp only [runLoop, hpe2, hpass]
    exact runLoop_empty cfgLayers f cF

theorem tensorConfigOf_id {m : FModel} (hwfb : wfBase m = true)
    (hctg : wfContiguous m = true) {r : TensorRef}
    (hkept : m.kept.contains (r.layerName, r.nodeIndex) = true) :
    tensorConfigOf m r = some r := by
  obtain ⟨hnames, hke, _, _, _⟩ := wfBase_parts hwfb
  obtain ⟨L0, nd, hfl, hget⟩ := wfKept_at hke (kept_mem hkept)
  have hL0mem : L0 ∈ m.layers := List.mem_of_find?_eq_some hfl
  have hname : L0.op.name = r.layerName := by
    have := List.find?_some hfl
    simpa using this
  have hlt : r.nodeIndex < L0.inbound.length := by
    by_contra hc
    rw [List.get?_eq_none.2 (by omega)] at hget
    exact absurd hget (by simp)
  have hkidx : r.nodeIndex ∈ keptIndices m L0 :=
    mem_keptIndices_of hlt (by rw [hname]; exact hkept)
  have hri := nodeReindex_id hctg hL0mem hkidx
  rw [hname] at hri
  show (nodeReindex m r.layerName r.nodeIndex).map _ = some r
  rw [hri]
  rfl

theorem getConfig_wf {m : FModel} (hwfb : wfBase m = true)
    (hctg : wfContiguous m = true) :
    getConfig m = some { layers := m.layers.map (layerCfgOf m),
                         inputLayers := m.inputRefs,
                         outputLayers := m.outputRefs } := by
  obtain ⟨_, _, _, hin, hout⟩ := wfBase_parts hwfb
  have h1 : optionMapList (tensorConfigOf m) m.inputRefs = some m.inputRefs :=
    optionMapList_id (fun r hr => tensorConfigOf_id hwfb hctg
      (wfRef_parts (hin r hr).1).1)
  have h2 : optionMapList (tensorConfigOf m) m.outputRefs = some m.outputRefs :=
    optionMapList_id (fun r hr => tensorConfigOf_id hwfb hctg
      (wfRef_parts (hout r hr)).1)
  simp only [getConfig, h1, h2]

theorem optionMapList_total {α β : Type} {f : α → Option β} :
    ∀ {l : List α}, (∀ x ∈ l, ∃ y, f x = some y) →
      ∃ ys, optionMapList f l = some ys := by
  intro l
  induction l with
  | nil => intro _; exact ⟨[], rfl⟩
  | cons a as ih =>
    intro h
    obtain ⟨y, hy⟩ := h a (List.mem_cons_self _ _)
    obtain ⟨ys, hys⟩ := ih (fun x hx => h x (List.mem_cons_of_mem _ hx))
    exact ⟨y :: ys, by simp only [optionMapList, hy, hys]⟩

theorem replayCount_zero (m : FModel) (n : String) :
    replayCount m ([] : List String) n = 0 := by
  simp only [replayCount]
  cases hfl : m.findLayer n with
  | none => rfl
  | some L3 =>
    dsimp only
    by_cases hk : L3.op.kind = .inputLayer
    · rw [if_pos hk]
    · rw [if_neg hk, if_neg (by simp)]

theorem initCreated_eq (m : FModel) :
    initCreated (m.layers.map (layerCfgOf m))
      = createdK m (replayCount m ([] : List String)) := by
  show (m.layers.map (layerCfgOf m)).map _ = m.layers.map _
  rw [List.map_map]
  apply List.map_congr_left
  intro L hL
  rw [replayCount_zero]
  show ({ op := L.op, nodes := autoNodes L.op } : RLayer) = rlayerAt L 0
  show ({ op := L.op, nodes := autoNodes L.op } : RLayer)
    = { op := L.op, nodes := autoNodes L.op ++ nodeChunk L (keptBase L.op.kind) 0 }
  congr 1
  exact (List.append_nil _).symm

theorem replayCount_le {m : FModel}
    (hnames : (m.layers.map (fun L => L.op.name)).Nodup) (names : List String) :
    ∀ L0 ∈ m.layers, replayCount m names L0.op.name
      ≤ (keptIndices m L0).length := by
  intro L0 hL0
  simp only [replayCount]
  rw [findLayer_of_mem hnames hL0]
  dsimp only
  by_cases h1 : L0.op.kind = .inputLayer
  · rw [if_pos h1]
    omega
  · rw [if_neg h1]
    by_cases h2 : names.contains L0.op.name = true
    · rw [if_pos h2]
    · rw [if_neg h2]
      omega

theorem replayCount_full {m : FModel}
    (hnames : (m.layers.map (fun L => L.op.name)).Nodup) {L : LayerRec}
    (hL : L ∈ m.layers) (hk : L.op.kind ≠ .inputLayer) :
    replayCount m (m.layers.map (fun L2 => L2.op.name)) L.op.name
      = (keptIndices m L).length := by
  simp only [replayCount]
  rw [findLayer_of_mem hnames hL]
  dsimp only
  rw [if_neg hk, if_pos (contains_true_of_mem (List.mem_map_of_mem _ hL))]

theorem ready_full {m : FModel} (hwfb : wfBase m = true)
    (hctg : wfContiguous m = true) {r : TensorRef}
    (hkept : m.kept.contains (r.layerName, r.nodeIndex) = true) :
    ∀ L0, m.findLayer r.layerName = some L0 → L0.op.kind ≠ .inputLayer →
      r.nodeIndex < keptBase L0.op.kind
        + replayCount m (m.layers.map (fun L => L.op.name)) r.layerName := by
  intro L0 hfl hk0
  obtain ⟨hnames, hke, _, _, _⟩ := wfBase_parts hwfb
  have hname : L0.op.name = r.layerName := by
    have := List.find?_some hfl
    simpa using this
  have hL0mem : L0 ∈ m.layers := List.mem_of_find?_eq_some hfl
  obtain ⟨L1, nd1, hfl1, hget1⟩ := wfKept_at hke (kept_mem hkept)
  have hL1e : L1 = L0 := by
    have := hfl1.symm.trans hfl
    simpa using this
  subst hL1e
  have hlt1 : r.nodeIndex < L1.inbound.length := by
    by_contra hc
    rw [List.get?_eq_none.2 (by omega)] at hget1
    exact absurd hget1 (by simp)
  have hkidx : r.nodeIndex ∈ keptIndices m L1 :=
    mem_keptIndices_of hlt1 (by rw [hname]; exact hkept)
  rw [wfContiguous_at hctg hL0mem] at hkidx
  have hrange := mem_range1.1 hkidx
  rw [← hname, replayCount_full hnames hL0mem hk0]
  omega

theorem getTensor_full {m : FModel} (hwfb : wfBase m = true)
    (hctg : wfContiguous m = true) {r : TensorRef} {s : Shape}
    (hrs : m.refShape r = some s)
    (hkept : m.kept.contains (r.layerName, r.nodeIndex) = true) :
    getTensor (createdK m (replayCount m (m.layers.map (fun L => L.op.name)))) r
      = .ok s := by
  obtain ⟨hnames, _, _, _, _⟩ := wfBase_parts hwfb
  exact (resolve_ready hwfb hctg _ (replayCount_le hnames _) hrs hkept
    (ready_full hwfb hctg hkept)).2

theorem roundtrip_node {m : FModel} (hwfb : wfBase m = true)
    (hctg : wfContiguous m = true) {nm : String} {i : Nat}
    (hkept : (nm, i) ∈ m.kept) :
    ∃ L nd rL rnd, m.findLayer nm = some L ∧ L.inbound.get? i = some nd ∧
      findCreated
        (createdK m (replayCount m (m.layers.map (fun L2 => L2.op.name)))) nm
        = some rL ∧
      rL.nodes.get? i = some rnd ∧ rnd.args = nd.args ∧
      rnd.outputs = nd.outputs := by
  obtain ⟨hnames, hke, hlayers, _, _⟩ := wfBase_parts hwfb
  obtain ⟨L, nd, hfl, hget⟩ := wfKept_at hke hkept
  have hLmem : L ∈ m.layers := List.mem_of_find?_eq_some hfl
  have hname : L.op.name = nm := by
    have := List.find?_some hfl
    simpa using this
  have hlt : i < L.inbound.length := by
    by_contra hc
    rw [List.get?_eq_none.2 (by omega)] at hget
    exact absurd hget (by simp)
  have hcont : m.kept.contains (nm, i) = true := by simpa using hkept
  have hkidx : i ∈ keptIndices m L :=
    mem_keptIndices_of hlt (by rw [hname]; exact hcont)
  have hfc := createdK_find
    (replayCount m (m.layers.map (fun L2 => L2.op.name))) hnames hLmem
  rw [hname] at hfc
  by_cases hk : L.op.kind = .inputLayer
  · obtain ⟨hlen1, _, nd0, hnd0, hargs0⟩ := wfLayer_input (hlayers L hLmem) hk
    have hi0 : i = 0 := by omega
    subst hi0
    have hnd0e : nd0 = nd := by
      have := hnd0.symm.trans hget
      simpa using this
    rw [hnd0e] at hargs0
    obtain ⟨nd2, hnd2, _, _, ss, hss, houts⟩ := wfLayer_node (hlayers L hLmem) hkidx
    have hnd2e : nd2 = nd := by
      have := hnd2.symm.trans hget
      simpa using this
    rw [hnd2e] at hss houts
    rw [hargs0] at hss
    have hssnil : ss = [] := by
      have h2 : (some ([] : List Shape)) = some ss := hss
      simpa using h2.symm
    subst hssnil
    refine ⟨L, nd, _, ⟨[], L.op.callShapes []⟩, hfl, hget, hfc,
      rlayerAt_get_input hk _, hargs0.symm, houts.symm⟩
  · have hκ := replayCount_full hnames hLmem hk
    have hall : ∀ t, t < (keptIndices m L).length →
        ∃ nd3, L.inbound.get? (keptBase L.op.kind + t) = some nd3 := by
      intro t ht
      have hmem : keptBase L.op.kind + t ∈ keptIndices m L := by
        rw [wfContiguous_at hctg hLmem]
        exact mem_range1.2 ⟨by omega, by omega⟩
      obtain ⟨nd3, hnd3, _⟩ := wfLayer_node (hlayers L hLmem) hmem
      exact ⟨nd3, hnd3⟩
    have hrange : keptBase L.op.kind ≤ i ∧
        i < keptBase L.op.kind + (keptIndices m L).length := by
      have h2 := hkidx
      rw [wfContiguous_at hctg hLmem] at h2
      exact mem_range1.1 h2
    have hgetn : (rlayerAt L
        (replayCount m (m.layers.map (fun L2 => L2.op.name)) L.op.name)).nodes.get? i
        = some (rnodeOf nd) := by
      rw [hκ]
      exact rlayerAt_get_replayed hk hrange.1 hrange.2 hall hget
    rw [hname] at hgetn
    exact ⟨L, nd, _, rnodeOf nd, hfl, hget, hfc, hgetn, rfl, rfl⟩

/-- **C1.**  Amended round-trip: for a functional model whose constructor
state is well formed (`wfBase`), whose kept node indices are contiguous after
the `get_config` reindexing base (`wfContiguous`), and whose layer list is
topologically ordered (`wfInOrder`), `get_config` succeeds and
`functional_from_config` rebuilds a model with the same layer names, the same
arguments and output shapes at every kept node, and the same output shapes.
(The unamended claim fails: without in-order contiguity the modern-format
`deserialize_node` in this source raises `ValueError` for a forward node
reference instead of the `IndexError` the deferral handler catches.) -/
theorem functional_config_roundtrip (m : FModel) (hwf : wfRoundtrip m = true) :
    ∃ cfg, getConfig m = some cfg ∧
    ∃ rm, functionalFromConfig cfg = .ok rm ∧
      rm.layers.map (fun rl => rl.op.name) = m.layers.map (fun L => L.op.name) ∧
      (∀ nm i, (nm, i) ∈ m.kept → ∃ L nd rL rnd,
        m.findLayer nm = some L ∧ L.inbound.get? i = some nd ∧
        findCreated rm.layers nm = some rL ∧ rL.nodes.get? i = some rnd ∧
        rnd.args = nd.args ∧ rnd.outputs = nd.outputs) ∧
      m.outputShapes = some rm.outputShapes := by
  obtain ⟨hwfb, hctg, hio⟩ := wf_unpack hwf
  obtain ⟨hnames, hke, hlayers, hin, hout⟩ := wfBase_parts hwfb
  refine ⟨_, getConfig_wf hwfb hctg, ?_⟩
  have hpass := pass_drains hwfb hctg hio m.layers [] rfl
  rw [List.map_nil, List.nil_append] at hpass
  have hpass2 : processPass (m.layers.map (layerCfgOf m))
      (initCreated (m.layers.map (layerCfgOf m)),
        initPending (m.layers.map (layerCfgOf m)))
      = .ok (createdK m (replayCount m (m.layers.map (fun L => L.op.name))), []) := by
    rw [initCreated_eq]
    exact hpass
  have hrun := runLoop_via_pass hpass2
    (pendingCount (initPending (m.layers.map (layerCfgOf m))))
  obtain ⟨outSS, houtSS⟩ := optionMapList_total
    (l := m.outputRefs) (fun r hr => (wfRef_parts (hout r hr)).2)
  obtain ⟨inSS, hinSS⟩ := optionMapList_total
    (l := m.inputRefs) (fun r hr => (wfRef_parts (hin r hr).1).2)
  have hmapOut : exceptMapList
      (getTensor (createdK m (replayCount m (m.layers.map (fun L => L.op.name)))))
      m.outputRefs = .ok outSS :=
    exceptMapList_agree houtSS (fun r hr s hs =>
      getTensor_full hwfb hctg hs (wfRef_parts (hout r hr)).1)
  have hmapIn : exceptMapList
      (getTensor (createdK m (replayCount m (m.layers.map (fun L => L.op.name)))))
      m.inputRefs = .ok inSS :=
    exceptMapList_agree hinSS (fun r hr s hs =>
      getTensor_full hwfb hctg hs (wfRef_parts (hin r hr).1).1)
  refine ⟨{ layers := createdK m (replayCount m (m.layers.map (fun L => L.op.name))),
            inputShapes := inSS, outputShapes := outSS }, ?_, ?_, ?_, ?_⟩
  · simp only [functionalFromConfig, reconstructWith, hrun, hmapIn, hmapOut]
  · show (createdK m (replayCount m (m.layers.map (fun L => L.op.name)))).map
        (fun rl => rl.op.name) = m.layers.map (fun L => L.op.name)
    simp only [createdK, List.map_map]
    apply List.map_congr_left
    intro L hL
    rfl
  · intro nm i hkept
    obtain ⟨L, nd, rL, rnd, h1, h2, h3, h4, h5, h6⟩ :=
      roundtrip_node hwfb hctg hkept
    exact ⟨L, nd, rL, rnd, h1, h2, h3, h4, h5, h6⟩
  · exact houtSS

/-- Counterexample to the unamended C1 statement: `mAB` satisfies the
constructor guarantees (`wfBase`) and `get_config` succeeds on it, yet
rebuilding from that config raises `ValueError` (shared-layer history whose
node references run ahead of the replay order). -/
theorem functional_roundtrip_counterexample :
    wfBase mAB = true ∧ (getConfig mAB).isSome = true ∧
    (getConfig mAB).map functionalFromConfig
      = some (.error .nodeIndexValueError) :=
  ⟨rfl, rfl, rfl⟩

/-- Witness: the concrete two-layer model `D(x)` satisfies the round-trip
well-formedness and the amended C1 conclusion holds on it. -/
theorem functional_config_roundtrip_witness :
    wfRoundtrip mSimple = true ∧
    (∃ cfg, getConfig mSimple = some cfg ∧
      ∃ rm, functionalFromConfig cfg = .ok rm ∧
        rm.layers.map (fun rl => rl.op.name)
          = mSimple.layers.map (fun L => L.op.name) ∧
        (∀ nm i, (nm, i) ∈ mSimple.kept → ∃ L nd rL rnd,
          mSimple.findLayer nm = some L ∧ L.inbound.get? i = some nd ∧
          findCreated rm.layers nm = some rL ∧ rL.nodes.get? i = some rnd ∧
          rnd.args = nd.args ∧ rnd.outputs = nd.outputs) ∧
        mSimple.outputShapes = some rm.outputShapes) :=
  ⟨rfl, functional_config_roundtrip mSimple rfl⟩
end Keras
